import Mathlib

/-! # cppcube: the ASCII wireframe-cube renderer of `src/main.cpp`

A shallow embedding of the rendering pipeline (`createCube`, `rotatePoint`,
`projectPoint`, `drawLine` and the frame composition of `main`) followed by the
properties established about it.

Modelling conventions.

* `double` values are elements of an arbitrary linearly ordered field `K` with a
  floor function (`ℚ` for evaluation, `ℝ` for the analytic statements); all
  floating-point rounding is therefore abstracted away.
* `cos` and `sin` from `<cmath>` are parameters of `rotatePoint`; the analytic
  statements instantiate them with `Real.cos` and `Real.sin`.
* The `while (true)` loop of `drawLine` is a fuel-indexed recursion returning
  `none` when the fuel runs out before the `break`.
* `int` is read in two ways. The exact reading (`lineStep`, `drawLine`,
  `truncToInt`, `projectPoint`, `depthIndex`) computes in the mathematical
  integers. The 32-bit reading (`lineStep32`, `drawLine32`, `staticCastInt`,
  `projectPoint32`, `depthIndex32`) wraps every `int` result into
  `[-2^31, 2^31)`, converts an out-of-range `double` to `INT_MIN`, and returns
  nothing when `screen[0]` is read on an empty buffer. The two agree while no
  value leaves the `int` range (`lineStateAt32_eq`, `staticCastInt_eq`,
  `drawLine32_eq_exact`); statements that depend on the range of `int` are made
  on the 32-bit reading. The frames of `main` never leave that range: the frame
  composer of the 32-bit reading returns the frame of the exact reading for all
  angles (`composeFrame32_eq_exact`), so the statements about frames are made on
  the exact reading.
-/

namespace CppCube

/-! ## Data model -/

/-- The struct `Point3D` (lines 11–13). -/
structure Point3D (K : Type) where
  x : K
  y : K
  z : K

/-- The struct `ProjectedPoint` (lines 15–18). -/
structure ProjectedPoint (K : Type) where
  x : Int
  y : Int
  z : K

/-- The frame buffer `std::vector<std::vector<char>>`: a list of rows. -/
abbrev Screen := List (List Char)

section Pipeline

variable {K : Type} [LinearOrderedField K] [FloorRing K]

/-- The conversion `static_cast<int>(double)`: truncation toward zero. -/
def truncToInt (r : K) : Int :=
  if 0 ≤ r then ⌊r⌋ else ⌈r⌉

/-! ## Transform and projector -/

/-- The function `rotatePoint` (lines 43–55), returning the mutated point.
The library functions `cos` and `sin` are passed in as parameters. -/
def rotatePoint (cos sin : K → K) (point : Point3D K) (angle_x angle_y : K) : Point3D K :=
  -- Rotate around X axis
  let y := point.y * cos angle_x - point.z * sin angle_x
  let z := point.y * sin angle_x + point.z * cos angle_x
  let point : Point3D K := { point with y := y, z := z }
  -- Rotate around Y axis
  let x := point.x * cos angle_y + point.z * sin angle_y
  let z := -point.x * sin angle_y + point.z * cos angle_y
  { point with x := x, z := z }

/-- The function `projectPoint` (lines 57–64). `width / 2` is C++ integer
division (truncating), converted to `double` before the addition. -/
def projectPoint (point : Point3D K) (width height : Int) : ProjectedPoint K :=
  let factor : K := 5
  { x := truncToInt (point.x * factor + ((Int.tdiv width 2 : Int) : K))
    y := truncToInt (point.y * factor + ((Int.tdiv height 2 : Int) : K))
    z := point.z }

/-! ## Rasterizer -/

/-- The character ramp `chars` of `drawLine` (line 82). -/
def chars : List Char :=
  ['.', ',', '-', '~', ':', ';', '=', '*', '!', '#', '$', '@']

/-- Lines 86–87 of `drawLine`: the interpolated depth of the sample taken when
the step counter is `current_step`. -/
def interpolatedZ (p1 p2 : ProjectedPoint K) (total_steps current_step : K) : K :=
  -- Calculate interpolated z
  let t : K := if total_steps = 0 then 0 else current_step / total_steps
  p1.z + t * (p2.z - p1.z)

/-- Lines 90–92 of `drawLine`: the clamped ramp index of a depth `z`. -/
def depthIndex (z min_z max_z : K) : Int :=
  -- Normalize z to [0, 1]
  let normalized_z := (z - min_z) / (max_z - min_z)
  let index := truncToInt (normalized_z * 11 + 0.5)
  max 0 (min 11 index)

/-- Lines 86–92 of `drawLine`: the clamped ramp index of the sample taken when
the step counter is `current_step`. -/
def shadeIndex (p1 p2 : ProjectedPoint K) (min_z max_z total_steps current_step : K) : Int :=
  depthIndex (interpolatedZ p1 p2 total_steps current_step) min_z max_z

/-- Line 93 of `drawLine`: the ramp character `chars[index]`. -/
def rampChar (index : Int) : Char :=
  chars.getD index.toNat ' '

/-- The assignment `screen[y][x] = c` on a list of rows. -/
def writeCell (screen : Screen) (y x : Nat) (c : Char) : Screen :=
  screen.set y ((screen.getD y []).set x c)

/-- Lines 95–97 of `drawLine`: the bounds-checked write. -/
def plot (width height : Int) (screen : Screen) (x y : Int) (c : Char) : Screen :=
  if 0 ≤ x ∧ x < width ∧ 0 ≤ y ∧ y < height then writeCell screen y.toNat x.toNat c
  else screen

/-- The integer loop variables `x`, `y`, `err` of `drawLine`. -/
structure LineState where
  x : Int
  y : Int
  err : Int
deriving DecidableEq, Repr

/-- Lines 101–109 of `drawLine`: one Bresenham update of `x`, `y`, `err`. -/
def lineStep (dx dy sx sy : Int) (s : LineState) : LineState :=
  let e2 := 2 * s.err
  let s : LineState := if e2 > -dy then { s with err := s.err - dy, x := s.x + sx } else s
  if e2 < dx then { s with err := s.err + dx, y := s.y + sy } else s

/-- The `while (true)` loop of `drawLine` (lines 84–112). One unit of fuel is
spent per iteration; `none` means the fuel ran out before the `break`. -/
def drawLineLoop (p1 p2 : ProjectedPoint K) (min_z max_z : K) (width height dx dy sx sy : Int)
    (total_steps : K) : Nat → Screen → LineState → K → Option Screen
  | 0, _, _, _ => none
  | fuel + 1, screen, s, current_step =>
    let index := shadeIndex p1 p2 min_z max_z total_steps current_step
    let c := rampChar index
    let screen := plot width height screen s.x s.y c
    if s.x = p2.x ∧ s.y = p2.y then some screen
    else
      drawLineLoop p1 p2 min_z max_z width height dx dy sx sy total_steps fuel screen
        (lineStep dx dy sx sy s) (current_step + 1)

/-- The function `drawLine` (lines 66–113), returning the mutated buffer. -/
def drawLine (fuel : Nat) (screen : Screen) (p1 p2 : ProjectedPoint K) (min_z max_z : K) :
    Option Screen :=
  let width : Int := (screen.headD []).length
  let height : Int := screen.length
  let dx : Int := |p2.x - p1.x|
  let dy : Int := |p2.y - p1.y|
  let sx : Int := if p1.x < p2.x then 1 else -1
  let sy : Int := if p1.y < p2.y then 1 else -1
  let err := dx - dy
  let total_steps : K := ((max dx dy : Int) : K)
  drawLineLoop p1 p2 min_z max_z width height dx dy sx sy total_steps fuel screen
    { x := p1.x, y := p1.y, err := err } 0

/-! ## Derived observations of the loop -/

/-- The value `std::max(dx, dy)` of line 79, as a natural number. -/
def totalSteps (x1 y1 x2 y2 : Int) : Nat :=
  (max |x2 - x1| |y2 - y1|).toNat

/-- The loop variables of `drawLine` when the loop is entered (lines 74–77). -/
def lineStart (x1 y1 x2 y2 : Int) : LineState :=
  { x := x1, y := y1, err := |x2 - x1| - |y2 - y1| }

/-- The loop variables of `drawLine` after `k` executions of lines 101–109. -/
def lineStateAt (x1 y1 x2 y2 : Int) (k : Nat) : LineState :=
  (lineStep |x2 - x1| |y2 - y1| (if x1 < x2 then 1 else -1) (if y1 < y2 then 1 else -1))^[k]
    (lineStart x1 y1 x2 y2)

/-- Remaining distance to the endpoint: `max(|x2 - x|, |y2 - y|)`. -/
def remaining (x2 y2 : Int) (s : LineState) : Int :=
  max |x2 - s.x| |y2 - s.y|

/-- The ramp index computed in the iteration with step counter `k`. -/
def indexAt (p1 p2 : ProjectedPoint K) (min_z max_z : K) (k : Nat) : Int :=
  shadeIndex p1 p2 min_z max_z ((totalSteps p1.x p1.y p2.x p2.y : Nat) : K) (k : K)

/-- Content of the cell in row `y`, column `x`, if the buffer has such a cell. -/
def getCell (screen : Screen) (y x : Nat) : Option Char :=
  (screen.get? y).bind fun row => row.get? x

/-- Replays a list of samples `(x, y, c)` through the bounds-checked write. -/
def plotAll (width height : Int) (screen : Screen) (samples : List (Int × Int × Char)) : Screen :=
  samples.foldl (fun scr q => plot width height scr q.1 q.2.1 q.2.2) screen

/-- The samples of a line, in loop order: position and ramp character of each
of the first `n` iterations. -/
def lineSamples (p1 p2 : ProjectedPoint K) (min_z max_z : K) (n : Nat) : List (Int × Int × Char) :=
  (List.range n).map fun k =>
    ((lineStateAt p1.x p1.y p2.x p2.y k).x, (lineStateAt p1.x p1.y p2.x p2.y k).y,
      rampChar (indexAt p1 p2 min_z max_z k))

/-- The blank frame buffer of `main` (line 129): `height` rows of `width` spaces. -/
def blankScreen (width height : Nat) : Screen :=
  List.replicate height (List.replicate width ' ')

/-! ## The rasterizer and the projector on 32-bit `int`

The definitions above read `int` as a mathematical integer and the conversion
`static_cast<int>` as exact truncation. The definitions of this part read the
same source lines with the arithmetic of a 32-bit `int`: every operation that
can leave the range `[-2^31, 2^31)` wraps around (`wrap32`), the conversion of
an out-of-range `double` yields `INT_MIN` (`staticCastInt`), the narrowing of
`size()` to `int` wraps, and `screen[0]` on an empty buffer returns nothing. -/

/-- The value stored in a 32-bit `int` for the mathematical result `n`:
two's-complement wrap-around into `[-2^31, 2^31)`. -/
def wrap32 (n : Int) : Int :=
  (n + 2147483648) % 4294967296 - 2147483648

/-- The conversion `static_cast<int>(double)` on 32-bit `int`: truncation toward
zero when the truncated value is an `int`, and `INT_MIN` otherwise. -/
def staticCastInt (r : K) : Int :=
  if -2147483648 ≤ truncToInt r ∧ truncToInt r ≤ 2147483647 then truncToInt r else -2147483648

/-- The function `projectPoint` (lines 57–64) with the 32-bit conversion. -/
def projectPoint32 (point : Point3D K) (width height : Int) : ProjectedPoint K :=
  let factor : K := 5
  { x := staticCastInt (point.x * factor + ((Int.tdiv width 2 : Int) : K))
    y := staticCastInt (point.y * factor + ((Int.tdiv height 2 : Int) : K))
    z := point.z }

/-- Lines 90–92 of `drawLine` with the 32-bit conversion. -/
def depthIndex32 (z min_z max_z : K) : Int :=
  -- Normalize z to [0, 1]
  let normalized_z := (z - min_z) / (max_z - min_z)
  let index := staticCastInt (normalized_z * 11 + 0.5)
  max 0 (min 11 index)

/-- Lines 86–92 of `drawLine` with the 32-bit conversion. -/
def shadeIndex32 (p1 p2 : ProjectedPoint K) (min_z max_z total_steps current_step : K) : Int :=
  depthIndex32 (interpolatedZ p1 p2 total_steps current_step) min_z max_z

/-- Lines 101–109 of `drawLine` on 32-bit `int`. -/
def lineStep32 (dx dy sx sy : Int) (s : LineState) : LineState :=
  let e2 := wrap32 (2 * s.err)
  let s : LineState :=
    if e2 > wrap32 (-dy) then { s with err := wrap32 (s.err - dy), x := wrap32 (s.x + sx) } else s
  if e2 < dx then { s with err := wrap32 (s.err + dx), y := wrap32 (s.y + sy) } else s

/-- The `while (true)` loop of `drawLine` (lines 84–112) on 32-bit `int`. -/
def drawLineLoop32 (p1 p2 : ProjectedPoint K) (min_z max_z : K) (width height dx dy sx sy : Int)
    (total_steps : K) : Nat → Screen → LineState → K → Option Screen
  | 0, _, _, _ => none
  | fuel + 1, screen, s, current_step =>
    let index := shadeIndex32 p1 p2 min_z max_z total_steps current_step
    let c := rampChar index
    let screen := plot width height screen s.x s.y c
    if s.x = p2.x ∧ s.y = p2.y then some screen
    else
      drawLineLoop32 p1 p2 min_z max_z width height dx dy sx sy total_steps fuel screen
        (lineStep32 dx dy sx sy s) (current_step + 1)

/-- The function `drawLine` (lines 66–113) on 32-bit `int`. -/
def drawLine32 (fuel : Nat) (screen : Screen) (p1 p2 : ProjectedPoint K) (min_z max_z : K) :
    Option Screen :=
  match screen with
  | [] => none
  | row0 :: _ =>
    let width : Int := wrap32 row0.length
    let height : Int := wrap32 screen.length
    let dx : Int := wrap32 |wrap32 (p2.x - p1.x)|
    let dy : Int := wrap32 |wrap32 (p2.y - p1.y)|
    let sx : Int := if p1.x < p2.x then 1 else -1
    let sy : Int := if p1.y < p2.y then 1 else -1
    let err := wrap32 (dx - dy)
    let total_steps : K := ((max dx dy : Int) : K)
    drawLineLoop32 p1 p2 min_z max_z width height dx dy sx sy total_steps fuel screen
      { x := p1.x, y := p1.y, err := err } 0

/-- The loop variables of the 32-bit `drawLine` after `k` executions of lines 101–109. -/
def lineStateAt32 (x1 y1 x2 y2 : Int) (k : Nat) : LineState :=
  (lineStep32 (wrap32 |wrap32 (x2 - x1)|) (wrap32 |wrap32 (y2 - y1)|)
      (if x1 < x2 then 1 else -1) (if y1 < y2 then 1 else -1))^[k]
    { x := x1, y := y1, err := wrap32 (wrap32 |wrap32 (x2 - x1)| - wrap32 |wrap32 (y2 - y1)|) }

/-- The ramp index computed by the 32-bit loop in the iteration with step counter `k`. -/
def indexAt32 (p1 p2 : ProjectedPoint K) (min_z max_z : K) (k : Nat) : Int :=
  shadeIndex32 p1 p2 min_z max_z
    ((max (wrap32 |wrap32 (p2.x - p1.x)|) (wrap32 |wrap32 (p2.y - p1.y)|) : Int) : K) (k : K)

/-- The samples of the 32-bit loop, in loop order. -/
def lineSamples32 (p1 p2 : ProjectedPoint K) (min_z max_z : K) (n : Nat) :
    List (Int × Int × Char) :=
  (List.range n).map fun k =>
    ((lineStateAt32 p1.x p1.y p2.x p2.y k).x, (lineStateAt32 p1.x p1.y p2.x p2.y k).y,
      rampChar (indexAt32 p1 p2 min_z max_z k))

/-! ## Geometry model and frame composer -/

/-- The function `createCube` (lines 28–41): the vertex list and the edge list. -/
def createCube (K : Type) [LinearOrderedField K] : List (Point3D K) × List (Int × Int) :=
  let vertices : List (Point3D K) := [
    ⟨-1, -1, -1⟩, ⟨1, -1, -1⟩, ⟨1, 1, -1⟩, ⟨-1, 1, -1⟩,
    ⟨-1, -1, 1⟩, ⟨1, -1, 1⟩, ⟨1, 1, 1⟩, ⟨-1, 1, 1⟩]
  let edges : List (Int × Int) := [
    (0, 1), (1, 2), (2, 3), (3, 0),
    (4, 5), (5, 6), (6, 7), (7, 4),
    (0, 4), (1, 5), (2, 6), (3, 7)]
  (vertices, edges)

/-- The indexing `rotated[i]` of a vertex list by an `int`. -/
def vertexAt (rotated : List (Point3D K)) (i : Int) : Point3D K :=
  rotated.getD i.toNat ⟨0, 0, 0⟩

/-- One round of the scan of lines 140–143: update of `(min_z, max_z)` by a vertex. -/
def scanStep (acc : K × K) (vertex : Point3D K) : K × K :=
  (if vertex.z < acc.1 then vertex.z else acc.1, if vertex.z > acc.2 then vertex.z else acc.2)

/-- Lines 138–146 of `main`: the pair `(min_z, max_z)` of a frame, after the scan
of the rotated vertices and the widening by `1e-6` of an empty range. -/
def depthRange (rotated : List (Point3D K)) : K × K :=
  -- Find min and max z for this frame
  let min_z := (vertexAt rotated 0).z
  let max_z := (vertexAt rotated 0).z
  let scan := rotated.foldl scanStep (min_z, max_z)
  if scan.2 = scan.1 then (scan.1, scan.2 + 1e-6) else scan

/-- Lines 130–135 of `main`: the rotated copy of the cube vertices. -/
def rotatedCube (cos sin : K → K) (angle_x angle_y : K) : List (Point3D K) :=
  (createCube K).1.map fun vertex => rotatePoint cos sin vertex angle_x angle_y

/-- Lines 150–152 of `main`: projection of the two ends of an edge and the call
of `drawLine`. -/
def drawEdge (fuel : Nat) (rotated : List (Point3D K)) (min_z max_z : K) (screen : Screen)
    (edge : Int × Int) : Option Screen :=
  let width : Int := 20
  let height : Int := 20
  let p1 := projectPoint (vertexAt rotated edge.1) width height
  let p2 := projectPoint (vertexAt rotated edge.2) width height
  drawLine fuel screen p1 p2 min_z max_z

/-- Lines 129–153 of `main`: the frame buffer of one pass of the render loop at
the angles `angle_x`, `angle_y`. Every call of `drawLine` receives `fuel`. -/
def composeFrame (cos sin : K → K) (fuel : Nat) (angle_x angle_y : K) : Option Screen :=
  let screen := blankScreen 20 20
  let rotated := rotatedCube cos sin angle_x angle_y
  let range := depthRange rotated
  -- Draw edges
  (createCube K).2.foldlM (drawEdge fuel rotated range.1 range.2) screen

/-- Lines 150–152 of `main` on 32-bit `int`: projection of the two ends of an edge
and the call of `drawLine`. -/
def drawEdge32 (fuel : Nat) (rotated : List (Point3D K)) (min_z max_z : K) (screen : Screen)
    (edge : Int × Int) : Option Screen :=
  let width : Int := 20
  let height : Int := 20
  let p1 := projectPoint32 (vertexAt rotated edge.1) width height
  let p2 := projectPoint32 (vertexAt rotated edge.2) width height
  drawLine32 fuel screen p1 p2 min_z max_z

/-- Lines 129–153 of `main` on 32-bit `int`: the frame buffer of one pass of the
render loop at the angles `angle_x`, `angle_y`. Every call of `drawLine` receives
`fuel`. -/
def composeFrame32 (cos sin : K → K) (fuel : Nat) (angle_x angle_y : K) : Option Screen :=
  let screen := blankScreen 20 20
  let rotated := rotatedCube cos sin angle_x angle_y
  let range := depthRange rotated
  -- Draw edges
  (createCube K).2.foldlM (drawEdge32 fuel rotated range.1 range.2) screen

/-! ## Specification-side definitions -/

/-- Rounding to the nearest integer with halves rounded away from zero (the
`round` of `<cmath>`). -/
def roundHalfAway (v : K) : Int :=
  if 0 ≤ v then ⌊v + 1 / 2⌋ else -⌊-v + 1 / 2⌋

/-- The shading rule in the words of the specification: normalize `z` by
`(z - minZ) / (maxZ - minZ)`, take `round(normalized * 11)` and clamp it to
`[0, 11]`. Here `round` rounds halves up. -/
def specIndex (z min_z max_z : K) : Int :=
  max 0 (min 11 (round ((z - min_z) / (max_z - min_z) * 11)))

/-- The shading rule of the specification with halves rounded away from zero. -/
def specIndexHalfAway (z min_z max_z : K) : Int :=
  max 0 (min 11 (roundHalfAway ((z - min_z) / (max_z - min_z) * 11)))

/-- Rotation about the X axis in the words of the specification:
`y' = y cos(aX) - z sin(aX)`, `z' = y sin(aX) + z cos(aX)`. -/
def specRotateX (cos sin : K → K) (p : Point3D K) (aX : K) : Point3D K :=
  { x := p.x, y := p.y * cos aX - p.z * sin aX, z := p.y * sin aX + p.z * cos aX }

/-- Rotation about the Y axis in the words of the specification:
`x' = x cos(aY) + z sin(aY)`, `z' = -x sin(aY) + z cos(aY)`. -/
def specRotateY (cos sin : K → K) (p : Point3D K) (aY : K) : Point3D K :=
  { x := p.x * cos aY + p.z * sin aY, y := p.y, z := -p.x * sin aY + p.z * cos aY }

/-- Line 86 of `drawLine`: the interpolation fraction `t`. -/
def stepFraction (total_steps current_step : K) : K :=
  if total_steps = 0 then 0 else current_step / total_steps

/-- Number of coordinates in which two points differ. -/
def coordDiffs (u v : Point3D K) : Nat :=
  (if u.x = v.x then 0 else 1) + (if u.y = v.y then 0 else 1) + (if u.z = v.z then 0 else 1)

/-- The samples of a line whose pixels all receive the character `c`. -/
def pixelRun (x1 y1 x2 y2 : Int) (c : Char) : List (Int × Int × Char) :=
  (List.range (totalSteps x1 y1 x2 y2 + 1)).map fun k =>
    ((lineStateAt x1 y1 x2 y2 k).x, (lineStateAt x1 y1 x2 y2 k).y, c)

/-- Replays the samples of a line of constant character on a buffer, with the
bounds check of `drawLine` (width and height read off the buffer). -/
def paintRun (screen : Screen) (x1 y1 x2 y2 : Int) (c : Char) : Screen :=
  plotAll ((screen.headD []).length : Int) (screen.length : Int) screen (pixelRun x1 y1 x2 y2 c)

/-- The buffer after one edge has been drawn, as the replay of the samples of
its line (the value of `drawEdge` when the fuel suffices). -/
def paintEdge (rotated : List (Point3D K)) (min_z max_z : K) (screen : Screen)
    (edge : Int × Int) : Screen :=
  plotAll ((screen.headD []).length : Int) (screen.length : Int) screen
    (lineSamples (projectPoint (vertexAt rotated edge.1) 20 20)
      (projectPoint (vertexAt rotated edge.2) 20 20) min_z max_z
      (totalSteps (projectPoint (vertexAt rotated edge.1) 20 20).x
        (projectPoint (vertexAt rotated edge.1) 20 20).y
        (projectPoint (vertexAt rotated edge.2) 20 20).x
        (projectPoint (vertexAt rotated edge.2) 20 20).y + 1))

/-- The projector in the words of the specification's test:
`round(p.x * 5 + w / 2)`, with `w / 2` the real half of `w`. -/
def specProjectRound (c : K) (w : Int) : Int :=
  round (c * 5 + (w : K) / 2)

/-- The frame the specification expects at angles `(0, 0)`: a square outline
in `@` between rows and columns 5 and 15 whose corners hold `.`. -/
def specFrameZero : Screen :=
  (List.range 20).map fun r => (List.range 20).map fun q =>
    if (r = 5 ∨ r = 15) ∧ (q = 5 ∨ q = 15) then '.'
    else if (r = 5 ∨ r = 15) ∧ 6 ≤ q ∧ q ≤ 14 then '@'
    else if 6 ≤ r ∧ r ≤ 14 ∧ (q = 5 ∨ q = 15) then '@'
    else ' '

end Pipeline


/-! ## The stepping invariant -/

/-- Loop invariant of the stepping after `k` iterations: `a` and `b` count the
moves made so far along the two axes. -/
structure LineInv (dx dy sx sy x1 y1 : Int) (k : Nat) (s : LineState) (a b : Int) : Prop where
  a_nonneg : 0 ≤ a
  a_le : a ≤ dx
  b_nonneg : 0 ≤ b
  b_le : b ≤ dy
  hx : s.x = x1 + sx * a
  hy : s.y = y1 + sy * b
  herr : s.err = dx - dy - a * dy + b * dx
  hrem : max (dx - a) (dy - b) = max dx dy - k
  xmajor : dy ≤ dx →
    a = k ∧ -dy < 2 * s.err ∧ dx - 2 * dy ≤ 2 * s.err ∧ 2 * s.err < 3 * dx - 2 * dy
  ymajor : dx < dy → b = k ∧ 2 * dx - 3 * dy ≤ 2 * s.err ∧ 2 * s.err ≤ 2 * dx - dy

/-- The invariant holds when the loop is entered, for a non-degenerate line. -/
theorem lineInv_init (dx dy sx sy x1 y1 : Int) (hdx : 0 ≤ dx) (hdy : 0 ≤ dy)
    (hpos : 0 < max dx dy) :
    LineInv dx dy sx sy x1 y1 0 { x := x1, y := y1, err := dx - dy } 0 0 := by
  refine ⟨le_refl _, hdx, le_refl _, hdy, by simp, by simp, by simp, by simp, ?_, ?_⟩
  · intro h
    have : max dx dy = dx := max_eq_left h
    simp only []
    omega
  · intro h
    simp only []
    omega

/-- One Bresenham update preserves the invariant while fewer than `max(dx, dy)`
iterations have been made: the major axis always advances, the minor axis
never overshoots. -/
theorem lineInv_step {dx dy sx sy x1 y1 : Int} {k : Nat} {s : LineState} {a b : Int}
    (hdx : 0 ≤ dx) (hdy : 0 ≤ dy) (h : LineInv dx dy sx sy x1 y1 k s a b)
    (hk : (k : Int) < max dx dy) :
    ∃ a2 b2, LineInv dx dy sx sy x1 y1 (k + 1) (lineStep dx dy sx sy s) a2 b2 := by
  obtain ⟨ha0, ha1, hb0, hb1, hx, hy, herr, hrem, hxm, hym⟩ := h
  by_cases hmaj : dy ≤ dx
  · obtain ⟨hak, hlo, hlo2, hhi⟩ := hxm hmaj
    have hmax : max dx dy = dx := max_eq_left hmaj
    rw [hmax] at hk hrem
    have hka : a + 1 ≤ dx := by omega
    by_cases hys : 2 * s.err < dx
    · -- both coordinates move
      have hb : b + 1 ≤ dy := by
        by_contra hcon
        have hbe : b = dy := by omega
        have h1 : 0 ≤ dy * (dx - a - 1) := mul_nonneg hdy (by omega)
        rw [hbe] at herr
        nlinarith
      refine ⟨a + 1, b + 1, ?_⟩
      have hstep : lineStep dx dy sx sy s
          = { x := s.x + sx, y := s.y + sy, err := s.err - dy + dx } := by
        simp [lineStep, hlo, hys]
      rw [hstep]
      refine ⟨by omega, hka, by omega, hb, ?_, ?_, ?_, ?_, ?_, ?_⟩
      · simp only [hx]; ring
      · simp only [hy]; ring
      · simp only [herr]; ring
      · rw [hmax]; push_cast; omega
      · intro _; push_cast; omega
      · intro hc; omega
    · -- only x moves
      have hb : dy - b < dx - a := by
        by_contra hcon
        have hmx : max (dx - a) (dy - b) = dx - k := hrem
        have heq : dy - b = dx - a := by omega
        have hbe : b = dy - (dx - a) := by omega
        have h1 : 0 ≤ (dx - a - 1) * (dx - dy) := mul_nonneg (by omega) (by omega)
        rw [hbe] at herr
        nlinarith
      refine ⟨a + 1, b, ?_⟩
      have hstep : lineStep dx dy sx sy s
          = { x := s.x + sx, y := s.y, err := s.err - dy } := by
        simp [lineStep, hlo, hys]
      rw [hstep]
      refine ⟨by omega, hka, hb0, hb1, ?_, ?_, ?_, ?_, ?_, ?_⟩
      · simp only [hx]; ring
      · simp only [hy]
      · simp only [herr]; ring
      · rw [hmax]; push_cast; omega
      · intro _; push_cast; omega
      · intro hc; omega
  · have hmaj2 : dx < dy := not_le.mp hmaj
    obtain ⟨hbk, hlo, hhi⟩ := hym hmaj2
    have hmax : max dx dy = dy := max_eq_right hmaj2.le
    rw [hmax] at hk hrem
    have hkb : b + 1 ≤ dy := by omega
    have hys : 2 * s.err < dx := by omega
    by_cases hxs : 2 * s.err > -dy
    · -- both coordinates move
      have ha : a + 1 ≤ dx := by
        by_contra hcon
        have hae : a = dx := by omega
        have h1 : 0 ≤ dx * (dy - b - 1) := mul_nonneg hdx (by omega)
        rw [hae] at herr
        nlinarith
      refine ⟨a + 1, b + 1, ?_⟩
      have hstep : lineStep dx dy sx sy s
          = { x := s.x + sx, y := s.y + sy, err := s.err - dy + dx } := by
        simp [lineStep, hxs, hys]
      rw [hstep]
      refine ⟨by omega, ha, by omega, hkb, ?_, ?_, ?_, ?_, ?_, ?_⟩
      · simp only [hx]; ring
      · simp only [hy]; ring
      · simp only [herr]; ring
      · rw [hmax]; push_cast; omega
      · intro hc; omega
      · intro _; push_cast; omega
    · -- only y moves
      have ha : dx - a < dy - b := by
        by_contra hcon
        have heq : dx - a = dy - b := by omega
        have hae : a = dx - (dy - b) := by omega
        have h1 : 0 ≤ (dy - b - 1) * (dy - dx) := mul_nonneg (by omega) (by omega)
        rw [hae] at herr
        nlinarith
      refine ⟨a, b + 1, ?_⟩
      have hstep : lineStep dx dy sx sy s
          = { x := s.x, y := s.y + sy, err := s.err + dx } := by
        simp [lineStep, hxs, hys]
      rw [hstep]
      refine ⟨ha0, ha1, by omega, hkb, ?_, ?_, ?_, ?_, ?_, ?_⟩
      · simp only [hx]
      · simp only [hy]; ring
      · simp only [herr]; ring
      · rw [hmax]; push_cast; omega
      · intro hc; omega
      · intro _; push_cast; omega


/-! ## Stepping reaches the endpoint -/

section Stepping

variable (x1 y1 x2 y2 : Int)

theorem sign_mul_abs_x : (if x1 < x2 then (1 : Int) else -1) * |x2 - x1| = x2 - x1 := by
  split_ifs with h
  · rw [abs_of_pos (by omega)]; ring
  · rw [abs_of_nonpos (by omega)]; ring

theorem totalSteps_cast : ((totalSteps x1 y1 x2 y2 : Nat) : Int) = max |x2 - x1| |y2 - y1| := by
  unfold totalSteps
  exact Int.toNat_of_nonneg (le_max_of_le_left (abs_nonneg _))

theorem lineStateAt_zero : lineStateAt x1 y1 x2 y2 0 = lineStart x1 y1 x2 y2 := rfl

theorem lineStateAt_succ (k : Nat) :
    lineStateAt x1 y1 x2 y2 (k + 1)
      = lineStep |x2 - x1| |y2 - y1| (if x1 < x2 then 1 else -1) (if y1 < y2 then 1 else -1)
          (lineStateAt x1 y1 x2 y2 k) := by
  unfold lineStateAt
  rw [Function.iterate_succ_apply']

/-- The invariant holds in every iteration of a non-degenerate line. -/
theorem lineStateAt_inv (hpos : 0 < totalSteps x1 y1 x2 y2) (k : Nat)
    (hk : k ≤ totalSteps x1 y1 x2 y2) :
    ∃ a b, LineInv |x2 - x1| |y2 - y1| (if x1 < x2 then 1 else -1) (if y1 < y2 then 1 else -1)
      x1 y1 k (lineStateAt x1 y1 x2 y2 k) a b := by
  have hN := totalSteps_cast x1 y1 x2 y2
  induction k with
  | zero =>
    exact ⟨0, 0, lineInv_init _ _ _ _ _ _ (abs_nonneg _) (abs_nonneg _) (by omega)⟩
  | succ k ih =>
    obtain ⟨a, b, hinv⟩ := ih (by omega)
    rw [lineStateAt_succ]
    exact lineInv_step (abs_nonneg _) (abs_nonneg _) hinv (by omega)

/-- After `k ≤ max(dx, dy)` iterations the remaining distance is `max(dx, dy) - k`. -/
theorem remaining_lineStateAt (k : Nat) (hk : k ≤ totalSteps x1 y1 x2 y2) :
    remaining x2 y2 (lineStateAt x1 y1 x2 y2 k) = (totalSteps x1 y1 x2 y2 : Int) - k := by
  have hN := totalSteps_cast x1 y1 x2 y2
  rcases Nat.eq_zero_or_pos (totalSteps x1 y1 x2 y2) with h0 | hpos
  · have hk0 : k = 0 := by omega
    subst hk0
    simp only [lineStateAt_zero, remaining, lineStart]
    rw [hN]; simp
  · obtain ⟨a, b, hinv⟩ := lineStateAt_inv x1 y1 x2 y2 hpos k hk
    have hx := sign_mul_abs_x x1 x2
    have hy := sign_mul_abs_x y1 y2
    have e1 : x2 - (lineStateAt x1 y1 x2 y2 k).x
        = (if x1 < x2 then (1 : Int) else -1) * (|x2 - x1| - a) := by
      rw [hinv.hx, mul_sub, hx]; ring
    have e2 : y2 - (lineStateAt x1 y1 x2 y2 k).y
        = (if y1 < y2 then (1 : Int) else -1) * (|y2 - y1| - b) := by
      rw [hinv.hy, mul_sub, hy]; ring
    have s1 : |(if x1 < x2 then (1 : Int) else -1)| = 1 := by split_ifs <;> simp
    have s2 : |(if y1 < y2 then (1 : Int) else -1)| = 1 := by split_ifs <;> simp
    unfold remaining
    rw [e1, e2, abs_mul, abs_mul, s1, s2, one_mul, one_mul,
      abs_of_nonneg (sub_nonneg.mpr hinv.a_le), abs_of_nonneg (sub_nonneg.mpr hinv.b_le),
      hinv.hrem, hN]

theorem remaining_eq_zero_iff (s : LineState) :
    remaining x2 y2 s = 0 ↔ s.x = x2 ∧ s.y = y2 := by
  unfold remaining
  constructor
  · intro h
    have h1 : |x2 - s.x| ≤ 0 := h ▸ le_max_left _ _
    have h2 : |y2 - s.y| ≤ 0 := h ▸ le_max_right _ _
    have h3 := abs_nonpos_iff.mp h1
    have h4 := abs_nonpos_iff.mp h2
    omega
  · rintro ⟨h1, h2⟩
    simp [h1, h2]

/-- The endpoint is the position after exactly `max(dx, dy)` iterations. -/
theorem lineStateAt_total :
    (lineStateAt x1 y1 x2 y2 (totalSteps x1 y1 x2 y2)).x = x2 ∧
    (lineStateAt x1 y1 x2 y2 (totalSteps x1 y1 x2 y2)).y = y2 := by
  rw [← remaining_eq_zero_iff, remaining_lineStateAt x1 y1 x2 y2 _ le_rfl]
  simp

/-- Before `max(dx, dy)` iterations the position differs from the endpoint. -/
theorem lineStateAt_not_end (k : Nat) (hk : k < totalSteps x1 y1 x2 y2) :
    ¬ ((lineStateAt x1 y1 x2 y2 k).x = x2 ∧ (lineStateAt x1 y1 x2 y2 k).y = y2) := by
  rw [← remaining_eq_zero_iff, remaining_lineStateAt x1 y1 x2 y2 _ hk.le]
  omega

end Stepping


theorem totalSteps_castK (K : Type) [LinearOrderedField K] (x1 y1 x2 y2 : Int) :
    ((totalSteps x1 y1 x2 y2 : Nat) : K) = ((max |x2 - x1| |y2 - y1| : Int) : K) := by
  rw [← totalSteps_cast x1 y1 x2 y2, Int.cast_natCast]

/-! ## Depth interpolation -/

/-- The first sample has the depth of the start point. -/
theorem interpolatedZ_zero {K : Type} [LinearOrderedField K] (p1 p2 : ProjectedPoint K) (ts : K) :
    interpolatedZ p1 p2 ts 0 = p1.z := by
  unfold interpolatedZ
  split_ifs <;> simp

section Unroll

variable {K : Type} [LinearOrderedField K] [FloorRing K]

theorem plotAll_cons (w h : Int) (screen : Screen) (q : Int × Int × Char)
    (qs : List (Int × Int × Char)) :
    plotAll w h screen (q :: qs) = plotAll w h (plot w h screen q.1 q.2.1 q.2.2) qs := rfl

theorem plotAll_append (w h : Int) (screen : Screen) (qs rs : List (Int × Int × Char)) :
    plotAll w h screen (qs ++ rs) = plotAll w h (plotAll w h screen qs) rs := by
  simp [plotAll, List.foldl_append]

/-- If the endpoint is first met after `n` updates and more than `n` units of
fuel are available, the loop returns the buffer obtained by replaying the
`n + 1` samples in order. -/
theorem drawLineLoop_unroll (p1 p2 : ProjectedPoint K) (min_z max_z : K)
    (w h dx dy sx sy : Int) (ts : K) :
    ∀ (n fuel : Nat) (screen : Screen) (s : LineState) (cs : K),
      (∀ j < n, ¬ (((lineStep dx dy sx sy)^[j] s).x = p2.x ∧
        ((lineStep dx dy sx sy)^[j] s).y = p2.y)) →
      (((lineStep dx dy sx sy)^[n] s).x = p2.x ∧ ((lineStep dx dy sx sy)^[n] s).y = p2.y) →
      n < fuel →
      drawLineLoop p1 p2 min_z max_z w h dx dy sx sy ts fuel screen s cs
        = some (plotAll w h screen ((List.range (n + 1)).map fun j =>
            (((lineStep dx dy sx sy)^[j] s).x, ((lineStep dx dy sx sy)^[j] s).y,
              rampChar (shadeIndex p1 p2 min_z max_z ts (cs + (j : K)))))) := by
  intro n
  induction n with
  | zero =>
    intro fuel screen s cs _ hend hfuel
    obtain ⟨f, rfl⟩ : ∃ f, fuel = f + 1 := ⟨fuel - 1, by omega⟩
    simp only [Function.iterate_zero, id_eq] at hend
    simp [drawLineLoop, hend, plotAll, List.range_succ]
  | succ n ih =>
    intro fuel screen s cs hnot hend hfuel
    obtain ⟨f, rfl⟩ : ∃ f, fuel = f + 1 := ⟨fuel - 1, by omega⟩
    have h0 := hnot 0 (Nat.succ_pos n)
    simp only [Function.iterate_zero, id_eq] at h0
    have hrec := ih f (plot w h screen s.x s.y (rampChar (shadeIndex p1 p2 min_z max_z ts cs)))
      (lineStep dx dy sx sy s) (cs + 1)
      (fun j hj => by
        have := hnot (j + 1) (by omega)
        rwa [Function.iterate_succ_apply] at this)
      (by rwa [Function.iterate_succ_apply] at hend)
      (by omega)
    rw [drawLineLoop]
    simp only [h0, if_false]
    rw [hrec, List.range_succ_eq_map (n + 1), List.map_cons, plotAll_cons, List.map_map]
    simp only [Function.iterate_zero, id_eq, Nat.cast_zero, add_zero]
    congr 2
    apply List.map_congr_left
    intro j _
    simp only [Function.comp_apply, Function.iterate_succ_apply, Nat.cast_succ]
    rw [add_assoc, add_comm (1 : K)]

/-- With fewer units of fuel than iterations needed, the loop runs out of fuel. -/
theorem drawLineLoop_none (p1 p2 : ProjectedPoint K) (min_z max_z : K)
    (w h dx dy sx sy : Int) (ts : K) :
    ∀ (fuel : Nat) (screen : Screen) (s : LineState) (cs : K),
      (∀ j < fuel, ¬ (((lineStep dx dy sx sy)^[j] s).x = p2.x ∧
        ((lineStep dx dy sx sy)^[j] s).y = p2.y)) →
      drawLineLoop p1 p2 min_z max_z w h dx dy sx sy ts fuel screen s cs = none := by
  intro fuel
  induction fuel with
  | zero => intro screen s cs _; rfl
  | succ f ih =>
    intro screen s cs hnot
    have h0 := hnot 0 (Nat.succ_pos f)
    simp only [Function.iterate_zero, id_eq] at h0
    rw [drawLineLoop]
    simp only [h0, if_false]
    apply ih
    intro j hj
    have := hnot (j + 1) (by omega)
    rwa [Function.iterate_succ_apply] at this

/-- Functional description of `drawLine`: with more than `max(dx, dy)` units of
fuel it returns the input buffer with the `max(dx, dy) + 1` samples written
in loop order. -/
theorem drawLine_eq (fuel : Nat) (screen : Screen) (p1 p2 : ProjectedPoint K) (min_z max_z : K)
    (hfuel : totalSteps p1.x p1.y p2.x p2.y < fuel) :
    drawLine fuel screen p1 p2 min_z max_z
      = some (plotAll ((screen.headD []).length : Int) (screen.length : Int) screen
          (lineSamples p1 p2 min_z max_z (totalSteps p1.x p1.y p2.x p2.y + 1))) := by
  unfold drawLine
  simp only []
  refine (drawLineLoop_unroll p1 p2 min_z max_z _ _ _ _ _ _ _ (totalSteps p1.x p1.y p2.x p2.y) fuel
    screen (lineStart p1.x p1.y p2.x p2.y) 0
    (fun j hj => lineStateAt_not_end p1.x p1.y p2.x p2.y j hj)
    (lineStateAt_total p1.x p1.y p2.x p2.y) hfuel).trans ?_
  simp only [lineSamples, indexAt, lineStateAt, zero_add, totalSteps_castK K]

/-- With at most `max(dx, dy)` units of fuel the loop of `drawLine` is cut short. -/
theorem drawLine_none (fuel : Nat) (screen : Screen) (p1 p2 : ProjectedPoint K) (min_z max_z : K)
    (hfuel : fuel ≤ totalSteps p1.x p1.y p2.x p2.y) :
    drawLine fuel screen p1 p2 min_z max_z = none := by
  unfold drawLine
  simp only []
  exact drawLineLoop_none p1 p2 min_z max_z _ _ _ _ _ _ _ fuel screen
    (lineStart p1.x p1.y p2.x p2.y) 0
    (fun j hj => lineStateAt_not_end p1.x p1.y p2.x p2.y j (by omega))

end Unroll


/-! ## Cells of the buffer under writes -/

section Cells

theorem writeCell_map_length (screen : Screen) (y x : Nat) (c : Char) :
    (writeCell screen y x c).map List.length = screen.map List.length := by
  unfold writeCell
  apply List.ext_getElem?
  intro i
  simp only [List.getElem?_map, List.getElem?_set]
  by_cases hi : y = i
  · subst hi
    by_cases hy : y < screen.length
    · simp [hy, List.getD_eq_getElem?_getD, List.getElem?_eq_getElem hy]
    · simp [hy, List.getElem?_eq_none (not_lt.mp hy)]
  · simp [hi]

theorem plot_map_length (w h : Int) (screen : Screen) (x y : Int) (c : Char) :
    (plot w h screen x y c).map List.length = screen.map List.length := by
  unfold plot
  split_ifs
  · exact writeCell_map_length _ _ _ _
  · rfl

theorem plotAll_map_length (w h : Int) (qs : List (Int × Int × Char)) :
    ∀ screen : Screen, (plotAll w h screen qs).map List.length = screen.map List.length := by
  induction qs with
  | nil => intro screen; rfl
  | cons q qs ih =>
    intro screen
    rw [plotAll_cons, ih, plot_map_length]

/-- Reading a cell after `screen[y][x] = c`. -/
theorem getCell_writeCell (screen : Screen) (y x r q : Nat) (c : Char) :
    getCell (writeCell screen y x c) r q
      = if r = y ∧ q = x ∧ (getCell screen r q).isSome then some c else getCell screen r q := by
  unfold getCell writeCell
  simp only [List.get?_eq_getElem?, List.getElem?_set]
  by_cases hr : y = r
  · subst hr
    by_cases hy : y < screen.length
    · simp only [hy, if_true, List.getD_eq_getElem?_getD, List.getElem?_eq_getElem hy,
        Option.getD_some, Option.some_bind, List.getElem?_set, true_and]
      by_cases hq : x = q
      · subst hq
        by_cases hx : x < (screen[y]).length
        · simp [hx, List.getElem?_eq_getElem hx]
        · simp [hx, List.getElem?_eq_none (not_lt.mp hx)]
      · have hq2 : ¬ q = x := fun e => hq e.symm
        simp [hq, hq2]
    · simp [hy, List.getElem?_eq_none (not_lt.mp hy)]
  · have hr2 : ¬ r = y := fun e => hr e.symm
    simp [hr, hr2]

/-- A cell that differs after the bounds-checked write is the plotted one, and
the plotted position passed the bounds check. -/
theorem getCell_plot_ne (w h : Int) (screen : Screen) (x y : Int) (c : Char) (r q : Nat)
    (hne : getCell (plot w h screen x y c) r q ≠ getCell screen r q) :
    (0 ≤ x ∧ x < w ∧ 0 ≤ y ∧ y < h) ∧ (q : Int) = x ∧ (r : Int) = y := by
  unfold plot at hne
  split_ifs at hne with hb
  · refine ⟨hb, ?_⟩
    rw [getCell_writeCell] at hne
    split_ifs at hne with hc
    · obtain ⟨h1, h2, _⟩ := hc
      subst h1 h2
      exact ⟨Int.toNat_of_nonneg hb.1, Int.toNat_of_nonneg hb.2.2.1⟩
    · exact absurd rfl hne
  · exact absurd rfl hne

theorem getCell_plotAll_ne (w h : Int) (qs : List (Int × Int × Char)) (r q : Nat) :
    ∀ screen : Screen, getCell (plotAll w h screen qs) r q ≠ getCell screen r q →
      ∃ p ∈ qs, (0 ≤ p.1 ∧ p.1 < w ∧ 0 ≤ p.2.1 ∧ p.2.1 < h) ∧ (q : Int) = p.1 ∧ (r : Int) = p.2.1 := by
  induction qs with
  | nil => intro screen hne; exact absurd rfl hne
  | cons p qs ih =>
    intro screen hne
    rw [plotAll_cons] at hne
    by_cases hp : getCell (plot w h screen p.1 p.2.1 p.2.2) r q = getCell screen r q
    · rw [← hp] at hne
      obtain ⟨p2, hmem, hprop⟩ := ih _ hne
      exact ⟨p2, List.mem_cons_of_mem _ hmem, hprop⟩
    · exact ⟨p, List.mem_cons_self _ _, getCell_plot_ne w h screen _ _ _ r q hp⟩

end Cells


/-! ## Properties of `drawLine` -/

section DrawLine

variable {K : Type} [LinearOrderedField K] [FloorRing K]

theorem mem_lineSamples (p1 p2 : ProjectedPoint K) (min_z max_z : K) (n : Nat)
    (q : Int × Int × Char) (hq : q ∈ lineSamples p1 p2 min_z max_z n) :
    ∃ k, k < n ∧ q.1 = (lineStateAt p1.x p1.y p2.x p2.y k).x ∧
      q.2.1 = (lineStateAt p1.x p1.y p2.x p2.y k).y ∧
      q.2.2 = rampChar (indexAt p1 p2 min_z max_z k) := by
  unfold lineSamples at hq
  rw [List.mem_map] at hq
  obtain ⟨k, hk, rfl⟩ := hq
  exact ⟨k, List.mem_range.mp hk, rfl, rfl, rfl⟩

/-- Reading a cell after a replay in which every sample carries the character `c`. -/
theorem getCell_plotAll_const (w h : Int) (c : Char) (r q : Nat) (qs : List (Int × Int × Char))
    (hc : ∀ p ∈ qs, p.2.2 = c) :
    ∀ screen : Screen, getCell (plotAll w h screen qs) r q
      = if (∃ p ∈ qs, (0 ≤ p.1 ∧ p.1 < w ∧ 0 ≤ p.2.1 ∧ p.2.1 < h) ∧ (q : Int) = p.1 ∧
            (r : Int) = p.2.1) ∧ (getCell screen r q).isSome
        then some c else getCell screen r q := by
  induction qs with
  | nil => intro screen; simp [plotAll]
  | cons p qs ih =>
    intro screen
    rw [plotAll_cons, ih (fun p2 hmem => hc p2 (List.mem_cons_of_mem _ hmem))]
    have hpc : p.2.2 = c := hc p (List.mem_cons_self _ _)
    by_cases hhit : (0 ≤ p.1 ∧ p.1 < w ∧ 0 ≤ p.2.1 ∧ p.2.1 < h) ∧ (q : Int) = p.1 ∧
        (r : Int) = p.2.1
    · have hplot : plot w h screen p.1 p.2.1 p.2.2 = writeCell screen r q c := by
        unfold plot
        rw [if_pos hhit.1, hpc, ← hhit.2.1, ← hhit.2.2, Int.toNat_natCast, Int.toNat_natCast]
      rw [hplot, getCell_writeCell]
      by_cases hsome : (getCell screen r q).isSome = true
      · have e1 : (∃ p2 ∈ p :: qs, (0 ≤ p2.1 ∧ p2.1 < w ∧ 0 ≤ p2.2.1 ∧ p2.2.1 < h) ∧
            (q : Int) = p2.1 ∧ (r : Int) = p2.2.1) := ⟨p, List.mem_cons_self _ _, hhit⟩
        simp only [hsome, and_self, if_true, e1, Option.isSome_some]
        split_ifs <;> rfl
      · simp [hsome]
    · have hplot : getCell (plot w h screen p.1 p.2.1 p.2.2) r q = getCell screen r q := by
        by_contra hne
        exact hhit (getCell_plot_ne w h screen _ _ _ r q hne)
      rw [hplot]
      have e1 : (∃ p2 ∈ p :: qs, (0 ≤ p2.1 ∧ p2.1 < w ∧ 0 ≤ p2.2.1 ∧ p2.2.1 < h) ∧
            (q : Int) = p2.1 ∧ (r : Int) = p2.2.1)
          ↔ (∃ p2 ∈ qs, (0 ≤ p2.1 ∧ p2.1 < w ∧ 0 ≤ p2.2.1 ∧ p2.2.1 < h) ∧
            (q : Int) = p2.1 ∧ (r : Int) = p2.2.1) := by
        constructor
        · rintro ⟨p2, hmem, hp2⟩
          rcases List.mem_cons.mp hmem with rfl | hmem
          · exact absurd hp2 hhit
          · exact ⟨p2, hmem, hp2⟩
        · rintro ⟨p2, hmem, hp2⟩
          exact ⟨p2, List.mem_cons_of_mem _ hmem, hp2⟩
      simp only [e1]

/-- On a rectangular buffer the cells are exactly the in-range coordinates. -/
theorem getCell_isSome_iff (screen : Screen) (width height : Nat)
    (hheight : screen.length = height) (hwidth : ∀ row ∈ screen, row.length = width)
    (r q : Nat) : (getCell screen r q).isSome = true ↔ r < height ∧ q < width := by
  unfold getCell
  simp only [List.get?_eq_getElem?]
  by_cases hr : r < screen.length
  · have hrow : (screen[r]).length = width := hwidth _ (List.getElem_mem hr)
    rw [List.getElem?_eq_getElem hr, Option.some_bind]
    by_cases hq : q < (screen[r]).length
    · rw [List.getElem?_eq_getElem hq]
      simp only [Option.isSome_some, true_iff]
      omega
    · rw [List.getElem?_eq_none (not_lt.mp hq)]
      simp only [Option.isSome_none, Bool.false_eq_true, false_iff]
      omega
  · rw [List.getElem?_eq_none (not_lt.mp hr)]
    simp only [Option.none_bind, Option.isSome_none, Bool.false_eq_true, false_iff]
    omega

/-- On a horizontal line the stepping only moves along `x`, one column per iteration. -/
theorem lineStateAt_horizontal (x1 x2 y : Int) (k : Nat) (hk : k ≤ totalSteps x1 y x2 y) :
    (lineStateAt x1 y x2 y k).x = x1 + (if x1 < x2 then 1 else -1) * (k : Int) ∧
    (lineStateAt x1 y x2 y k).y = y := by
  rcases Nat.eq_zero_or_pos (totalSteps x1 y x2 y) with h0 | hpos
  · have hk0 : k = 0 := by omega
    subst hk0
    simp [lineStateAt_zero, lineStart]
  · obtain ⟨a, b, hinv⟩ := lineStateAt_inv x1 y x2 y hpos k hk
    have hdy : |y - y| = 0 := by simp
    have hb : b = 0 := le_antisymm (hdy ▸ hinv.b_le) hinv.b_nonneg
    have ha : a = k := (hinv.xmajor (by rw [hdy]; exact abs_nonneg _)).1
    refine ⟨by rw [hinv.hx, ha], ?_⟩
    rw [hinv.hy, hb]; simp

theorem truncToInt_half : truncToInt (0.5 : K) = 0 := by
  unfold truncToInt
  rw [if_pos (by norm_num)]
  rw [Int.floor_eq_iff]
  constructor <;> norm_num

theorem depthIndex_min (min_z max_z : K) : depthIndex min_z min_z max_z = 0 := by
  unfold depthIndex
  simp [truncToInt_half]

theorem rampChar_zero : rampChar 0 = '.' := rfl

/-- Exact-arithmetic form of the horizontal line: on a non-empty rectangular
buffer, with both ends at depth `min_z`, the exact reading of `drawLine` sets the
cells of row `y` between `x1` and `x2` to `.` and keeps every other cell. -/
theorem drawLine_horizontal (fuel : Nat) (screen : Screen) (p1 p2 : ProjectedPoint K)
    (min_z max_z : K) (width height : Nat)
    (hheight : screen.length = height) (hwidth : ∀ row ∈ screen, row.length = width)
    (hne : 0 < height) (hy : p1.y = p2.y) (hz1 : p1.z = min_z) (hz2 : p2.z = min_z)
    (_hlt : min_z < max_z) (hfuel : totalSteps p1.x p1.y p2.x p2.y < fuel) :
    ∃ out, drawLine fuel screen p1 p2 min_z max_z = some out ∧
      ∀ r q : Nat, getCell out r q
        = if (r : Int) = p1.y ∧ min p1.x p2.x ≤ (q : Int) ∧ (q : Int) ≤ max p1.x p2.x ∧
              r < height ∧ q < width
          then some '.' else getCell screen r q := by
  have hw : ((screen.headD []).length : Int) = width := by
    cases screen with
    | nil => simp at hheight; omega
    | cons row rest => simp [hwidth row (List.mem_cons_self _ _)]
  have hh : (screen.length : Int) = height := by rw [hheight]
  refine ⟨_, drawLine_eq fuel screen p1 p2 min_z max_z hfuel, ?_⟩
  intro r q
  have hconst : ∀ p ∈ lineSamples p1 p2 min_z max_z (totalSteps p1.x p1.y p2.x p2.y + 1),
      p.2.2 = '.' := by
    intro p hp
    obtain ⟨k, _, _, _, h3⟩ := mem_lineSamples p1 p2 min_z max_z _ p hp
    rw [h3, indexAt, shadeIndex]
    have hz : interpolatedZ p1 p2 ((totalSteps p1.x p1.y p2.x p2.y : Nat) : K) (k : K) = min_z := by
      unfold interpolatedZ
      rw [hz1, hz2]; simp
    rw [hz, depthIndex_min, rampChar_zero]
  rw [getCell_plotAll_const _ _ '.' r q _ hconst screen, hw, hh]
  have hsome := getCell_isSome_iff screen width height hheight hwidth r q
  have hN : ((totalSteps p1.x p1.y p2.x p2.y : Nat) : Int) = |p2.x - p1.x| := by
    rw [totalSteps_cast, ← hy]
    simp
  have hline : ∀ k, k ≤ totalSteps p1.x p1.y p2.x p2.y →
      (lineStateAt p1.x p1.y p2.x p2.y k).x = p1.x + (if p1.x < p2.x then 1 else -1) * (k : Int) ∧
      (lineStateAt p1.x p1.y p2.x p2.y k).y = p1.y := by
    rw [← hy]
    exact fun k hk => lineStateAt_horizontal p1.x p2.x p1.y k hk
  have hiff : ((∃ p ∈ lineSamples p1 p2 min_z max_z (totalSteps p1.x p1.y p2.x p2.y + 1),
        (0 ≤ p.1 ∧ p.1 < (width : Int) ∧ 0 ≤ p.2.1 ∧ p.2.1 < (height : Int)) ∧ (q : Int) = p.1 ∧
          (r : Int) = p.2.1) ∧ (getCell screen r q).isSome = true)
      ↔ ((r : Int) = p1.y ∧ min p1.x p2.x ≤ (q : Int) ∧ (q : Int) ≤ max p1.x p2.x ∧
              r < height ∧ q < width) := by
    rw [hsome]
    constructor
    · rintro ⟨⟨p, hp, hb, hq, hr⟩, hr2, hq2⟩
      obtain ⟨k, hk, h1, h2, _⟩ := mem_lineSamples p1 p2 min_z max_z _ p hp
      have hpos := hline k (by omega)
      rw [hpos.1] at h1
      rw [hpos.2] at h2
      have hkN : (k : Int) ≤ |p2.x - p1.x| := by rw [← hN]; exact_mod_cast Nat.lt_succ_iff.mp hk
      refine ⟨by omega, ?_, ?_, hr2, hq2⟩
      · rw [hq, h1]
        split_ifs with hlt2
        · rw [min_eq_left hlt2.le]; omega
        · rw [min_eq_right (not_lt.mp hlt2)]
          rw [abs_of_nonpos (by omega)] at hkN; omega
      · rw [hq, h1]
        split_ifs with hlt2
        · rw [max_eq_right hlt2.le]
          rw [abs_of_pos (by omega)] at hkN; omega
        · rw [max_eq_left (not_lt.mp hlt2)]; omega
    · rintro ⟨hr, hq1, hq2, hr2, hq3⟩
      refine ⟨?_, hr2, hq3⟩
      -- the iteration whose position is column `q`
      have hkex : ∃ k : Nat, k ≤ totalSteps p1.x p1.y p2.x p2.y ∧
          p1.x + (if p1.x < p2.x then 1 else -1) * (k : Int) = q := by
        by_cases hlt2 : p1.x < p2.x
        · rw [min_eq_left hlt2.le] at hq1
          rw [max_eq_right hlt2.le] at hq2
          rw [abs_of_pos (by omega)] at hN
          refine ⟨((q : Int) - p1.x).toNat, ?_, ?_⟩
          · zify; rw [hN, Int.toNat_of_nonneg (by omega)]; omega
          · rw [if_pos hlt2, Int.toNat_of_nonneg (by omega)]; ring
        · rw [min_eq_right (not_lt.mp hlt2)] at hq1
          rw [max_eq_left (not_lt.mp hlt2)] at hq2
          rw [abs_of_nonpos (by omega)] at hN
          refine ⟨(p1.x - (q : Int)).toNat, ?_, ?_⟩
          · zify; rw [hN, Int.toNat_of_nonneg (by omega)]; omega
          · rw [if_neg hlt2, Int.toNat_of_nonneg (by omega)]; ring
      obtain ⟨k, hk, hkq⟩ := hkex
      have hpos := hline k hk
      refine ⟨((lineStateAt p1.x p1.y p2.x p2.y k).x, (lineStateAt p1.x p1.y p2.x p2.y k).y,
        rampChar (indexAt p1 p2 min_z max_z k)), ?_, ?_⟩
      · unfold lineSamples
        exact List.mem_map.mpr ⟨k, List.mem_range.mpr (by omega), rfl⟩
      · simp only []
        rw [hpos.1, hpos.2, hkq]
        omega
  simp only [hiff]

/-! ## Shading -/

/-- Clamping hides the difference between truncating `v + 0.5` and rounding `v`. -/
theorem clamp_truncToInt_half (v : K) :
    max 0 (min 11 (truncToInt (v + 0.5))) = max 0 (min 11 (round v)) ∧
    max 0 (min 11 (truncToInt (v + 0.5))) = max 0 (min 11 (roundHalfAway v)) := by
  have hhalf : (0.5 : K) = 1 / 2 := by norm_num
  rw [hhalf]
  unfold truncToInt roundHalfAway
  rw [round_eq]
  by_cases h : 0 ≤ v + 1 / 2
  · rw [if_pos h]
    refine ⟨rfl, ?_⟩
    by_cases hv : 0 ≤ v
    · rw [if_pos hv]
    · rw [if_neg hv]
      have hv2 : v < 0 := not_le.mp hv
      have h1 : ⌊v + 1 / 2⌋ ≤ 0 := by
        have : ⌊v + 1 / 2⌋ < 1 := Int.floor_lt.mpr (by push_cast; linarith)
        omega
      have h2 : 0 ≤ ⌊-v + 1 / 2⌋ := Int.floor_nonneg.mpr (by linarith)
      omega
  · rw [if_neg h]
    have hv : v + 1 / 2 < 0 := not_le.mp h
    have h1 : ⌈v + 1 / 2⌉ ≤ 0 := Int.ceil_le.mpr (by push_cast; exact hv.le)
    have h2 : ⌊v + 1 / 2⌋ ≤ 0 := (Int.floor_le_ceil _).trans h1
    have hv0 : ¬ (0 : K) ≤ v := by linarith
    rw [if_neg hv0]
    have h3 : 0 ≤ ⌊-v + 1 / 2⌋ := Int.floor_nonneg.mpr (by linarith)
    constructor <;> omega

end DrawLine

/-! ## Properties of `rotatePoint` and `projectPoint` -/

section Transform

/-- C7: for every point and every pair of real angles, `rotatePoint` is the
rotation about the X axis followed by the rotation about the Y axis applied to
its result: with `y' = y cos(aX) - z sin(aX)` and `z' = y sin(aX) + z cos(aX)`
the result is `(x cos(aY) + z' sin(aY), y', -x sin(aY) + z' cos(aY))`, the Y-axis
step using the rotated `z'` and the original `x`. -/
theorem rotatePoint_sequential (p : Point3D ℝ) (aX aY : ℝ) :
    rotatePoint Real.cos Real.sin p aX aY
        = specRotateY Real.cos Real.sin (specRotateX Real.cos Real.sin p aX) aY ∧
    rotatePoint Real.cos Real.sin p aX aY
        = { x := p.x * Real.cos aY + (p.y * Real.sin aX + p.z * Real.cos aX) * Real.sin aY
            y := p.y * Real.cos aX - p.z * Real.sin aX
            z := -p.x * Real.sin aY + (p.y * Real.sin aX + p.z * Real.cos aX) * Real.cos aY } :=
  ⟨rfl, rfl⟩

/-- C8: rotating by angle 0 about both axes returns the point unchanged. -/
theorem rotatePoint_zero (p : Point3D ℝ) : rotatePoint Real.cos Real.sin p 0 0 = p := by
  cases p
  simp [rotatePoint]

/-- C9: rotating by `2π` about either axis returns the original point. -/
theorem rotatePoint_two_pi (p : Point3D ℝ) :
    rotatePoint Real.cos Real.sin p (2 * Real.pi) 0 = p ∧
    rotatePoint Real.cos Real.sin p 0 (2 * Real.pi) = p := by
  cases p
  constructor <;> simp [rotatePoint]

variable {K : Type} [LinearOrderedField K] [FloorRing K]

/-- The conversion to `int` moves toward zero by less than one unit. -/
theorem truncToInt_spec (r : K) :
    (0 ≤ r → ((truncToInt r : Int) : K) ≤ r ∧ r < ((truncToInt r : Int) : K) + 1) ∧
    (r ≤ 0 → r ≤ ((truncToInt r : Int) : K) ∧ ((truncToInt r : Int) : K) - 1 < r) := by
  unfold truncToInt
  constructor
  · intro h
    rw [if_pos h]
    exact ⟨Int.floor_le r, Int.lt_floor_add_one r⟩
  · intro h
    by_cases h0 : 0 ≤ r
    · have hr : r = 0 := le_antisymm h h0
      subst hr
      simp
    · rw [if_neg h0]
      refine ⟨Int.le_ceil r, ?_⟩
      have := Int.ceil_lt_add_one r
      linarith

end Transform

/-! ## Concrete instances -/

section Instances

end Instances

/-! ## Accuracy and length of the stepping -/

section Accuracy

/-- Positions of the stepping stay between the two endpoints and within half a
pixel of the ideal segment. -/
theorem lineStateAt_near (x1 y1 x2 y2 : Int) (k : Nat) (hk : k ≤ totalSteps x1 y1 x2 y2) :
    2 * |((lineStateAt x1 y1 x2 y2 k).x - x1) * (y2 - y1)
          - ((lineStateAt x1 y1 x2 y2 k).y - y1) * (x2 - x1)| ≤ max |x2 - x1| |y2 - y1| ∧
    min x1 x2 ≤ (lineStateAt x1 y1 x2 y2 k).x ∧ (lineStateAt x1 y1 x2 y2 k).x ≤ max x1 x2 ∧
    min y1 y2 ≤ (lineStateAt x1 y1 x2 y2 k).y ∧ (lineStateAt x1 y1 x2 y2 k).y ≤ max y1 y2 := by
  rcases Nat.eq_zero_or_pos (totalSteps x1 y1 x2 y2) with h0 | hpos
  · have hk0 : k = 0 := by omega
    subst hk0
    simp only [lineStateAt_zero, lineStart, sub_self, zero_mul, abs_zero, mul_zero]
    refine ⟨le_max_of_le_left (abs_nonneg _), min_le_left _ _, le_max_left _ _,
      min_le_left _ _, le_max_left _ _⟩
  · obtain ⟨a, b, hinv⟩ := lineStateAt_inv x1 y1 x2 y2 hpos k hk
    have hx := sign_mul_abs_x x1 x2
    have hy := sign_mul_abs_x y1 y2
    have s1 : |(if x1 < x2 then (1 : Int) else -1)| = 1 := by split_ifs <;> simp
    have s2 : |(if y1 < y2 then (1 : Int) else -1)| = 1 := by split_ifs <;> simp
    have hcross : ((lineStateAt x1 y1 x2 y2 k).x - x1) * (y2 - y1)
          - ((lineStateAt x1 y1 x2 y2 k).y - y1) * (x2 - x1)
        = (if x1 < x2 then (1 : Int) else -1) * (if y1 < y2 then (1 : Int) else -1)
            * (|x2 - x1| - |y2 - y1| - (lineStateAt x1 y1 x2 y2 k).err) := by
      rw [hinv.hx, hinv.hy, hinv.herr]
      linear_combination (-((if x1 < x2 then (1 : Int) else -1) * a)) * hy
        + ((if y1 < y2 then (1 : Int) else -1) * b) * hx
    have ha0 := hinv.a_nonneg
    have ha1 := hinv.a_le
    have hb0 := hinv.b_nonneg
    have hb1 := hinv.b_le
    refine ⟨?_, ?_, ?_, ?_, ?_⟩
    · rw [hcross, abs_mul, abs_mul, s1, s2, one_mul, one_mul]
      by_cases hmaj : |y2 - y1| ≤ |x2 - x1|
      · obtain ⟨_, _, hlo, hhi⟩ := hinv.xmajor hmaj
        rw [max_eq_left hmaj]
        rcases abs_cases (|x2 - x1| - |y2 - y1| - (lineStateAt x1 y1 x2 y2 k).err) with h | h <;>
          omega
      · obtain ⟨_, hlo, hhi⟩ := hinv.ymajor (not_le.mp hmaj)
        rw [max_eq_right (not_le.mp hmaj).le]
        rcases abs_cases (|x2 - x1| - |y2 - y1| - (lineStateAt x1 y1 x2 y2 k).err) with h | h <;>
          omega
    · rw [hinv.hx]
      split_ifs with h
      · rw [abs_of_pos (by omega)] at ha1; omega
      · rw [abs_of_nonpos (by omega)] at ha1; omega
    · rw [hinv.hx]
      split_ifs with h
      · rw [abs_of_pos (by omega)] at ha1; omega
      · rw [abs_of_nonpos (by omega)] at ha1; omega
    · rw [hinv.hy]
      split_ifs with h
      · rw [abs_of_pos (by omega)] at hb1; omega
      · rw [abs_of_nonpos (by omega)] at hb1; omega
    · rw [hinv.hy]
      split_ifs with h
      · rw [abs_of_pos (by omega)] at hb1; omega
      · rw [abs_of_nonpos (by omega)] at hb1; omega

/-- On every non-final iteration the major axis advances by one. -/
theorem lineStateAt_major (x1 y1 x2 y2 : Int) (k : Nat) (hk : k < totalSteps x1 y1 x2 y2) :
    (|y2 - y1| ≤ |x2 - x1| →
      (lineStateAt x1 y1 x2 y2 (k + 1)).x
        = (lineStateAt x1 y1 x2 y2 k).x + (if x1 < x2 then 1 else -1)) ∧
    (|x2 - x1| < |y2 - y1| →
      (lineStateAt x1 y1 x2 y2 (k + 1)).y
        = (lineStateAt x1 y1 x2 y2 k).y + (if y1 < y2 then 1 else -1)) := by
  have hpos : 0 < totalSteps x1 y1 x2 y2 := by omega
  obtain ⟨a, b, h1⟩ := lineStateAt_inv x1 y1 x2 y2 hpos k hk.le
  obtain ⟨a2, b2, h2⟩ := lineStateAt_inv x1 y1 x2 y2 hpos (k + 1) hk
  constructor
  · intro hmaj
    rw [h1.hx, h2.hx, (h1.xmajor hmaj).1, (h2.xmajor hmaj).1]
    push_cast; ring
  · intro hmaj
    rw [h1.hy, h2.hy, (h1.ymajor hmaj).1, (h2.ymajor hmaj).1]
    push_cast; ring

theorem interpolatedZ_eq {K : Type} [LinearOrderedField K] (p1 p2 : ProjectedPoint K)
    (ts cs : K) : interpolatedZ p1 p2 ts cs = p1.z + stepFraction ts cs * (p2.z - p1.z) := rfl

variable {K : Type} [LinearOrderedField K] [FloorRing K]

end Accuracy

/-! ## The projector against rounding -/

section Projector

variable {K : Type} [LinearOrderedField K] [FloorRing K]

theorem round_eq_truncToInt (v : K) (h0 : 0 ≤ v) (hf : Int.fract v < 1 / 2) :
    round v = truncToInt v := by
  unfold truncToInt
  rw [if_pos h0]
  unfold round
  rw [if_pos (by linarith)]

end Projector

/-! ## The cube -/

section Cube

theorem createCube_vertices (K : Type) [LinearOrderedField K] :
    (createCube K).1 = [⟨-1, -1, -1⟩, ⟨1, -1, -1⟩, ⟨1, 1, -1⟩, ⟨-1, 1, -1⟩,
      ⟨-1, -1, 1⟩, ⟨1, -1, 1⟩, ⟨1, 1, 1⟩, ⟨-1, 1, 1⟩] := rfl

theorem createCube_edges (K : Type) [LinearOrderedField K] :
    (createCube K).2 = [(0, 1), (1, 2), (2, 3), (3, 0), (4, 5), (5, 6), (6, 7), (7, 4),
      (0, 4), (1, 5), (2, 6), (3, 7)] := rfl

theorem cube_vertex_sq (K : Type) [LinearOrderedField K] (v : Point3D K)
    (hv : v ∈ (createCube K).1) : v.x ^ 2 = 1 ∧ v.y ^ 2 = 1 ∧ v.z ^ 2 = 1 := by
  rw [createCube_vertices] at hv
  simp only [List.mem_cons, List.mem_singleton, List.not_mem_nil, or_false] at hv
  rcases hv with rfl | rfl | rfl | rfl | rfl | rfl | rfl | rfl <;> norm_num

/-- Every coordinate of a cube vertex is `1` or `-1`. -/
theorem cube_vertex_signs (K : Type) [LinearOrderedField K] (v : Point3D K)
    (hv : v ∈ (createCube K).1) :
    (v.x = 1 ∨ v.x = -1) ∧ (v.y = 1 ∨ v.y = -1) ∧ (v.z = 1 ∨ v.z = -1) := by
  rw [createCube_vertices] at hv
  simp only [List.mem_cons, List.mem_singleton, List.not_mem_nil, or_false] at hv
  rcases hv with rfl | rfl | rfl | rfl | rfl | rfl | rfl | rfl <;> simp

/-- C13: `createCube` returns exactly 8 vertices and 12 edges; the two indices
of every edge lie in `[0, 8)` and differ, and no undirected connection appears
twice, neither as the same pair nor as the reversed pair. -/
theorem createCube_wellformed (K : Type) [LinearOrderedField K] :
    (createCube K).1.length = 8 ∧ (createCube K).2.length = 12 ∧
    (∀ e ∈ (createCube K).2, (0 ≤ e.1 ∧ e.1 < 8) ∧ (0 ≤ e.2 ∧ e.2 < 8) ∧ e.1 ≠ e.2) ∧
    (createCube K).2.Pairwise
      (fun e f => ¬ (e.1 = f.1 ∧ e.2 = f.2) ∧ ¬ (e.1 = f.2 ∧ e.2 = f.1)) := by
  rw [createCube_vertices, createCube_edges]
  refine ⟨rfl, rfl, by decide, by decide⟩

/-- C14: the vertices of `createCube` are the 8 sign combinations `(±1, ±1, ±1)`,
each occurring exactly once; two distinct vertices are joined by an edge (in
either orientation) if and only if they differ in exactly one coordinate; 4
edges lie in the face `z = -1`, 4 in the face `z = 1`, 4 join the two faces; and
every vertex is on exactly 3 edges. -/
theorem createCube_topology (K : Type) [LinearOrderedField K] :
    (∀ v ∈ (createCube K).1,
      (v.x = 1 ∨ v.x = -1) ∧ (v.y = 1 ∨ v.y = -1) ∧ (v.z = 1 ∨ v.z = -1)) ∧
    (∀ a b c : K, (a = 1 ∨ a = -1) → (b = 1 ∨ b = -1) → (c = 1 ∨ c = -1) →
      ((createCube K).1.filter fun v => v.x = a ∧ v.y = b ∧ v.z = c).length = 1) ∧
    (∀ i j : Int, 0 ≤ i → i < 8 → 0 ≤ j → j < 8 → i ≠ j →
      (((i, j) ∈ (createCube K).2 ∨ (j, i) ∈ (createCube K).2) ↔
        coordDiffs (vertexAt (createCube K).1 i) (vertexAt (createCube K).1 j) = 1)) ∧
    ((createCube K).2.filter fun e =>
      (vertexAt (createCube K).1 e.1).z = -1 ∧ (vertexAt (createCube K).1 e.2).z = -1).length = 4 ∧
    ((createCube K).2.filter fun e =>
      (vertexAt (createCube K).1 e.1).z = 1 ∧ (vertexAt (createCube K).1 e.2).z = 1).length = 4 ∧
    ((createCube K).2.filter fun e =>
      (vertexAt (createCube K).1 e.1).z ≠ (vertexAt (createCube K).1 e.2).z).length = 4 ∧
    (∀ i : Int, 0 ≤ i → i < 8 →
      ((createCube K).2.filter fun e => e.1 = i ∨ e.2 = i).length = 3) := by
  have h1 : (1 : K) ≠ -1 := by norm_num
  have h2 : (-1 : K) ≠ 1 := by norm_num
  rw [createCube_vertices, createCube_edges]
  refine ⟨?_, ?_, ?_, ?_, ?_, ?_, ?_⟩
  · intro v hv
    simp only [List.mem_cons, List.mem_singleton, List.not_mem_nil, or_false] at hv
    rcases hv with rfl | rfl | rfl | rfl | rfl | rfl | rfl | rfl <;> simp
  · intro a b c ha hb hc
    rcases ha with rfl | rfl <;> rcases hb with rfl | rfl <;> rcases hc with rfl | rfl <;>
      simp [List.filter, h1, h2]
  · intro i j hi0 hi hj0 hj hij
    interval_cases i <;> interval_cases j <;>
      first
        | exact absurd rfl hij
        | simp [vertexAt, coordDiffs, h1, h2]
  · simp [List.filter, vertexAt, h1, h2]
  · simp [List.filter, vertexAt, h1, h2]
  · simp [List.filter, vertexAt, h1, h2]
  · intro i hi0 hi
    interval_cases i <;> decide

end Cube

/-! ## Rotation preserves the norm -/

section Norm

theorem rotatePoint_sq (p : Point3D ℝ) (aX aY : ℝ) :
    (rotatePoint Real.cos Real.sin p aX aY).x ^ 2 + (rotatePoint Real.cos Real.sin p aX aY).y ^ 2
      + (rotatePoint Real.cos Real.sin p aX aY).z ^ 2 = p.x ^ 2 + p.y ^ 2 + p.z ^ 2 := by
  have hX := Real.sin_sq_add_cos_sq aX
  have hY := Real.sin_sq_add_cos_sq aY
  simp only [rotatePoint]
  linear_combination (p.x ^ 2 + (p.y * Real.sin aX + p.z * Real.cos aX) ^ 2) * hY
    + (p.y ^ 2 + p.z ^ 2) * hX

/-- Every rotated cube vertex has squared norm 3. -/
theorem rotatedCube_sq (aX aY : ℝ) :
    ∀ v ∈ rotatedCube Real.cos Real.sin aX aY, v.x ^ 2 + v.y ^ 2 + v.z ^ 2 = 3 := by
  intro v hv
  unfold rotatedCube at hv
  obtain ⟨u, hu, rfl⟩ := List.mem_map.mp hv
  obtain ⟨h1, h2, h3⟩ := cube_vertex_sq ℝ u hu
  rw [rotatePoint_sq, h1, h2, h3]
  norm_num

/-- C20: for every point and every pair of real angles, `rotatePoint` preserves
the squared Euclidean norm `x^2 + y^2 + z^2`; in particular every rotated cube
vertex has squared norm 3. -/
theorem rotatePoint_norm (p : Point3D ℝ) (aX aY : ℝ) :
    ((rotatePoint Real.cos Real.sin p aX aY).x ^ 2 + (rotatePoint Real.cos Real.sin p aX aY).y ^ 2
      + (rotatePoint Real.cos Real.sin p aX aY).z ^ 2 = p.x ^ 2 + p.y ^ 2 + p.z ^ 2) ∧
    ∀ v ∈ rotatedCube Real.cos Real.sin aX aY, v.x ^ 2 + v.y ^ 2 + v.z ^ 2 = 3 :=
  ⟨rotatePoint_sq p aX aY, rotatedCube_sq aX aY⟩

end Norm

/-! ## The depth range of a frame -/

section Scan
variable {K : Type} [LinearOrderedField K]

/-- The scan only lowers the minimum and raises the maximum, covers every
scanned vertex, and ends on depths it has seen. -/
theorem scan_spec (l : List (Point3D K)) :
    ∀ acc : K × K,
      (l.foldl scanStep acc).1 ≤ acc.1 ∧ acc.2 ≤ (l.foldl scanStep acc).2 ∧
      (∀ v ∈ l, (l.foldl scanStep acc).1 ≤ v.z ∧ v.z ≤ (l.foldl scanStep acc).2) ∧
      ((l.foldl scanStep acc).1 = acc.1 ∨ ∃ v ∈ l, v.z = (l.foldl scanStep acc).1) ∧
      ((l.foldl scanStep acc).2 = acc.2 ∨ ∃ v ∈ l, v.z = (l.foldl scanStep acc).2) := by
  induction l with
  | nil => intro acc; simp
  | cons u l ih =>
    intro acc
    obtain ⟨h1, h2, h3, h4, h5⟩ := ih (scanStep acc u)
    rw [List.foldl_cons]
    have hs1 : (scanStep acc u).1 ≤ acc.1 ∧ (scanStep acc u).1 ≤ u.z ∧
        ((scanStep acc u).1 = acc.1 ∨ (scanStep acc u).1 = u.z) := by
      by_cases h : u.z < acc.1
      · simp [scanStep, h, h.le]
      · simp [scanStep, h, not_lt.mp h]
    have hs2 : acc.2 ≤ (scanStep acc u).2 ∧ u.z ≤ (scanStep acc u).2 ∧
        ((scanStep acc u).2 = acc.2 ∨ (scanStep acc u).2 = u.z) := by
      by_cases h : u.z > acc.2
      · simp [scanStep, h, h.le]
      · simp [scanStep, h, not_lt.mp h]
    refine ⟨h1.trans hs1.1, hs2.1.trans h2, ?_, ?_, ?_⟩
    · intro v hv
      rcases List.mem_cons.mp hv with rfl | hv
      · exact ⟨h1.trans hs1.2.1, hs2.2.1.trans h2⟩
      · exact h3 v hv
    · rcases h4 with h4 | ⟨v, hv, hvz⟩
      · rcases hs1.2.2 with h | h
        · exact Or.inl (h4.trans h)
        · exact Or.inr ⟨u, List.mem_cons_self _ _, (h4.trans h).symm⟩
      · exact Or.inr ⟨v, List.mem_cons_of_mem _ hv, hvz⟩
    · rcases h5 with h5 | ⟨v, hv, hvz⟩
      · rcases hs2.2.2 with h | h
        · exact Or.inl (h5.trans h)
        · exact Or.inr ⟨u, List.mem_cons_self _ _, (h5.trans h).symm⟩
      · exact Or.inr ⟨v, List.mem_cons_of_mem _ hv, hvz⟩

/-- The widening constant `1e-6` is positive. -/
theorem epsilon_pos : (0 : K) < 1e-6 := by norm_num

/-- The depth range of a non-empty vertex list covers every vertex and is not empty. -/
theorem depthRange_spec (rotated : List (Point3D K)) :
    (∀ v ∈ rotated, (depthRange rotated).1 ≤ v.z ∧ v.z ≤ (depthRange rotated).2) ∧
    (depthRange rotated).1 < (depthRange rotated).2 := by
  obtain ⟨h1, h2, h3, _, _⟩ := scan_spec rotated ((vertexAt rotated 0).z, (vertexAt rotated 0).z)
  have hle := h1.trans h2
  have heps : (0 : K) < 1e-6 := epsilon_pos
  unfold depthRange
  simp only []
  split_ifs with heq
  · simp only []
    refine ⟨fun v hv => ⟨(h3 v hv).1, (h3 v hv).2.trans (by linarith)⟩, ?_⟩
    rw [heq]; linarith
  · exact ⟨h3, lt_of_le_of_ne hle (fun h => heq h.symm)⟩

/-- C12: in the frame composer, for every pair of angles, after the min/max scan
and the epsilon step every rotated vertex `v` satisfies `min_z ≤ v.z ≤ max_z` and
`max_z > min_z` strictly, so the normalization denominator `max_z - min_z`
passed to `drawLine` is never zero. -/
theorem depthRange_rotatedCube (cos sin : K → K) (angle_x angle_y : K) :
    (∀ v ∈ rotatedCube cos sin angle_x angle_y,
      (depthRange (rotatedCube cos sin angle_x angle_y)).1 ≤ v.z ∧
      v.z ≤ (depthRange (rotatedCube cos sin angle_x angle_y)).2) ∧
    (depthRange (rotatedCube cos sin angle_x angle_y)).1
      < (depthRange (rotatedCube cos sin angle_x angle_y)).2 ∧
    (depthRange (rotatedCube cos sin angle_x angle_y)).2
      - (depthRange (rotatedCube cos sin angle_x angle_y)).1 ≠ 0 := by
  obtain ⟨h1, h2⟩ := depthRange_spec (rotatedCube cos sin angle_x angle_y)
  exact ⟨h1, h2, (sub_pos.mpr h2).ne'⟩

end Scan

section DepthSymmetry

/-- Every sign pattern is a vertex of the cube. -/
theorem sign_vertex_mem (a b c : ℝ) (ha : a = 1 ∨ a = -1) (hb : b = 1 ∨ b = -1)
    (hc : c = 1 ∨ c = -1) : (⟨a, b, c⟩ : Point3D ℝ) ∈ (createCube ℝ).1 := by
  rw [createCube_vertices]
  rcases ha with rfl | rfl <;> rcases hb with rfl | rfl <;> rcases hc with rfl | rfl <;> simp

/-- The depth of a rotated point is a fixed linear form in its coordinates. -/
theorem rotatePoint_z (u : Point3D ℝ) (aX aY : ℝ) :
    (rotatePoint Real.cos Real.sin u aX aY).z
      = (-Real.sin aY) * u.x + (Real.sin aX * Real.cos aY) * u.y
        + (Real.cos aX * Real.cos aY) * u.z := by
  simp only [rotatePoint]; ring

theorem mul_sign_eq_abs (a : ℝ) : a * (if 0 ≤ a then 1 else -1) = |a| := by
  split_ifs with h
  · rw [abs_of_nonneg h]; ring
  · rw [abs_of_neg (not_le.mp h)]; ring

theorem mul_neg_sign_eq (a : ℝ) : a * (if 0 ≤ a then -1 else 1) = -|a| := by
  split_ifs with h
  · rw [abs_of_nonneg h]; ring
  · rw [abs_of_neg (not_le.mp h)]; ring

theorem abs_mul_unit (a x : ℝ) (hx : x = 1 ∨ x = -1) : |a * x| = |a| := by
  rcases hx with rfl | rfl <;> simp

/-- A linear form on the cube vertices is bounded by the sum of the absolute
values of its coefficients, and attains both bounds. -/
theorem cube_linear_form (al be ga : ℝ) :
    (∀ u ∈ (createCube ℝ).1, |al * u.x + be * u.y + ga * u.z| ≤ |al| + |be| + |ga|) ∧
    (∃ u ∈ (createCube ℝ).1, al * u.x + be * u.y + ga * u.z = |al| + |be| + |ga|) ∧
    (∃ u ∈ (createCube ℝ).1, al * u.x + be * u.y + ga * u.z = -(|al| + |be| + |ga|)) := by
  refine ⟨?_, ?_, ?_⟩
  · intro u hu
    obtain ⟨hx, hy, hz⟩ := cube_vertex_signs ℝ u hu
    calc |al * u.x + be * u.y + ga * u.z|
        ≤ |al * u.x| + |be * u.y| + |ga * u.z| :=
          (abs_add _ _).trans (add_le_add_right (abs_add _ _) _)
      _ = |al| + |be| + |ga| := by
          rw [abs_mul_unit al _ hx, abs_mul_unit be _ hy, abs_mul_unit ga _ hz]
  · refine ⟨⟨if 0 ≤ al then 1 else -1, if 0 ≤ be then 1 else -1, if 0 ≤ ga then 1 else -1⟩,
      sign_vertex_mem _ _ _ (by split_ifs <;> simp) (by split_ifs <;> simp)
        (by split_ifs <;> simp), ?_⟩
    simp only [mul_sign_eq_abs]
  · refine ⟨⟨if 0 ≤ al then -1 else 1, if 0 ≤ be then -1 else 1, if 0 ≤ ga then -1 else 1⟩,
      sign_vertex_mem _ _ _ (by split_ifs <;> simp) (by split_ifs <;> simp)
        (by split_ifs <;> simp), ?_⟩
    simp only [mul_neg_sign_eq]
    ring

/-- The coefficients of the depth form have squares summing to one. -/
theorem depth_form_unit (aX aY : ℝ) :
    (-Real.sin aY) ^ 2 + (Real.sin aX * Real.cos aY) ^ 2 + (Real.cos aX * Real.cos aY) ^ 2 = 1 := by
  have hX := Real.sin_sq_add_cos_sq aX
  have hY := Real.sin_sq_add_cos_sq aY
  linear_combination hY + (Real.cos aY) ^ 2 * hX

theorem abs_sum_bounds (al be ga : ℝ) (h : al ^ 2 + be ^ 2 + ga ^ 2 = 1) :
    1 ≤ |al| + |be| + |ga| ∧ |al| + |be| + |ga| ≤ Real.sqrt 3 := by
  have ha := abs_nonneg al
  have hb := abs_nonneg be
  have hc := abs_nonneg ga
  have sa := sq_abs al
  have sb := sq_abs be
  have sc := sq_abs ga
  constructor
  · nlinarith [mul_nonneg ha hb, mul_nonneg ha hc, mul_nonneg hb hc]
  · apply Real.le_sqrt_of_sq_le
    nlinarith [sq_nonneg (|al| - |be|), sq_nonneg (|al| - |ga|), sq_nonneg (|be| - |ga|)]

/-- The scan of the rotated cube ends on the two extreme values of the depth form. -/
theorem scan_rotatedCube (aX aY : ℝ) :
    ((rotatedCube Real.cos Real.sin aX aY).foldl scanStep
        ((vertexAt (rotatedCube Real.cos Real.sin aX aY) 0).z,
          (vertexAt (rotatedCube Real.cos Real.sin aX aY) 0).z))
      = (-(|(-Real.sin aY)| + |Real.sin aX * Real.cos aY| + |Real.cos aX * Real.cos aY|),
          |(-Real.sin aY)| + |Real.sin aX * Real.cos aY| + |Real.cos aX * Real.cos aY|) := by
  obtain ⟨hb, ⟨umax, humax, hmax⟩, ⟨umin, humin, hmin⟩⟩ :=
    cube_linear_form (-Real.sin aY) (Real.sin aX * Real.cos aY) (Real.cos aX * Real.cos aY)
  have hmem : ∀ u ∈ (createCube ℝ).1,
      rotatePoint Real.cos Real.sin u aX aY ∈ rotatedCube Real.cos Real.sin aX aY :=
    fun u hu => List.mem_map_of_mem _ hu
  have hz : ∀ v ∈ rotatedCube Real.cos Real.sin aX aY,
      |v.z| ≤ |(-Real.sin aY)| + |Real.sin aX * Real.cos aY| + |Real.cos aX * Real.cos aY| := by
    intro v hv
    obtain ⟨u, hu, rfl⟩ := List.mem_map.mp hv
    rw [rotatePoint_z]
    exact hb u hu
  have h0 : vertexAt (rotatedCube Real.cos Real.sin aX aY) 0
      ∈ rotatedCube Real.cos Real.sin aX aY := by
    simp [vertexAt, rotatedCube, createCube_vertices]
  obtain ⟨_, _, h3, h4, h5⟩ := scan_spec (rotatedCube Real.cos Real.sin aX aY)
    ((vertexAt (rotatedCube Real.cos Real.sin aX aY) 0).z,
      (vertexAt (rotatedCube Real.cos Real.sin aX aY) 0).z)
  have hhi := (h3 _ (hmem umax humax)).2
  have hlo := (h3 _ (hmem umin humin)).1
  rw [rotatePoint_z, hmax] at hhi
  rw [rotatePoint_z, hmin] at hlo
  have hlo2 : -(|(-Real.sin aY)| + |Real.sin aX * Real.cos aY| + |Real.cos aX * Real.cos aY|)
      ≤ ((rotatedCube Real.cos Real.sin aX aY).foldl scanStep
        ((vertexAt (rotatedCube Real.cos Real.sin aX aY) 0).z,
          (vertexAt (rotatedCube Real.cos Real.sin aX aY) 0).z)).1 := by
    rcases h4 with h | ⟨v, hv, hvz⟩
    · rw [h]; exact (abs_le.mp (hz _ h0)).1
    · rw [← hvz]; exact (abs_le.mp (hz _ hv)).1
  have hhi2 : ((rotatedCube Real.cos Real.sin aX aY).foldl scanStep
        ((vertexAt (rotatedCube Real.cos Real.sin aX aY) 0).z,
          (vertexAt (rotatedCube Real.cos Real.sin aX aY) 0).z)).2
      ≤ |(-Real.sin aY)| + |Real.sin aX * Real.cos aY| + |Real.cos aX * Real.cos aY| := by
    rcases h5 with h | ⟨v, hv, hvz⟩
    · rw [h]; exact (abs_le.mp (hz _ h0)).2
    · rw [← hvz]; exact (abs_le.mp (hz _ hv)).2
  exact Prod.ext (le_antisymm hlo hlo2) (le_antisymm hhi2 hhi)

/-- C19: for every pair of real angles the depth range computed by the frame
composer from the rotated cube vertices is symmetric and never degenerate:
`min_z = -max_z` and `1 ≤ max_z ≤ sqrt 3`; the scan never ends with
`max_z == min_z`, so the range is the scanned one and the epsilon-widening
branch is not taken. -/
theorem depthRange_symmetric (aX aY : ℝ) :
    (depthRange (rotatedCube Real.cos Real.sin aX aY)).1
      = -(depthRange (rotatedCube Real.cos Real.sin aX aY)).2 ∧
    1 ≤ (depthRange (rotatedCube Real.cos Real.sin aX aY)).2 ∧
    (depthRange (rotatedCube Real.cos Real.sin aX aY)).2 ≤ Real.sqrt 3 ∧
    ((rotatedCube Real.cos Real.sin aX aY).foldl scanStep
        ((vertexAt (rotatedCube Real.cos Real.sin aX aY) 0).z,
          (vertexAt (rotatedCube Real.cos Real.sin aX aY) 0).z)).2
      ≠ ((rotatedCube Real.cos Real.sin aX aY).foldl scanStep
        ((vertexAt (rotatedCube Real.cos Real.sin aX aY) 0).z,
          (vertexAt (rotatedCube Real.cos Real.sin aX aY) 0).z)).1 ∧
    depthRange (rotatedCube Real.cos Real.sin aX aY)
      = (rotatedCube Real.cos Real.sin aX aY).foldl scanStep
        ((vertexAt (rotatedCube Real.cos Real.sin aX aY) 0).z,
          (vertexAt (rotatedCube Real.cos Real.sin aX aY) 0).z) := by
  obtain ⟨h1, h2⟩ := abs_sum_bounds _ _ _ (depth_form_unit aX aY)
  have hscan := scan_rotatedCube aX aY
  have hne : ((rotatedCube Real.cos Real.sin aX aY).foldl scanStep
        ((vertexAt (rotatedCube Real.cos Real.sin aX aY) 0).z,
          (vertexAt (rotatedCube Real.cos Real.sin aX aY) 0).z)).2
      ≠ ((rotatedCube Real.cos Real.sin aX aY).foldl scanStep
        ((vertexAt (rotatedCube Real.cos Real.sin aX aY) 0).z,
          (vertexAt (rotatedCube Real.cos Real.sin aX aY) 0).z)).1 := by
    rw [hscan]
    simp only []
    intro h
    linarith
  have hrange : depthRange (rotatedCube Real.cos Real.sin aX aY)
      = (rotatedCube Real.cos Real.sin aX aY).foldl scanStep
        ((vertexAt (rotatedCube Real.cos Real.sin aX aY) 0).z,
          (vertexAt (rotatedCube Real.cos Real.sin aX aY) 0).z) := by
    unfold depthRange
    simp only []
    rw [if_neg hne]
  refine ⟨?_, ?_, ?_, hne, hrange⟩
  · rw [hrange, hscan]
  · rw [hrange, hscan]; exact h1
  · rw [hrange, hscan]; exact h2

end DepthSymmetry

/-! ## The frame composer -/

section Frame

/-- A monadic fold whose steps all succeed is the pure fold. -/
theorem foldlM_eq_foldl {α β : Type} (f : β → α → Option β) (g : β → α → β) (l : List α) :
    ∀ b : β, (∀ b2, ∀ a ∈ l, f b2 a = some (g b2 a)) → l.foldlM f b = some (l.foldl g b) := by
  induction l with
  | nil => intro b _; rfl
  | cons a l ih =>
    intro b h
    rw [List.foldlM_cons, h b a (List.mem_cons_self _ _)]
    exact ih (g b a) (fun b2 a2 ha2 => h b2 a2 (List.mem_cons_of_mem _ ha2))

/-- A coordinate of squared size at most 3 is projected into `[1, 18]`. -/
theorem project_coord_bounds (c : ℝ) (hc : c ^ 2 ≤ 3) :
    1 ≤ truncToInt (c * 5 + ((Int.tdiv 20 2 : Int) : ℝ)) ∧
    truncToInt (c * 5 + ((Int.tdiv 20 2 : Int) : ℝ)) ≤ 18 := by
  have ht : Int.tdiv 20 2 = 10 := by decide
  rw [ht]
  have h1 : -(9 / 5 : ℝ) < c := by nlinarith
  have h2 : c < 9 / 5 := by nlinarith
  have hv0 : (0 : ℝ) ≤ c * 5 + ((10 : Int) : ℝ) := by push_cast; linarith
  unfold truncToInt
  rw [if_pos hv0]
  constructor
  · exact Int.le_floor.mpr (by push_cast; linarith)
  · have : ⌊c * 5 + ((10 : Int) : ℝ)⌋ < 19 := Int.floor_lt.mpr (by push_cast; linarith)
    omega

/-- Indexing the rotated cube by an edge end yields a rotated vertex. -/
theorem vertexAt_rotatedCube_mem (aX aY : ℝ) (i : Int) (h0 : 0 ≤ i) (h8 : i < 8) :
    vertexAt (rotatedCube Real.cos Real.sin aX aY) i ∈ rotatedCube Real.cos Real.sin aX aY := by
  interval_cases i <;> simp [vertexAt, rotatedCube, createCube_vertices]

theorem cube_edge_range (K : Type) [LinearOrderedField K] (e : Int × Int)
    (he : e ∈ (createCube K).2) : (0 ≤ e.1 ∧ e.1 < 8) ∧ (0 ≤ e.2 ∧ e.2 < 8) := by
  rw [createCube_edges] at he
  revert e
  decide

/-- Every projected vertex of the rotated cube lies in `[1, 18] × [1, 18]`. -/
theorem projected_vertex_bounds (aX aY : ℝ) (i : Int) (h0 : 0 ≤ i) (h8 : i < 8) :
    (1 ≤ (projectPoint (vertexAt (rotatedCube Real.cos Real.sin aX aY) i) 20 20).x ∧
      (projectPoint (vertexAt (rotatedCube Real.cos Real.sin aX aY) i) 20 20).x ≤ 18) ∧
    (1 ≤ (projectPoint (vertexAt (rotatedCube Real.cos Real.sin aX aY) i) 20 20).y ∧
      (projectPoint (vertexAt (rotatedCube Real.cos Real.sin aX aY) i) 20 20).y ≤ 18) := by
  have hsq := rotatedCube_sq aX aY _ (vertexAt_rotatedCube_mem aX aY i h0 h8)
  constructor
  · exact project_coord_bounds _ (by nlinarith [sq_nonneg (vertexAt (rotatedCube Real.cos Real.sin aX aY) i).y, sq_nonneg (vertexAt (rotatedCube Real.cos Real.sin aX aY) i).z])
  · exact project_coord_bounds _ (by nlinarith [sq_nonneg (vertexAt (rotatedCube Real.cos Real.sin aX aY) i).x, sq_nonneg (vertexAt (rotatedCube Real.cos Real.sin aX aY) i).z])

/-- Positions visited between two points of `[1, 18] × [1, 18]` stay in that square,
and there are at most 17 steps. -/
theorem lineStateAt_square (x1 y1 x2 y2 : Int)
    (hx1 : 1 ≤ x1 ∧ x1 ≤ 18) (hy1 : 1 ≤ y1 ∧ y1 ≤ 18)
    (hx2 : 1 ≤ x2 ∧ x2 ≤ 18) (hy2 : 1 ≤ y2 ∧ y2 ≤ 18) :
    totalSteps x1 y1 x2 y2 ≤ 17 ∧
    ∀ k, k ≤ totalSteps x1 y1 x2 y2 →
      (1 ≤ (lineStateAt x1 y1 x2 y2 k).x ∧ (lineStateAt x1 y1 x2 y2 k).x ≤ 18) ∧
      (1 ≤ (lineStateAt x1 y1 x2 y2 k).y ∧ (lineStateAt x1 y1 x2 y2 k).y ≤ 18) := by
  constructor
  · have hN := totalSteps_cast x1 y1 x2 y2
    have h1 : |x2 - x1| ≤ 17 := abs_le.mpr ⟨by omega, by omega⟩
    have h2 : |y2 - y1| ≤ 17 := abs_le.mpr ⟨by omega, by omega⟩
    have := max_le h1 h2
    omega
  · intro k hk
    obtain ⟨_, h1, h2, h3, h4⟩ := lineStateAt_near x1 y1 x2 y2 k hk
    omega


/-- A property kept by every step of a fold holds at its end. -/
theorem foldl_invariant {α β : Type} (P : β → Prop) (g : β → α → β) (l : List α)
    (h : ∀ b, ∀ a ∈ l, P b → P (g b a)) : ∀ b : β, P b → P (l.foldl g b) := by
  induction l with
  | nil => intro b hb; exact hb
  | cons a l ih =>
    intro b hb
    rw [List.foldl_cons]
    exact ih (fun b2 a2 ha2 => h b2 a2 (List.mem_cons_of_mem _ ha2)) _
      (h b a (List.mem_cons_self _ _) hb)

/-- With at least 18 units of fuel, drawing an edge of the rotated cube is the
replay of the samples of its line. -/
theorem drawEdge_eq (aX aY : ℝ) (fuel : Nat) (hfuel : 18 ≤ fuel) (min_z max_z : ℝ)
    (screen : Screen) (e : Int × Int) (he : e ∈ (createCube ℝ).2) :
    drawEdge fuel (rotatedCube Real.cos Real.sin aX aY) min_z max_z screen e
      = some (paintEdge (rotatedCube Real.cos Real.sin aX aY) min_z max_z screen e) := by
  obtain ⟨h1, h2⟩ := cube_edge_range ℝ e he
  obtain ⟨hx1, hy1⟩ := projected_vertex_bounds aX aY e.1 h1.1 h1.2
  obtain ⟨hx2, hy2⟩ := projected_vertex_bounds aX aY e.2 h2.1 h2.2
  have hN := (lineStateAt_square _ _ _ _ hx1 hy1 hx2 hy2).1
  unfold drawEdge paintEdge
  exact drawLine_eq fuel screen _ _ min_z max_z (by omega)

/-- With at least 18 units of fuel, the frame is the fold of the edge replays
over the blank buffer. -/
theorem composeFrame_eq (aX aY : ℝ) (fuel : Nat) (hfuel : 18 ≤ fuel) :
    composeFrame Real.cos Real.sin fuel aX aY
      = some ((createCube ℝ).2.foldl
          (paintEdge (rotatedCube Real.cos Real.sin aX aY)
            (depthRange (rotatedCube Real.cos Real.sin aX aY)).1
            (depthRange (rotatedCube Real.cos Real.sin aX aY)).2) (blankScreen 20 20)) := by
  unfold composeFrame
  exact foldlM_eq_foldl _ _ _ _ (fun s e he => drawEdge_eq aX aY fuel hfuel _ _ s e he)

theorem getCell_blankScreen (w h r q : Nat) (hr : r < h) (hq : q < w) :
    getCell (blankScreen w h) r q = some ' ' := by
  simp [getCell, blankScreen, List.getElem?_replicate, hr, hq]

/-- Drawing an edge of the rotated cube keeps the dimensions and the border cells. -/
theorem paintEdge_border (aX aY : ℝ) (min_z max_z : ℝ) (screen : Screen) (e : Int × Int)
    (he : e ∈ (createCube ℝ).2) :
    (paintEdge (rotatedCube Real.cos Real.sin aX aY) min_z max_z screen e).map List.length
      = screen.map List.length ∧
    ∀ r q : Nat, (r = 0 ∨ r = 19 ∨ q = 0 ∨ q = 19) →
      getCell (paintEdge (rotatedCube Real.cos Real.sin aX aY) min_z max_z screen e) r q
        = getCell screen r q := by
  obtain ⟨h1, h2⟩ := cube_edge_range ℝ e he
  obtain ⟨hx1, hy1⟩ := projected_vertex_bounds aX aY e.1 h1.1 h1.2
  obtain ⟨hx2, hy2⟩ := projected_vertex_bounds aX aY e.2 h2.1 h2.2
  have hsq := (lineStateAt_square _ _ _ _ hx1 hy1 hx2 hy2).2
  refine ⟨plotAll_map_length _ _ _ _, ?_⟩
  intro r q hborder
  by_contra hne
  unfold paintEdge at hne
  obtain ⟨p, hp, _, hq, hr⟩ := getCell_plotAll_ne _ _ _ r q screen hne
  obtain ⟨k, hk, hpx, hpy, _⟩ := mem_lineSamples _ _ _ _ _ p hp
  have hpos := hsq k (by omega)
  rw [← hpx, ← hpy] at hpos
  omega

/-- C18: for every pair of real angles, every cube edge rasterized by the frame
composer on the 20×20 grid has both projected ends in `[1, 18] × [1, 18]` and
visits only positions with `1 ≤ x ≤ 18` and `1 ≤ y ≤ 18`, so no visited
position fails the bounds check of `drawLine`; the frame (returned whenever the
fuel is at least 18) is a 20×20 buffer whose rows 0 and 19 and columns 0 and 19
are blank. -/
theorem composeFrame_margin (aX aY : ℝ) :
    (∀ e ∈ (createCube ℝ).2,
      ((1 ≤ (projectPoint (vertexAt (rotatedCube Real.cos Real.sin aX aY) e.1) 20 20).x ∧
          (projectPoint (vertexAt (rotatedCube Real.cos Real.sin aX aY) e.1) 20 20).x ≤ 18) ∧
        (1 ≤ (projectPoint (vertexAt (rotatedCube Real.cos Real.sin aX aY) e.1) 20 20).y ∧
          (projectPoint (vertexAt (rotatedCube Real.cos Real.sin aX aY) e.1) 20 20).y ≤ 18)) ∧
      ((1 ≤ (projectPoint (vertexAt (rotatedCube Real.cos Real.sin aX aY) e.2) 20 20).x ∧
          (projectPoint (vertexAt (rotatedCube Real.cos Real.sin aX aY) e.2) 20 20).x ≤ 18) ∧
        (1 ≤ (projectPoint (vertexAt (rotatedCube Real.cos Real.sin aX aY) e.2) 20 20).y ∧
          (projectPoint (vertexAt (rotatedCube Real.cos Real.sin aX aY) e.2) 20 20).y ≤ 18)) ∧
      ∀ k, k ≤ totalSteps
            (projectPoint (vertexAt (rotatedCube Real.cos Real.sin aX aY) e.1) 20 20).x
            (projectPoint (vertexAt (rotatedCube Real.cos Real.sin aX aY) e.1) 20 20).y
            (projectPoint (vertexAt (rotatedCube Real.cos Real.sin aX aY) e.2) 20 20).x
            (projectPoint (vertexAt (rotatedCube Real.cos Real.sin aX aY) e.2) 20 20).y →
        (1 ≤ (lineStateAt
            (projectPoint (vertexAt (rotatedCube Real.cos Real.sin aX aY) e.1) 20 20).x
            (projectPoint (vertexAt (rotatedCube Real.cos Real.sin aX aY) e.1) 20 20).y
            (projectPoint (vertexAt (rotatedCube Real.cos Real.sin aX aY) e.2) 20 20).x
            (projectPoint (vertexAt (rotatedCube Real.cos Real.sin aX aY) e.2) 20 20).y k).x ∧
          (lineStateAt
            (projectPoint (vertexAt (rotatedCube Real.cos Real.sin aX aY) e.1) 20 20).x
            (projectPoint (vertexAt (rotatedCube Real.cos Real.sin aX aY) e.1) 20 20).y
            (projectPoint (vertexAt (rotatedCube Real.cos Real.sin aX aY) e.2) 20 20).x
            (projectPoint (vertexAt (rotatedCube Real.cos Real.sin aX aY) e.2) 20 20).y k).x ≤ 18) ∧
        (1 ≤ (lineStateAt
            (projectPoint (vertexAt (rotatedCube Real.cos Real.sin aX aY) e.1) 20 20).x
            (projectPoint (vertexAt (rotatedCube Real.cos Real.sin aX aY) e.1) 20 20).y
            (projectPoint (vertexAt (rotatedCube Real.cos Real.sin aX aY) e.2) 20 20).x
            (projectPoint (vertexAt (rotatedCube Real.cos Real.sin aX aY) e.2) 20 20).y k).y ∧
          (lineStateAt
            (projectPoint (vertexAt (rotatedCube Real.cos Real.sin aX aY) e.1) 20 20).x
            (projectPoint (vertexAt (rotatedCube Real.cos Real.sin aX aY) e.1) 20 20).y
            (projectPoint (vertexAt (rotatedCube Real.cos Real.sin aX aY) e.2) 20 20).x
            (projectPoint (vertexAt (rotatedCube Real.cos Real.sin aX aY) e.2) 20 20).y k).y ≤ 18)) ∧
    (∀ fuel, 18 ≤ fuel →
      ∃ out, composeFrame Real.cos Real.sin fuel aX aY = some out ∧
        out.length = 20 ∧ (∀ row ∈ out, row.length = 20) ∧
        ∀ r q : Nat, r < 20 → q < 20 → (r = 0 ∨ r = 19 ∨ q = 0 ∨ q = 19) →
          getCell out r q = some ' ') := by
  constructor
  · intro e he
    obtain ⟨h1, h2⟩ := cube_edge_range ℝ e he
    have hp1 := projected_vertex_bounds aX aY e.1 h1.1 h1.2
    have hp2 := projected_vertex_bounds aX aY e.2 h2.1 h2.2
    exact ⟨hp1, hp2, (lineStateAt_square _ _ _ _ hp1.1 hp1.2 hp2.1 hp2.2).2⟩
  · intro fuel hfuel
    refine ⟨_, composeFrame_eq aX aY fuel hfuel, ?_⟩
    have hinv := foldl_invariant
      (fun s : Screen => s.map List.length = (blankScreen 20 20).map List.length ∧
        ∀ r q : Nat, (r = 0 ∨ r = 19 ∨ q = 0 ∨ q = 19) →
          getCell s r q = getCell (blankScreen 20 20) r q)
      (paintEdge (rotatedCube Real.cos Real.sin aX aY)
        (depthRange (rotatedCube Real.cos Real.sin aX aY)).1
        (depthRange (rotatedCube Real.cos Real.sin aX aY)).2)
      (createCube ℝ).2
      (fun s e he hs => by
        obtain ⟨hd, hb⟩ := paintEdge_border aX aY
          (depthRange (rotatedCube Real.cos Real.sin aX aY)).1
          (depthRange (rotatedCube Real.cos Real.sin aX aY)).2 s e he
        exact ⟨hd.trans hs.1, fun r q hrq => (hb r q hrq).trans (hs.2 r q hrq)⟩)
      (blankScreen 20 20) ⟨rfl, fun _ _ _ => rfl⟩
    obtain ⟨hdim, hcells⟩ := hinv
    refine ⟨?_, ?_, ?_⟩
    · have := congrArg List.length hdim
      simpa [blankScreen] using this
    · intro row hrow
      have hmem : row.length ∈ List.map List.length (blankScreen 20 20) := by
        rw [← hdim]; exact List.mem_map_of_mem _ hrow
      simp [blankScreen] at hmem
      exact hmem
    · intro r q hr hq hborder
      rw [hcells r q hborder]
      exact getCell_blankScreen 20 20 r q hr hq


end Frame

section FrameZero

variable {K : Type} [LinearOrderedField K] [FloorRing K]

/-- On a line of constant depth every iteration computes the index of that depth. -/
theorem indexAt_const (p1 p2 : ProjectedPoint K) (min_z max_z : K) (hz : p1.z = p2.z) (k : Nat) :
    indexAt p1 p2 min_z max_z k = depthIndex p1.z min_z max_z := by
  unfold indexAt shadeIndex
  rw [interpolatedZ_eq, hz, sub_self, mul_zero, add_zero]

/-- An edge whose samples all receive the character `c` is a run of `c`. -/
theorem paintEdge_eq_paintRun (rotated : List (Point3D K)) (min_z max_z : K) (screen : Screen)
    (e : Int × Int) (x1 y1 x2 y2 : Int) (c : Char)
    (hx1 : (projectPoint (vertexAt rotated e.1) 20 20).x = x1)
    (hy1 : (projectPoint (vertexAt rotated e.1) 20 20).y = y1)
    (hx2 : (projectPoint (vertexAt rotated e.2) 20 20).x = x2)
    (hy2 : (projectPoint (vertexAt rotated e.2) 20 20).y = y2)
    (hc : ∀ k, k ≤ totalSteps x1 y1 x2 y2 →
      rampChar (indexAt (projectPoint (vertexAt rotated e.1) 20 20)
        (projectPoint (vertexAt rotated e.2) 20 20) min_z max_z k) = c) :
    paintEdge rotated min_z max_z screen e = paintRun screen x1 y1 x2 y2 c := by
  unfold paintEdge paintRun lineSamples pixelRun
  rw [hx1, hy1, hx2, hy2]
  congr 1
  apply List.map_congr_left
  intro k hk
  rw [hc k (by have := List.mem_range.mp hk; omega)]

end FrameZero

section FrameZeroReal

theorem rotatedCube_zero : rotatedCube Real.cos Real.sin 0 0 = (createCube ℝ).1 := by
  simp [rotatedCube, rotatePoint, createCube_vertices]

theorem depthRange_zero : depthRange (createCube ℝ).1 = (-1, 1) := by
  simp [depthRange, scanStep, vertexAt, createCube_vertices]
  norm_num

theorem truncToInt_five : truncToInt ((-1 : ℝ) * 5 + ((Int.tdiv 20 2 : Int) : ℝ)) = 5 := by
  have ht : Int.tdiv 20 2 = 10 := by decide
  rw [ht]
  unfold truncToInt
  norm_num

theorem truncToInt_fifteen : truncToInt ((1 : ℝ) * 5 + ((Int.tdiv 20 2 : Int) : ℝ)) = 15 := by
  have ht : Int.tdiv 20 2 = 10 := by decide
  rw [ht]
  unfold truncToInt
  norm_num

theorem rampChar_near : rampChar (depthIndex (-1 : ℝ) (-1) 1) = '.' := by
  rw [depthIndex_min]; rfl

theorem rampChar_far : rampChar (depthIndex (1 : ℝ) (-1) 1) = '@' := by
  have h : depthIndex (1 : ℝ) (-1) 1 = 11 := by
    unfold depthIndex truncToInt
    norm_num
  rw [h]; rfl


theorem indexAt_zero {K : Type} [LinearOrderedField K] [FloorRing K]
    (p1 p2 : ProjectedPoint K) (min_z max_z : K) :
    indexAt p1 p2 min_z max_z 0 = depthIndex p1.z min_z max_z := by
  unfold indexAt shadeIndex
  rw [Nat.cast_zero, interpolatedZ_zero]

/-- The twelve edges at angles `(0, 0)`, as runs of one character. -/
theorem paintEdge_zero (s : Screen) :
    paintEdge (createCube ℝ).1 (-1) 1 s (0, 1) = paintRun s 5 5 15 5 '.' ∧
    paintEdge (createCube ℝ).1 (-1) 1 s (1, 2) = paintRun s 15 5 15 15 '.' ∧
    paintEdge (createCube ℝ).1 (-1) 1 s (2, 3) = paintRun s 15 15 5 15 '.' ∧
    paintEdge (createCube ℝ).1 (-1) 1 s (3, 0) = paintRun s 5 15 5 5 '.' ∧
    paintEdge (createCube ℝ).1 (-1) 1 s (4, 5) = paintRun s 5 5 15 5 '@' ∧
    paintEdge (createCube ℝ).1 (-1) 1 s (5, 6) = paintRun s 15 5 15 15 '@' ∧
    paintEdge (createCube ℝ).1 (-1) 1 s (6, 7) = paintRun s 15 15 5 15 '@' ∧
    paintEdge (createCube ℝ).1 (-1) 1 s (7, 4) = paintRun s 5 15 5 5 '@' ∧
    paintEdge (createCube ℝ).1 (-1) 1 s (0, 4) = paintRun s 5 5 5 5 '.' ∧
    paintEdge (createCube ℝ).1 (-1) 1 s (1, 5) = paintRun s 15 5 15 5 '.' ∧
    paintEdge (createCube ℝ).1 (-1) 1 s (2, 6) = paintRun s 15 15 15 15 '.' ∧
    paintEdge (createCube ℝ).1 (-1) 1 s (3, 7) = paintRun s 5 15 5 15 '.' := by
  have h5 := truncToInt_five
  have h15 := truncToInt_fifteen
  have hnear : ∀ (p1 p2 : ProjectedPoint ℝ), p1.z = -1 → p2.z = -1 → ∀ k : Nat,
      rampChar (indexAt p1 p2 (-1) 1 k) = '.' := by
    intro p1 p2 h1 h2 k
    rw [indexAt_const p1 p2 _ _ (h1.trans h2.symm), h1]
    exact rampChar_near
  have hfar : ∀ (p1 p2 : ProjectedPoint ℝ), p1.z = 1 → p2.z = 1 → ∀ k : Nat,
      rampChar (indexAt p1 p2 (-1) 1 k) = '@' := by
    intro p1 p2 h1 h2 k
    rw [indexAt_const p1 p2 _ _ (h1.trans h2.symm), h1]
    exact rampChar_far
  have hdeg : ∀ (p1 p2 : ProjectedPoint ℝ), p1.z = -1 → ∀ k : Nat, k ≤ 0 →
      rampChar (indexAt p1 p2 (-1) 1 k) = '.' := by
    intro p1 p2 h1 k hk
    obtain rfl : k = 0 := by omega
    rw [indexAt_zero, h1]
    exact rampChar_near
  refine ⟨?_, ?_, ?_, ?_, ?_, ?_, ?_, ?_, ?_, ?_, ?_, ?_⟩
  · exact paintEdge_eq_paintRun _ _ _ s (0, 1) 5 5 15 5 '.' h5 h5 h15 h5
      (fun k _ => hnear _ _ rfl rfl k)
  · exact paintEdge_eq_paintRun _ _ _ s (1, 2) 15 5 15 15 '.' h15 h5 h15 h15
      (fun k _ => hnear _ _ rfl rfl k)
  · exact paintEdge_eq_paintRun _ _ _ s (2, 3) 15 15 5 15 '.' h15 h15 h5 h15
      (fun k _ => hnear _ _ rfl rfl k)
  · exact paintEdge_eq_paintRun _ _ _ s (3, 0) 5 15 5 5 '.' h5 h15 h5 h5
      (fun k _ => hnear _ _ rfl rfl k)
  · exact paintEdge_eq_paintRun _ _ _ s (4, 5) 5 5 15 5 '@' h5 h5 h15 h5
      (fun k _ => hfar _ _ rfl rfl k)
  · exact paintEdge_eq_paintRun _ _ _ s (5, 6) 15 5 15 15 '@' h15 h5 h15 h15
      (fun k _ => hfar _ _ rfl rfl k)
  · exact paintEdge_eq_paintRun _ _ _ s (6, 7) 15 15 5 15 '@' h15 h15 h5 h15
      (fun k _ => hfar _ _ rfl rfl k)
  · exact paintEdge_eq_paintRun _ _ _ s (7, 4) 5 15 5 5 '@' h5 h15 h5 h5
      (fun k _ => hfar _ _ rfl rfl k)
  · exact paintEdge_eq_paintRun _ _ _ s (0, 4) 5 5 5 5 '.' h5 h5 h5 h5
      (fun k hk => hdeg _ _ rfl k hk)
  · exact paintEdge_eq_paintRun _ _ _ s (1, 5) 15 5 15 5 '.' h15 h5 h15 h5
      (fun k hk => hdeg _ _ rfl k hk)
  · exact paintEdge_eq_paintRun _ _ _ s (2, 6) 15 15 15 15 '.' h15 h15 h15 h15
      (fun k hk => hdeg _ _ rfl k hk)
  · exact paintEdge_eq_paintRun _ _ _ s (3, 7) 5 15 5 15 '.' h5 h15 h5 h15
      (fun k hk => hdeg _ _ rfl k hk)

set_option maxRecDepth 100000 in
/-- The twelve runs of the frame at angles `(0, 0)` draw the expected grid. -/
theorem paintRun_zero :
    paintRun (paintRun (paintRun (paintRun (paintRun (paintRun (paintRun (paintRun (paintRun
      (paintRun (paintRun (paintRun (blankScreen 20 20)
        5 5 15 5 '.') 15 5 15 15 '.') 15 15 5 15 '.') 5 15 5 5 '.')
        5 5 15 5 '@') 15 5 15 15 '@') 15 15 5 15 '@') 5 15 5 5 '@')
        5 5 5 5 '.') 15 5 15 5 '.') 15 15 15 15 '.') 5 15 5 15 '.' = specFrameZero := by
  decide

/-- C15: frame composition is a function of the two angles alone (for every pair
of angles one buffer is returned for every sufficient amount of fuel), and at
angles `(0, 0)` it yields exactly the grid `specFrameZero`: in rows 5 and 15,
columns 5 and 15 hold `.` and columns 6 to 14 hold `@`; in rows 6 to 14, columns
5 and 15 hold `@`; every other cell is a space. -/
theorem composeFrame_zero :
    (∀ aX aY : ℝ, ∃ out, ∀ fuel, 18 ≤ fuel →
      composeFrame Real.cos Real.sin fuel aX aY = some out) ∧
    (∀ fuel, 18 ≤ fuel → composeFrame Real.cos Real.sin fuel 0 0 = some specFrameZero) := by
  constructor
  · intro aX aY
    exact ⟨_, fun fuel hfuel => composeFrame_eq aX aY fuel hfuel⟩
  · intro fuel hfuel
    rw [composeFrame_eq 0 0 fuel hfuel, rotatedCube_zero, depthRange_zero, createCube_edges]
    simp only [List.foldl_cons, List.foldl_nil]
    rw [(paintEdge_zero _).1, (paintEdge_zero _).2.1, (paintEdge_zero _).2.2.1,
      (paintEdge_zero _).2.2.2.1, (paintEdge_zero _).2.2.2.2.1, (paintEdge_zero _).2.2.2.2.2.1,
      (paintEdge_zero _).2.2.2.2.2.2.1, (paintEdge_zero _).2.2.2.2.2.2.2.1,
      (paintEdge_zero _).2.2.2.2.2.2.2.2.1, (paintEdge_zero _).2.2.2.2.2.2.2.2.2.1,
      (paintEdge_zero _).2.2.2.2.2.2.2.2.2.2.1, (paintEdge_zero _).2.2.2.2.2.2.2.2.2.2.2,
      paintRun_zero]

end FrameZeroReal

/-! ## The 32-bit reading of the rasterizer and the projector -/

section Machine

/-- A value inside the `int` range is stored unchanged. -/
theorem wrap32_eq (n : Int) (h1 : -2147483648 ≤ n) (h2 : n ≤ 2147483647) : wrap32 n = n := by
  unfold wrap32
  omega

/-- The stored value always lies in the `int` range. -/
theorem wrap32_range (n : Int) : -2147483648 ≤ wrap32 n ∧ wrap32 n ≤ 2147483647 := by
  unfold wrap32
  omega

/-- On coordinates between `-2^28` and `2^28` the 32-bit differences are exact. -/
theorem absDiff32_eq (a b : Int) (ha : -268435456 ≤ a ∧ a ≤ 268435456)
    (hb : -268435456 ≤ b ∧ b ≤ 268435456) :
    wrap32 |wrap32 (b - a)| = |b - a| ∧ |b - a| ≤ 536870912 := by
  have h0 : wrap32 (b - a) = b - a := wrap32_eq _ (by omega) (by omega)
  have h1 : |b - a| ≤ 536870912 := abs_le.mpr ⟨by omega, by omega⟩
  have h2 := abs_nonneg (b - a)
  rw [h0, wrap32_eq _ (by omega) (by omega)]
  exact ⟨rfl, h1⟩

/-- One 32-bit update agrees with the exact update on a state of the exact
stepping, as long as the differences are at most `2^29`. -/
theorem lineStep32_eq (x1 y1 x2 y2 : Int)
    (hx1 : -268435456 ≤ x1 ∧ x1 ≤ 268435456) (hy1 : -268435456 ≤ y1 ∧ y1 ≤ 268435456)
    (hx2 : -268435456 ≤ x2 ∧ x2 ≤ 268435456) (hy2 : -268435456 ≤ y2 ∧ y2 ≤ 268435456)
    (k : Nat) (hk : k < totalSteps x1 y1 x2 y2) :
    lineStep32 |x2 - x1| |y2 - y1| (if x1 < x2 then 1 else -1) (if y1 < y2 then 1 else -1)
        (lineStateAt x1 y1 x2 y2 k)
      = lineStep |x2 - x1| |y2 - y1| (if x1 < x2 then 1 else -1) (if y1 < y2 then 1 else -1)
        (lineStateAt x1 y1 x2 y2 k) := by
  have hpos : 0 < totalSteps x1 y1 x2 y2 := by omega
  obtain ⟨a, b, hinv⟩ := lineStateAt_inv x1 y1 x2 y2 hpos k hk.le
  obtain ⟨_, hxl, hxu, hyl, hyu⟩ := lineStateAt_near x1 y1 x2 y2 k hk.le
  have hdx := (absDiff32_eq x1 x2 hx1 hx2).2
  have hdy := (absDiff32_eq y1 y2 hy1 hy2).2
  have hdx0 := abs_nonneg (x2 - x1)
  have hdy0 := abs_nonneg (y2 - y1)
  generalize hs : lineStateAt x1 y1 x2 y2 k = s at *
  generalize hdxe : |x2 - x1| = dx at *
  generalize hdye : |y2 - y1| = dy at *
  have hsx : (if x1 < x2 then (1 : Int) else -1) = 1 ∨ (if x1 < x2 then (1 : Int) else -1) = -1 := by
    split_ifs <;> simp
  have hsy : (if y1 < y2 then (1 : Int) else -1) = 1 ∨ (if y1 < y2 then (1 : Int) else -1) = -1 := by
    split_ifs <;> simp
  generalize (if x1 < x2 then (1 : Int) else -1) = sx at *
  generalize (if y1 < y2 then (1 : Int) else -1) = sy at *
  have herr : -1610612736 ≤ 2 * s.err ∧ 2 * s.err ≤ 1610612736 := by
    by_cases hmaj : dy ≤ dx
    · obtain ⟨_, _, hlo, hhi⟩ := hinv.xmajor hmaj
      omega
    · obtain ⟨_, hlo, hhi⟩ := hinv.ymajor (not_le.mp hmaj)
      omega
  have e1 : wrap32 (2 * s.err) = 2 * s.err := wrap32_eq _ (by omega) (by omega)
  have e2 : wrap32 (-dy) = -dy := wrap32_eq _ (by omega) (by omega)
  have e3 : wrap32 (s.err - dy) = s.err - dy := wrap32_eq _ (by omega) (by omega)
  have e4 : wrap32 (s.x + sx) = s.x + sx := wrap32_eq _ (by omega) (by omega)
  have e5 : wrap32 (s.err + dx) = s.err + dx := wrap32_eq _ (by omega) (by omega)
  have e6 : wrap32 (s.err - dy + dx) = s.err - dy + dx := wrap32_eq _ (by omega) (by omega)
  have e7 : wrap32 (s.y + sy) = s.y + sy := wrap32_eq _ (by omega) (by omega)
  unfold lineStep32 lineStep
  by_cases hc1 : 2 * s.err > -dy <;> by_cases hc2 : 2 * s.err < dx <;>
    simp only [e1, e2, e3, e4, e5, e6, e7, hc1, hc2, if_true, if_false]


/-- Within the coordinate range the 32-bit stepping is the exact stepping, up to
the iteration that reaches the endpoint. -/
theorem lineStateAt32_eq (x1 y1 x2 y2 : Int)
    (hx1 : -268435456 ≤ x1 ∧ x1 ≤ 268435456) (hy1 : -268435456 ≤ y1 ∧ y1 ≤ 268435456)
    (hx2 : -268435456 ≤ x2 ∧ x2 ≤ 268435456) (hy2 : -268435456 ≤ y2 ∧ y2 ≤ 268435456)
    (k : Nat) (hk : k ≤ totalSteps x1 y1 x2 y2) :
    lineStateAt32 x1 y1 x2 y2 k = lineStateAt x1 y1 x2 y2 k := by
  obtain ⟨hdx, hdxb⟩ := absDiff32_eq x1 x2 hx1 hx2
  obtain ⟨hdy, hdyb⟩ := absDiff32_eq y1 y2 hy1 hy2
  have hdx0 := abs_nonneg (x2 - x1)
  have hdy0 := abs_nonneg (y2 - y1)
  have herr : wrap32 (|x2 - x1| - |y2 - y1|) = |x2 - x1| - |y2 - y1| :=
    wrap32_eq _ (by omega) (by omega)
  induction k with
  | zero =>
    simp only [lineStateAt32, lineStateAt, lineStart, Function.iterate_zero, id_eq, hdx, hdy,
      herr]
  | succ k ih =>
    have hstep : lineStateAt32 x1 y1 x2 y2 (k + 1)
        = lineStep32 |x2 - x1| |y2 - y1| (if x1 < x2 then 1 else -1) (if y1 < y2 then 1 else -1)
            (lineStateAt32 x1 y1 x2 y2 k) := by
      unfold lineStateAt32
      rw [Function.iterate_succ_apply', hdx, hdy]
    rw [hstep, ih (by omega), lineStep32_eq x1 y1 x2 y2 hx1 hy1 hx2 hy2 k (by omega),
      lineStateAt_succ]

section Loop32

variable {K : Type} [LinearOrderedField K] [FloorRing K]

/-- If the endpoint is first met after `n` updates and more than `n` units of
fuel are available, the 32-bit loop returns the replay of its `n + 1` samples. -/
theorem drawLineLoop32_unroll (p1 p2 : ProjectedPoint K) (min_z max_z : K)
    (w h dx dy sx sy : Int) (ts : K) :
    ∀ (n fuel : Nat) (screen : Screen) (s : LineState) (cs : K),
      (∀ j < n, ¬ (((lineStep32 dx dy sx sy)^[j] s).x = p2.x ∧
        ((lineStep32 dx dy sx sy)^[j] s).y = p2.y)) →
      (((lineStep32 dx dy sx sy)^[n] s).x = p2.x ∧ ((lineStep32 dx dy sx sy)^[n] s).y = p2.y) →
      n < fuel →
      drawLineLoop32 p1 p2 min_z max_z w h dx dy sx sy ts fuel screen s cs
        = some (plotAll w h screen ((List.range (n + 1)).map fun j =>
            (((lineStep32 dx dy sx sy)^[j] s).x, ((lineStep32 dx dy sx sy)^[j] s).y,
              rampChar (shadeIndex32 p1 p2 min_z max_z ts (cs + (j : K)))))) := by
  intro n
  induction n with
  | zero =>
    intro fuel screen s cs _ hend hfuel
    obtain ⟨f, rfl⟩ : ∃ f, fuel = f + 1 := ⟨fuel - 1, by omega⟩
    simp only [Function.iterate_zero, id_eq] at hend
    simp [drawLineLoop32, hend, plotAll, List.range_succ]
  | succ n ih =>
    intro fuel screen s cs hnot hend hfuel
    obtain ⟨f, rfl⟩ : ∃ f, fuel = f + 1 := ⟨fuel - 1, by omega⟩
    have h0 := hnot 0 (Nat.succ_pos n)
    simp only [Function.iterate_zero, id_eq] at h0
    have hrec := ih f (plot w h screen s.x s.y (rampChar (shadeIndex32 p1 p2 min_z max_z ts cs)))
      (lineStep32 dx dy sx sy s) (cs + 1)
      (fun j hj => by
        have := hnot (j + 1) (by omega)
        rwa [Function.iterate_succ_apply] at this)
      (by rwa [Function.iterate_succ_apply] at hend)
      (by omega)
    rw [drawLineLoop32]
    simp only [h0, if_false]
    rw [hrec, List.range_succ_eq_map (n + 1), List.map_cons, plotAll_cons, List.map_map]
    simp only [Function.iterate_zero, id_eq, Nat.cast_zero, add_zero]
    congr 2
    apply List.map_congr_left
    intro j _
    simp only [Function.comp_apply, Function.iterate_succ_apply, Nat.cast_succ]
    rw [add_assoc, add_comm (1 : K)]

/-- While the endpoint is not met the 32-bit loop uses up its fuel. -/
theorem drawLineLoop32_none (p1 p2 : ProjectedPoint K) (min_z max_z : K)
    (w h dx dy sx sy : Int) (ts : K) :
    ∀ (fuel : Nat) (screen : Screen) (s : LineState) (cs : K),
      (∀ j < fuel, ¬ (((lineStep32 dx dy sx sy)^[j] s).x = p2.x ∧
        ((lineStep32 dx dy sx sy)^[j] s).y = p2.y)) →
      drawLineLoop32 p1 p2 min_z max_z w h dx dy sx sy ts fuel screen s cs = none := by
  intro fuel
  induction fuel with
  | zero => intro screen s cs _; rfl
  | succ f ih =>
    intro screen s cs hnot
    have h0 := hnot 0 (Nat.succ_pos f)
    simp only [Function.iterate_zero, id_eq] at h0
    rw [drawLineLoop32]
    simp only [h0, if_false]
    apply ih
    intro j hj
    have := hnot (j + 1) (by omega)
    rwa [Function.iterate_succ_apply] at this

/-- Functional description of the 32-bit `drawLine` on a non-empty buffer, in
terms of the 32-bit stepping: if the endpoint is first met at iteration `n`,
more than `n` units of fuel give the replay of the first `n + 1` samples. -/
theorem drawLine32_replay (fuel n : Nat) (screen : Screen) (p1 p2 : ProjectedPoint K)
    (min_z max_z : K) (hne : screen ≠ [])
    (hnot : ∀ j < n, ¬ ((lineStateAt32 p1.x p1.y p2.x p2.y j).x = p2.x ∧
      (lineStateAt32 p1.x p1.y p2.x p2.y j).y = p2.y))
    (hend : (lineStateAt32 p1.x p1.y p2.x p2.y n).x = p2.x ∧
      (lineStateAt32 p1.x p1.y p2.x p2.y n).y = p2.y)
    (hfuel : n < fuel) :
    drawLine32 fuel screen p1 p2 min_z max_z
      = some (plotAll (wrap32 (screen.headD []).length) (wrap32 screen.length) screen
          (lineSamples32 p1 p2 min_z max_z (n + 1))) := by
  cases screen with
  | nil => exact absurd rfl hne
  | cons row0 rest =>
    unfold drawLine32
    simp only []
    refine (drawLineLoop32_unroll p1 p2 min_z max_z _ _ _ _ _ _ _ n fuel (row0 :: rest) _ 0
      hnot hend hfuel).trans ?_
    simp only [lineSamples32, indexAt32, lineStateAt32, zero_add, List.headD_cons]

/-- While the 32-bit stepping stays away from the endpoint, `drawLine` returns nothing. -/
theorem drawLine32_stuck (fuel : Nat) (screen : Screen) (p1 p2 : ProjectedPoint K)
    (min_z max_z : K)
    (hnot : ∀ j < fuel, ¬ ((lineStateAt32 p1.x p1.y p2.x p2.y j).x = p2.x ∧
      (lineStateAt32 p1.x p1.y p2.x p2.y j).y = p2.y)) :
    drawLine32 fuel screen p1 p2 min_z max_z = none := by
  cases screen with
  | nil => rfl
  | cons row0 rest =>
    unfold drawLine32
    simp only []
    exact drawLineLoop32_none p1 p2 min_z max_z _ _ _ _ _ _ _ fuel (row0 :: rest) _ 0 hnot

end Loop32


/-- Within the coordinate range the total step count of the 32-bit loop is the exact one. -/
theorem totalSteps32_cast {K : Type} [LinearOrderedField K] (x1 y1 x2 y2 : Int)
    (hx1 : -268435456 ≤ x1 ∧ x1 ≤ 268435456) (hy1 : -268435456 ≤ y1 ∧ y1 ≤ 268435456)
    (hx2 : -268435456 ≤ x2 ∧ x2 ≤ 268435456) (hy2 : -268435456 ≤ y2 ∧ y2 ≤ 268435456) :
    ((max (wrap32 |wrap32 (x2 - x1)|) (wrap32 |wrap32 (y2 - y1)|) : Int) : K)
      = ((totalSteps x1 y1 x2 y2 : Nat) : K) := by
  rw [(absDiff32_eq x1 x2 hx1 hx2).1, (absDiff32_eq y1 y2 hy1 hy2).1, totalSteps_castK]

section Bridge

variable {K : Type} [LinearOrderedField K] [FloorRing K]

/-- Functional description of the 32-bit `drawLine` within the coordinate range:
on a non-empty buffer and with more than `max(dx, dy)` units of fuel it returns
the input buffer with the `max(dx, dy) + 1` samples written in loop order. -/
theorem drawLine32_eq (fuel : Nat) (screen : Screen) (p1 p2 : ProjectedPoint K) (min_z max_z : K)
    (hne : screen ≠ [])
    (hx1 : -268435456 ≤ p1.x ∧ p1.x ≤ 268435456) (hy1 : -268435456 ≤ p1.y ∧ p1.y ≤ 268435456)
    (hx2 : -268435456 ≤ p2.x ∧ p2.x ≤ 268435456) (hy2 : -268435456 ≤ p2.y ∧ p2.y ≤ 268435456)
    (hfuel : totalSteps p1.x p1.y p2.x p2.y < fuel) :
    drawLine32 fuel screen p1 p2 min_z max_z
      = some (plotAll (wrap32 (screen.headD []).length) (wrap32 screen.length) screen
          (lineSamples32 p1 p2 min_z max_z (totalSteps p1.x p1.y p2.x p2.y + 1))) := by
  apply drawLine32_replay fuel _ screen p1 p2 min_z max_z hne _ _ hfuel
  · intro j hj
    rw [lineStateAt32_eq _ _ _ _ hx1 hy1 hx2 hy2 j hj.le]
    exact lineStateAt_not_end _ _ _ _ j hj
  · rw [lineStateAt32_eq _ _ _ _ hx1 hy1 hx2 hy2 _ le_rfl]
    exact lineStateAt_total _ _ _ _

/-- Within the coordinate range the 32-bit `drawLine` is cut short by at most
`max(dx, dy)` units of fuel. -/
theorem drawLine32_none (fuel : Nat) (screen : Screen) (p1 p2 : ProjectedPoint K)
    (min_z max_z : K)
    (hx1 : -268435456 ≤ p1.x ∧ p1.x ≤ 268435456) (hy1 : -268435456 ≤ p1.y ∧ p1.y ≤ 268435456)
    (hx2 : -268435456 ≤ p2.x ∧ p2.x ≤ 268435456) (hy2 : -268435456 ≤ p2.y ∧ p2.y ≤ 268435456)
    (hfuel : fuel ≤ totalSteps p1.x p1.y p2.x p2.y) :
    drawLine32 fuel screen p1 p2 min_z max_z = none := by
  apply drawLine32_stuck
  intro j hj
  rw [lineStateAt32_eq _ _ _ _ hx1 hy1 hx2 hy2 j (by omega)]
  exact lineStateAt_not_end _ _ _ _ j (by omega)

theorem mem_lineSamples32 (p1 p2 : ProjectedPoint K) (min_z max_z : K) (n : Nat)
    (q : Int × Int × Char) (hq : q ∈ lineSamples32 p1 p2 min_z max_z n) :
    ∃ k, k < n ∧ q.1 = (lineStateAt32 p1.x p1.y p2.x p2.y k).x ∧
      q.2.1 = (lineStateAt32 p1.x p1.y p2.x p2.y k).y ∧
      q.2.2 = rampChar (indexAt32 p1 p2 min_z max_z k) := by
  unfold lineSamples32 at hq
  rw [List.mem_map] at hq
  obtain ⟨k, hk, rfl⟩ := hq
  exact ⟨k, List.mem_range.mp hk, rfl, rfl, rfl⟩

/-- A conversion whose truncated value fits in `int` is the exact truncation. -/
theorem staticCastInt_eq (r : K) (h1 : -2147483648 ≤ r) (h2 : r < 2147483648) :
    staticCastInt r = truncToInt r := by
  have hr : -2147483648 ≤ truncToInt r ∧ truncToInt r ≤ 2147483647 := by
    unfold truncToInt
    by_cases h0 : 0 ≤ r
    · rw [if_pos h0]
      have hf0 : 0 ≤ ⌊r⌋ := Int.floor_nonneg.mpr h0
      have hf1 : ⌊r⌋ < 2147483648 := Int.floor_lt.mpr (by push_cast; exact h2)
      omega
    · rw [if_neg h0]
      have hc0 : ⌈r⌉ ≤ 0 := Int.ceil_le.mpr (by push_cast; exact (not_le.mp h0).le)
      have hc1 : (-2147483648 : Int) ≤ ⌈r⌉ := by
        have : ((-2147483648 : Int) : K) ≤ ((⌈r⌉ : Int) : K) := by
          push_cast; exact h1.trans (Int.le_ceil r)
        exact_mod_cast this
      omega
  unfold staticCastInt
  rw [if_pos hr]

end Bridge


section Claims32

variable {K : Type} [LinearOrderedField K] [FloorRing K]

/-- The state after one more iteration of the 32-bit stepping. -/
theorem lineStateAt32_succ (x1 y1 x2 y2 : Int) (k : Nat) :
    lineStateAt32 x1 y1 x2 y2 (k + 1)
      = lineStep32 (wrap32 |wrap32 (x2 - x1)|) (wrap32 |wrap32 (y2 - y1)|)
          (if x1 < x2 then 1 else -1) (if y1 < y2 then 1 else -1)
          (lineStateAt32 x1 y1 x2 y2 k) := by
  unfold lineStateAt32
  rw [Function.iterate_succ_apply']

/-- C1 (amended): for every pair of endpoints whose four coordinates lie between
`-2^28` and `2^28`, any depths and every non-empty rectangular buffer, the loop of
the 32-bit `drawLine` terminates. There is a number `n` of non-breaking
iterations such that `drawLine` returns a buffer whenever it is given more than
`n` units of fuel (and is cut short with `n` or fewer), the position after `n`
iterations is the endpoint `(p2.x, p2.y)`, and each of the `n` iterations
before it is away from the endpoint and strictly reduces the remaining distance
`max(|p2.x - x|, |p2.y - y|)`. -/
theorem drawLine32_terminates (screen : Screen) (p1 p2 : ProjectedPoint K) (min_z max_z : K)
    (width height : Nat)
    (hheight : screen.length = height) (_hwidth : ∀ row ∈ screen, row.length = width)
    (hpos : 0 < height)
    (hx1 : -268435456 ≤ p1.x ∧ p1.x ≤ 268435456) (hy1 : -268435456 ≤ p1.y ∧ p1.y ≤ 268435456)
    (hx2 : -268435456 ≤ p2.x ∧ p2.x ≤ 268435456) (hy2 : -268435456 ≤ p2.y ∧ p2.y ≤ 268435456) :
    ∃ n : Nat,
      (∀ fuel, n < fuel → (drawLine32 fuel screen p1 p2 min_z max_z).isSome = true) ∧
      (∀ fuel, fuel ≤ n → drawLine32 fuel screen p1 p2 min_z max_z = none) ∧
      ((lineStateAt32 p1.x p1.y p2.x p2.y n).x = p2.x ∧
        (lineStateAt32 p1.x p1.y p2.x p2.y n).y = p2.y) ∧
      ∀ k, k < n →
        ¬ ((lineStateAt32 p1.x p1.y p2.x p2.y k).x = p2.x ∧
            (lineStateAt32 p1.x p1.y p2.x p2.y k).y = p2.y) ∧
        remaining p2.x p2.y (lineStateAt32 p1.x p1.y p2.x p2.y (k + 1))
          < remaining p2.x p2.y (lineStateAt32 p1.x p1.y p2.x p2.y k) := by
  have hne : screen ≠ [] := by
    intro h; rw [h] at hheight; simp at hheight; omega
  have heq := lineStateAt32_eq p1.x p1.y p2.x p2.y hx1 hy1 hx2 hy2
  refine ⟨totalSteps p1.x p1.y p2.x p2.y, ?_, ?_, ?_, ?_⟩
  · intro fuel hfuel
    rw [drawLine32_eq fuel screen p1 p2 min_z max_z hne hx1 hy1 hx2 hy2 hfuel]
    rfl
  · intro fuel hfuel
    exact drawLine32_none fuel screen p1 p2 min_z max_z hx1 hy1 hx2 hy2 hfuel
  · rw [heq _ le_rfl]
    exact lineStateAt_total _ _ _ _
  · intro k hk
    rw [heq k hk.le, heq (k + 1) hk]
    refine ⟨lineStateAt_not_end _ _ _ _ k hk, ?_⟩
    rw [remaining_lineStateAt _ _ _ _ (k + 1) hk, remaining_lineStateAt _ _ _ _ k hk.le]
    push_cast
    omega

/-- C16 (amended): for endpoints whose four coordinates lie between `-2^28` and
`2^28`, the 32-bit `drawLine` on a non-empty rectangular buffer returns the replay
of its `max(dx, dy) + 1` samples, and every position it visits (each sample,
that is the position of each iteration `0` to `max(dx, dy)`) lies within half a
pixel of the ideal segment, measured along the minor axis:
`2 * |(x - p1.x) * (p2.y - p1.y) - (y - p1.y) * (p2.x - p1.x)| ≤ max(dx, dy)`; the
first visited position is `(p1.x, p1.y)` and the last one is `(p2.x, p2.y)`. -/
theorem drawLine32_half_pixel (p1 p2 : ProjectedPoint K) (min_z max_z : K)
    (hx1 : -268435456 ≤ p1.x ∧ p1.x ≤ 268435456) (hy1 : -268435456 ≤ p1.y ∧ p1.y ≤ 268435456)
    (hx2 : -268435456 ≤ p2.x ∧ p2.x ≤ 268435456) (hy2 : -268435456 ≤ p2.y ∧ p2.y ≤ 268435456) :
    (∀ fuel (screen : Screen) (width height : Nat), screen.length = height →
      (∀ row ∈ screen, row.length = width) → 0 < height →
      totalSteps p1.x p1.y p2.x p2.y < fuel →
      drawLine32 fuel screen p1 p2 min_z max_z
        = some (plotAll (wrap32 (screen.headD []).length) (wrap32 screen.length) screen
            (lineSamples32 p1 p2 min_z max_z (totalSteps p1.x p1.y p2.x p2.y + 1)))) ∧
    (∀ q ∈ lineSamples32 p1 p2 min_z max_z (totalSteps p1.x p1.y p2.x p2.y + 1),
      2 * |(q.1 - p1.x) * (p2.y - p1.y) - (q.2.1 - p1.y) * (p2.x - p1.x)|
        ≤ max |p2.x - p1.x| |p2.y - p1.y|) ∧
    (∀ k, k ≤ totalSteps p1.x p1.y p2.x p2.y →
      2 * |((lineStateAt32 p1.x p1.y p2.x p2.y k).x - p1.x) * (p2.y - p1.y)
          - ((lineStateAt32 p1.x p1.y p2.x p2.y k).y - p1.y) * (p2.x - p1.x)|
        ≤ max |p2.x - p1.x| |p2.y - p1.y|) ∧
    ((lineStateAt32 p1.x p1.y p2.x p2.y 0).x = p1.x ∧
      (lineStateAt32 p1.x p1.y p2.x p2.y 0).y = p1.y) ∧
    ((lineStateAt32 p1.x p1.y p2.x p2.y (totalSteps p1.x p1.y p2.x p2.y)).x = p2.x ∧
      (lineStateAt32 p1.x p1.y p2.x p2.y (totalSteps p1.x p1.y p2.x p2.y)).y = p2.y) := by
  have heq := lineStateAt32_eq p1.x p1.y p2.x p2.y hx1 hy1 hx2 hy2
  have hnear : ∀ k, k ≤ totalSteps p1.x p1.y p2.x p2.y →
      2 * |((lineStateAt32 p1.x p1.y p2.x p2.y k).x - p1.x) * (p2.y - p1.y)
          - ((lineStateAt32 p1.x p1.y p2.x p2.y k).y - p1.y) * (p2.x - p1.x)|
        ≤ max |p2.x - p1.x| |p2.y - p1.y| := by
    intro k hk
    rw [heq k hk]
    exact (lineStateAt_near _ _ _ _ k hk).1
  refine ⟨fun fuel screen width height hheight _ hpos hfuel =>
      drawLine32_eq fuel screen p1 p2 min_z max_z
        (by intro h; rw [h] at hheight; simp at hheight; omega) hx1 hy1 hx2 hy2 hfuel,
    ?_, hnear, ?_, ?_⟩
  · intro q hq
    obtain ⟨k, hk, h1, h2, _⟩ := mem_lineSamples32 p1 p2 min_z max_z _ q hq
    rw [h1, h2]
    exact hnear k (by omega)
  · rw [heq 0 (Nat.zero_le _)]
    exact ⟨rfl, rfl⟩
  · rw [heq _ le_rfl]
    exact lineStateAt_total _ _ _ _

theorem indexAt32_eq (p1 p2 : ProjectedPoint K) (min_z max_z : K)
    (hx1 : -268435456 ≤ p1.x ∧ p1.x ≤ 268435456) (hy1 : -268435456 ≤ p1.y ∧ p1.y ≤ 268435456)
    (hx2 : -268435456 ≤ p2.x ∧ p2.x ≤ 268435456) (hy2 : -268435456 ≤ p2.y ∧ p2.y ≤ 268435456)
    (k : Nat) :
    indexAt32 p1 p2 min_z max_z k
      = depthIndex32 (interpolatedZ p1 p2 ((totalSteps p1.x p1.y p2.x p2.y : Nat) : K) (k : K))
          min_z max_z := by
  unfold indexAt32 shadeIndex32
  rw [totalSteps32_cast p1.x p1.y p2.x p2.y hx1 hy1 hx2 hy2]

/-- C17 (amended): for endpoints whose four coordinates lie between `-2^28` and
`2^28` and every non-empty rectangular buffer, the loop body of the 32-bit
`drawLine` executes exactly `max(dx, dy) + 1` times (`drawLine` is cut short
exactly when it has fewer units of fuel than that, and with that many it
returns the replay of its `max(dx, dy) + 1` samples), the major axis advancing
by one on every non-final iteration; so the step counter never exceeds
`total_steps`, the interpolation fraction `t` stays in `[0, 1]`, the first sample
is `(p1.x, p1.y)` with the ramp character of `p1.z`, and when `max(dx, dy) > 0` the
fraction at the final pixel is exactly 1 and the last sample is `(p2.x, p2.y)`
with the ramp character of `p2.z`. -/
theorem drawLine32_iterations (screen : Screen) (p1 p2 : ProjectedPoint K) (min_z max_z : K)
    (width height : Nat)
    (hheight : screen.length = height) (_hwidth : ∀ row ∈ screen, row.length = width)
    (hpos0 : 0 < height)
    (hx1 : -268435456 ≤ p1.x ∧ p1.x ≤ 268435456) (hy1 : -268435456 ≤ p1.y ∧ p1.y ≤ 268435456)
    (hx2 : -268435456 ≤ p2.x ∧ p2.x ≤ 268435456) (hy2 : -268435456 ≤ p2.y ∧ p2.y ≤ 268435456) :
    (∀ fuel, drawLine32 fuel screen p1 p2 min_z max_z = none ↔
      fuel < totalSteps p1.x p1.y p2.x p2.y + 1) ∧
    ((totalSteps p1.x p1.y p2.x p2.y : Nat) : Int) = max |p2.x - p1.x| |p2.y - p1.y| ∧
    (∀ k, k < totalSteps p1.x p1.y p2.x p2.y →
      (|p2.y - p1.y| ≤ |p2.x - p1.x| →
        (lineStateAt32 p1.x p1.y p2.x p2.y (k + 1)).x
          = (lineStateAt32 p1.x p1.y p2.x p2.y k).x + (if p1.x < p2.x then 1 else -1)) ∧
      (|p2.x - p1.x| < |p2.y - p1.y| →
        (lineStateAt32 p1.x p1.y p2.x p2.y (k + 1)).y
          = (lineStateAt32 p1.x p1.y p2.x p2.y k).y + (if p1.y < p2.y then 1 else -1))) ∧
    (∀ k, k ≤ totalSteps p1.x p1.y p2.x p2.y →
      (k : K) ≤ ((totalSteps p1.x p1.y p2.x p2.y : Nat) : K) ∧
      0 ≤ stepFraction ((totalSteps p1.x p1.y p2.x p2.y : Nat) : K) (k : K) ∧
      stepFraction ((totalSteps p1.x p1.y p2.x p2.y : Nat) : K) (k : K) ≤ 1) ∧
    indexAt32 p1 p2 min_z max_z 0 = depthIndex32 p1.z min_z max_z ∧
    (0 < totalSteps p1.x p1.y p2.x p2.y →
      stepFraction ((totalSteps p1.x p1.y p2.x p2.y : Nat) : K)
        ((totalSteps p1.x p1.y p2.x p2.y : Nat) : K) = 1 ∧
      indexAt32 p1 p2 min_z max_z (totalSteps p1.x p1.y p2.x p2.y)
        = depthIndex32 p2.z min_z max_z) ∧
    drawLine32 (totalSteps p1.x p1.y p2.x p2.y + 1) screen p1 p2 min_z max_z
      = some (plotAll (wrap32 (screen.headD []).length) (wrap32 screen.length) screen
          (lineSamples32 p1 p2 min_z max_z (totalSteps p1.x p1.y p2.x p2.y + 1))) ∧
    (lineSamples32 p1 p2 min_z max_z (totalSteps p1.x p1.y p2.x p2.y + 1)).head?
      = some (p1.x, p1.y, rampChar (depthIndex32 p1.z min_z max_z)) ∧
    (0 < totalSteps p1.x p1.y p2.x p2.y →
      (lineSamples32 p1 p2 min_z max_z (totalSteps p1.x p1.y p2.x p2.y + 1)).getLast?
        = some (p2.x, p2.y, rampChar (depthIndex32 p2.z min_z max_z))) := by
  have hne : screen ≠ [] := by
    intro h; rw [h] at hheight; simp at hheight; omega
  have heq := lineStateAt32_eq p1.x p1.y p2.x p2.y hx1 hy1 hx2 hy2
  have hidx := indexAt32_eq p1 p2 min_z max_z hx1 hy1 hx2 hy2
  have hfirst : indexAt32 p1 p2 min_z max_z 0 = depthIndex32 p1.z min_z max_z := by
    rw [hidx, Nat.cast_zero, interpolatedZ_zero]
  have hlast : 0 < totalSteps p1.x p1.y p2.x p2.y →
      stepFraction ((totalSteps p1.x p1.y p2.x p2.y : Nat) : K)
        ((totalSteps p1.x p1.y p2.x p2.y : Nat) : K) = 1 ∧
      indexAt32 p1 p2 min_z max_z (totalSteps p1.x p1.y p2.x p2.y)
        = depthIndex32 p2.z min_z max_z := by
    intro hpos
    have hne0 : ((totalSteps p1.x p1.y p2.x p2.y : Nat) : K) ≠ 0 := by
      exact_mod_cast hpos.ne'
    have hfrac : stepFraction ((totalSteps p1.x p1.y p2.x p2.y : Nat) : K)
        ((totalSteps p1.x p1.y p2.x p2.y : Nat) : K) = 1 := by
      unfold stepFraction
      rw [if_neg hne0, div_self hne0]
    refine ⟨hfrac, ?_⟩
    rw [hidx, interpolatedZ_eq, hfrac]
    congr 1
    ring
  refine ⟨?_, totalSteps_cast _ _ _ _, ?_, ?_, hfirst, hlast,
    drawLine32_eq _ screen p1 p2 min_z max_z hne hx1 hy1 hx2 hy2 (Nat.lt_succ_self _), ?_, ?_⟩
  · intro fuel
    constructor
    · intro hnone
      by_contra hlt
      rw [drawLine32_eq fuel screen p1 p2 min_z max_z hne hx1 hy1 hx2 hy2 (by omega)] at hnone
      exact Option.noConfusion hnone
    · intro hlt
      exact drawLine32_none fuel screen p1 p2 min_z max_z hx1 hy1 hx2 hy2 (by omega)
  · intro k hk
    rw [heq k hk.le, heq (k + 1) hk]
    exact lineStateAt_major _ _ _ _ k hk
  · intro k hk
    have hkN : (k : K) ≤ ((totalSteps p1.x p1.y p2.x p2.y : Nat) : K) := by exact_mod_cast hk
    refine ⟨hkN, ?_, ?_⟩
    · unfold stepFraction
      split_ifs
      · exact le_refl _
      · exact div_nonneg (Nat.cast_nonneg k) (Nat.cast_nonneg _)
    · unfold stepFraction
      split_ifs with h0
      · exact zero_le_one
      · exact div_le_one_of_le₀ hkN (Nat.cast_nonneg _)
  · unfold lineSamples32
    rw [List.range_succ_eq_map, List.map_cons, List.head?_cons, hfirst, heq 0 (Nat.zero_le _)]
    rfl
  · intro hpos
    unfold lineSamples32
    rw [List.range_succ, List.map_append, List.map_singleton, List.getLast?_append,
      List.getLast?_singleton, (hlast hpos).2, heq _ le_rfl,
      (lineStateAt_total _ _ _ _).1, (lineStateAt_total _ _ _ _).2]
    rfl

end Claims32


section Overflow

/-- From the fifth iteration on, the 32-bit stepping from `(1, 1)` toward
`(1200000001, 1)` stays on row `-4` with a constant error term. -/
theorem overflow_tail (m : Nat) :
    (lineStateAt32 1 1 1200000001 1 (5 + m)).y = -4 ∧
    (lineStateAt32 1 1 1200000001 1 (5 + m)).err = -1389934592 := by
  induction m with
  | zero => decide
  | succ m ih =>
    have hdx : wrap32 |wrap32 (1200000001 - 1)| = 1200000000 := by decide
    have hdy : wrap32 |wrap32 ((1 : Int) - 1)| = 0 := by decide
    have h1 : wrap32 (2 * (-1389934592)) = 1515098112 := by decide
    have h2 : wrap32 (-0) = 0 := by decide
    have h3 : wrap32 (-1389934592 - 0) = -1389934592 := by decide
    rw [show 5 + (m + 1) = (5 + m) + 1 from rfl, lineStateAt32_succ, hdx, hdy]
    obtain ⟨hy, he⟩ := ih
    unfold lineStep32
    simp only [he, hy, h1, h2, h3]
    constructor <;> simp

/-- The 32-bit stepping from `(1, 1)` toward `(1200000001, 1)` never meets the endpoint. -/
theorem overflow_never_end (j : Nat) :
    ¬ ((lineStateAt32 1 1 1200000001 1 j).x = 1200000001 ∧
      (lineStateAt32 1 1 1200000001 1 j).y = 1) := by
  by_cases hj : j < 5
  · interval_cases j <;> decide
  · obtain ⟨m, rfl⟩ : ∃ m, j = 5 + m := ⟨j - 5, by omega⟩
    intro h
    have := (overflow_tail m).1
    omega

/-- Hence the 32-bit `drawLine` returns no buffer on that line, whatever the fuel. -/
theorem overflow_no_return {K : Type} [LinearOrderedField K] [FloorRing K] (fuel : Nat)
    (screen : Screen) (z1 z2 min_z max_z : K) :
    drawLine32 fuel screen (⟨1, 1, z1⟩ : ProjectedPoint K) ⟨1200000001, 1, z2⟩ min_z max_z
      = none :=
  drawLine32_stuck fuel screen _ _ min_z max_z (fun j _ => overflow_never_end j)

/-- The loop does not terminate for the `int` endpoints `(1, 1)` and
`(1200000001, 1)`: `2 * err = 2400000000` does not fit in an `int`, the first
iteration moves to `(1, 0)` without reducing the remaining distance, and the
32-bit `drawLine` returns no buffer whatever the fuel. -/
theorem overflow_terminates_counterexample :
    lineStateAt32 1 1 1200000001 1 0 = { x := 1, y := 1, err := 1200000000 } ∧
    lineStateAt32 1 1 1200000001 1 1 = { x := 1, y := 0, err := -1894967296 } ∧
    ¬ (remaining 1200000001 1 (lineStateAt32 1 1 1200000001 1 1)
        < remaining 1200000001 1 (lineStateAt32 1 1 1200000001 1 0)) ∧
    ∀ fuel : Nat, drawLine32 fuel (blankScreen 20 20) (⟨1, 1, 0⟩ : ProjectedPoint ℚ)
      ⟨1200000001, 1, 0⟩ 0 1 = none :=
  ⟨by decide, by decide, by decide, fun fuel => overflow_no_return fuel _ _ _ _ _⟩

/-- For the `int` endpoints `(1, 1)` and `(1200000001, 1)` the second visited
position is `(1, 0)`, where twice the cross product is `2400000000`, above
`max(dx, dy) = 1200000000`; and no iteration ever visits the endpoint. -/
theorem overflow_half_pixel_counterexample :
    ¬ ((lineStateAt32 1 1 1200000001 1 0).x = 1200000001 ∧
        (lineStateAt32 1 1 1200000001 1 0).y = 1) ∧
    ((lineStateAt32 1 1 1200000001 1 1).x = 1 ∧ (lineStateAt32 1 1 1200000001 1 1).y = 0) ∧
    ¬ (2 * |((lineStateAt32 1 1 1200000001 1 1).x - 1) * ((1 : Int) - 1)
          - ((lineStateAt32 1 1 1200000001 1 1).y - 1) * (1200000001 - 1)|
        ≤ max |(1200000001 : Int) - 1| |(1 : Int) - 1|) ∧
    ∀ j : Nat, ¬ ((lineStateAt32 1 1 1200000001 1 j).x = 1200000001 ∧
      (lineStateAt32 1 1 1200000001 1 j).y = 1) :=
  ⟨by decide, by decide, by decide, overflow_never_end⟩

/-- For the `int` endpoints `(1, 1)` and `(1200000001, 1)`, an x-major line, the
first iteration is not final and yet leaves `x` where it was and moves `y`, and
after `max(dx, dy) + 1` iterations the 32-bit `drawLine` has not returned. -/
theorem overflow_iterations_counterexample :
    |(1 : Int) - 1| ≤ |(1200000001 : Int) - 1| ∧
    ¬ ((lineStateAt32 1 1 1200000001 1 0).x = 1200000001 ∧
        (lineStateAt32 1 1 1200000001 1 0).y = 1) ∧
    (lineStateAt32 1 1 1200000001 1 1).x ≠ (lineStateAt32 1 1 1200000001 1 0).x + 1 ∧
    (lineStateAt32 1 1 1200000001 1 1).y ≠ (lineStateAt32 1 1 1200000001 1 0).y ∧
    drawLine32 (totalSteps 1 1 1200000001 1 + 1) (blankScreen 20 20)
      (⟨1, 1, 0⟩ : ProjectedPoint ℚ) ⟨1200000001, 1, 1⟩ 0 1 = none :=
  ⟨by decide, by decide, by decide, by decide, overflow_no_return _ _ _ _ _ _⟩

end Overflow


section Cells32

variable {K : Type} [LinearOrderedField K] [FloorRing K]

/-- While the endpoint is not met, `n` iterations of the 32-bit loop write the
first `n` samples into the buffer and go on from there. -/
theorem drawLineLoop32_after (p1 p2 : ProjectedPoint K) (min_z max_z : K)
    (w h dx dy sx sy : Int) (ts : K) :
    ∀ (n fuel : Nat) (screen : Screen) (s : LineState) (cs : K),
      (∀ j < n, ¬ (((lineStep32 dx dy sx sy)^[j] s).x = p2.x ∧
        ((lineStep32 dx dy sx sy)^[j] s).y = p2.y)) →
      drawLineLoop32 p1 p2 min_z max_z w h dx dy sx sy ts (n + fuel) screen s cs
        = drawLineLoop32 p1 p2 min_z max_z w h dx dy sx sy ts fuel
            (plotAll w h screen ((List.range n).map fun j =>
              (((lineStep32 dx dy sx sy)^[j] s).x, ((lineStep32 dx dy sx sy)^[j] s).y,
                rampChar (shadeIndex32 p1 p2 min_z max_z ts (cs + (j : K))))))
            ((lineStep32 dx dy sx sy)^[n] s) (cs + (n : K)) := by
  intro n
  induction n with
  | zero =>
    intro fuel screen s cs _
    simp [plotAll]
  | succ n ih =>
    intro fuel screen s cs hnot
    have h0 := hnot 0 (Nat.succ_pos n)
    simp only [Function.iterate_zero, id_eq] at h0
    have hrec := ih fuel (plot w h screen s.x s.y (rampChar (shadeIndex32 p1 p2 min_z max_z ts cs)))
      (lineStep32 dx dy sx sy s) (cs + 1)
      (fun j hj => by
        have := hnot (j + 1) (by omega)
        rwa [Function.iterate_succ_apply] at this)
    rw [show n + 1 + fuel = (n + fuel) + 1 by omega, drawLineLoop32]
    simp only [h0, if_false]
    rw [hrec, List.range_succ_eq_map n, List.map_cons, plotAll_cons, List.map_map]
    simp only [Function.iterate_zero, id_eq, Nat.cast_zero, add_zero, Function.iterate_succ_apply,
      Nat.cast_succ]
    congr 1
    · congr 1
      apply List.map_congr_left
      intro j _
      simp only [Function.comp_apply, Function.iterate_succ_apply, Nat.cast_succ]
      rw [add_assoc, add_comm (1 : K)]
    · rw [add_assoc, add_comm (1 : K)]

theorem staticCastInt_half : staticCastInt (0.5 : K) = 0 := by
  rw [staticCastInt_eq _ (by norm_num) (by norm_num), truncToInt_half]

theorem depthIndex32_min (min_z max_z : K) : depthIndex32 min_z min_z max_z = 0 := by
  unfold depthIndex32
  simp [staticCastInt_half]

/-- On a line whose two ends have depth `min_z` every sample has ramp index 0. -/
theorem indexAt32_min (p1 p2 : ProjectedPoint K) (min_z max_z : K) (hz1 : p1.z = min_z)
    (hz2 : p2.z = min_z) (k : Nat) : indexAt32 p1 p2 min_z max_z k = 0 := by
  unfold indexAt32 shadeIndex32
  rw [interpolatedZ_eq, hz1, hz2, sub_self, mul_zero, add_zero, depthIndex32_min]

theorem indexAt_min (p1 p2 : ProjectedPoint K) (min_z max_z : K) (hz1 : p1.z = min_z)
    (hz2 : p2.z = min_z) (k : Nat) : indexAt p1 p2 min_z max_z k = 0 := by
  unfold indexAt shadeIndex
  rw [interpolatedZ_eq, hz1, hz2, sub_self, mul_zero, add_zero, depthIndex_min]

/-- Within the coordinate range, on a non-empty buffer with fewer than `2^31`
rows and columns and with enough fuel, the 32-bit `drawLine` returns what the
exact reading returns, provided the two compute the same ramp indices. -/
theorem drawLine32_eq_exact (fuel : Nat) (screen : Screen) (p1 p2 : ProjectedPoint K)
    (min_z max_z : K) (hne : screen ≠ [])
    (hw : (screen.headD []).length < 2147483648) (hh : screen.length < 2147483648)
    (hx1 : -268435456 ≤ p1.x ∧ p1.x ≤ 268435456) (hy1 : -268435456 ≤ p1.y ∧ p1.y ≤ 268435456)
    (hx2 : -268435456 ≤ p2.x ∧ p2.x ≤ 268435456) (hy2 : -268435456 ≤ p2.y ∧ p2.y ≤ 268435456)
    (hfuel : totalSteps p1.x p1.y p2.x p2.y < fuel)
    (hidx : ∀ k, k ≤ totalSteps p1.x p1.y p2.x p2.y →
      indexAt32 p1 p2 min_z max_z k = indexAt p1 p2 min_z max_z k) :
    drawLine32 fuel screen p1 p2 min_z max_z = drawLine fuel screen p1 p2 min_z max_z := by
  rw [drawLine32_eq fuel screen p1 p2 min_z max_z hne hx1 hy1 hx2 hy2 hfuel,
    drawLine_eq fuel screen p1 p2 min_z max_z hfuel,
    wrap32_eq _ (by omega) (by omega), wrap32_eq _ (by omega) (by omega)]
  congr 2
  unfold lineSamples32 lineSamples
  apply List.map_congr_left
  intro k hk
  have hk2 : k ≤ totalSteps p1.x p1.y p2.x p2.y := by
    have := List.mem_range.mp hk; omega
  rw [lineStateAt32_eq _ _ _ _ hx1 hy1 hx2 hy2 k hk2, hidx k hk2]

/-- C4 (amended): on a non-empty rectangular buffer with fewer than `2^31` rows
and columns, a horizontal line from `(x1, y)` to `(x2, y)` with `x1`, `x2`, `y`
between `-2^28` and `2^28`, whose two endpoints have depth `min_z`, with
`min_z < max_z`, makes the 32-bit `drawLine` (given enough fuel) return a buffer in
which every cell of row `y` whose column lies between `x1` and `x2` inclusive
holds the character `.` and every other cell holds what it held before. -/
theorem drawLine32_horizontal (fuel : Nat) (screen : Screen) (p1 p2 : ProjectedPoint K)
    (min_z max_z : K) (width height : Nat)
    (hheight : screen.length = height) (hwidth : ∀ row ∈ screen, row.length = width)
    (hne : 0 < height) (hw : width < 2147483648) (hh : height < 2147483648)
    (hx1 : -268435456 ≤ p1.x ∧ p1.x ≤ 268435456) (hx2 : -268435456 ≤ p2.x ∧ p2.x ≤ 268435456)
    (hy1 : -268435456 ≤ p1.y ∧ p1.y ≤ 268435456)
    (hy : p1.y = p2.y) (hz1 : p1.z = min_z) (hz2 : p2.z = min_z)
    (hlt : min_z < max_z) (hfuel : totalSteps p1.x p1.y p2.x p2.y < fuel) :
    ∃ out, drawLine32 fuel screen p1 p2 min_z max_z = some out ∧
      ∀ r q : Nat, getCell out r q
        = if (r : Int) = p1.y ∧ min p1.x p2.x ≤ (q : Int) ∧ (q : Int) ≤ max p1.x p2.x ∧
              r < height ∧ q < width
          then some '.' else getCell screen r q := by
  have hne2 : screen ≠ [] := by
    intro h; rw [h] at hheight; simp at hheight; omega
  have hw2 : (screen.headD []).length < 2147483648 := by
    cases screen with
    | nil => exact absurd rfl hne2
    | cons row rest => simpa [hwidth row (List.mem_cons_self _ _)] using hw
  rw [drawLine32_eq_exact fuel screen p1 p2 min_z max_z hne2 hw2 (by omega) hx1 hy1 hx2
    (hy ▸ hy1) hfuel (fun k _ => by
      rw [indexAt32_min p1 p2 min_z max_z hz1 hz2, indexAt_min p1 p2 min_z max_z hz1 hz2])]
  exact drawLine_horizontal fuel screen p1 p2 min_z max_z width height hheight hwidth hne hy
    hz1 hz2 hlt hfuel

/-- One iteration of the 32-bit `drawLine` on a degenerate line. -/
theorem drawLine32_single (fuel : Nat) (screen : Screen) (p1 p2 : ProjectedPoint K)
    (min_z max_z : K) (hne : screen ≠ []) (hx : p1.x = p2.x) (hy : p1.y = p2.y)
    (hfuel : 0 < fuel) :
    drawLine32 fuel screen p1 p2 min_z max_z
      = some (plot (wrap32 (screen.headD []).length) (wrap32 screen.length) screen p1.x p1.y
          (rampChar (depthIndex32 p1.z min_z max_z))) := by
  obtain ⟨f, rfl⟩ : ∃ f, fuel = f + 1 := ⟨fuel - 1, by omega⟩
  cases screen with
  | nil => exact absurd rfl hne
  | cons row0 rest =>
    unfold drawLine32
    simp only [drawLineLoop32, hx, hy, and_self, if_true, shadeIndex32, interpolatedZ_zero,
      List.headD_cons]

/-- C3 (amended): on a non-empty rectangular buffer with fewer than `2^31` rows
and columns, a degenerate line (`p1.x = p2.x` and `p1.y = p2.y`) has interpolated
depth `p1.z` for its only sample (fraction 0), and the 32-bit `drawLine` returns
after a single iteration (one unit of fuel suffices, more fuel gives the same
buffer): in the returned buffer the cell `(p1.x, p1.y)`, when it is a cell of the
grid, holds the ramp character of `p1.z`, and every other cell holds what it
held before (so nothing changes when the position is outside the grid). -/
theorem drawLine32_degenerate (screen : Screen) (p1 p2 : ProjectedPoint K) (min_z max_z : K)
    (width height : Nat)
    (hheight : screen.length = height) (hwidth : ∀ row ∈ screen, row.length = width)
    (hne : 0 < height) (hw : width < 2147483648) (hh : height < 2147483648)
    (hx : p1.x = p2.x) (hy : p1.y = p2.y) :
    interpolatedZ p1 p2
      ((max (wrap32 |wrap32 (p2.x - p1.x)|) (wrap32 |wrap32 (p2.y - p1.y)|) : Int) : K) 0 = p1.z ∧
    ∃ out, drawLine32 1 screen p1 p2 min_z max_z = some out ∧
      (∀ fuel, 0 < fuel → drawLine32 fuel screen p1 p2 min_z max_z = some out) ∧
      ∀ r q : Nat, getCell out r q
        = if (q : Int) = p1.x ∧ (r : Int) = p1.y ∧ r < height ∧ q < width
          then some (rampChar (depthIndex32 p1.z min_z max_z)) else getCell screen r q := by
  have hne2 : screen ≠ [] := by
    intro h; rw [h] at hheight; simp at hheight; omega
  have hw2 : ((screen.headD []).length : Int) = width := by
    cases screen with
    | nil => exact absurd rfl hne2
    | cons row rest => simp [hwidth row (List.mem_cons_self _ _)]
  have hW : wrap32 (screen.headD []).length = width := by
    rw [hw2]; exact wrap32_eq _ (by omega) (by omega)
  have hH : wrap32 screen.length = height := by
    rw [hheight]; exact wrap32_eq _ (by omega) (by omega)
  refine ⟨interpolatedZ_zero p1 p2 _, _,
    drawLine32_single 1 screen p1 p2 min_z max_z hne2 hx hy Nat.one_pos,
    fun fuel hfuel => drawLine32_single fuel screen p1 p2 min_z max_z hne2 hx hy hfuel, ?_⟩
  intro r q
  rw [hW, hH]
  have hsome := getCell_isSome_iff screen width height hheight hwidth r q
  unfold plot
  by_cases hb : 0 ≤ p1.x ∧ p1.x < (width : Int) ∧ 0 ≤ p1.y ∧ p1.y < (height : Int)
  · rw [if_pos hb, getCell_writeCell]
    have hiff : (r = p1.y.toNat ∧ q = p1.x.toNat ∧ (getCell screen r q).isSome = true)
        ↔ ((q : Int) = p1.x ∧ (r : Int) = p1.y ∧ r < height ∧ q < width) := by
      rw [hsome]
      constructor
      · rintro ⟨h1, h2, h3, h4⟩
        refine ⟨by omega, by omega, h3, h4⟩
      · rintro ⟨h1, h2, h3, h4⟩
        refine ⟨by omega, by omega, h3, h4⟩
    simp only [hiff]
  · rw [if_neg hb]
    have hno : ¬ ((q : Int) = p1.x ∧ (r : Int) = p1.y ∧ r < height ∧ q < width) := by
      rintro ⟨h1, h2, h3, h4⟩
      exact hb ⟨by omega, by omega, by omega, by omega⟩
    rw [if_neg hno]

end Cells32


section Counter32

/-- The 32-bit `drawLine` as its loop after `n` non-breaking iterations. -/
theorem drawLine32_after {K : Type} [LinearOrderedField K] [FloorRing K] (n fuel : Nat)
    (screen : Screen) (p1 p2 : ProjectedPoint K) (min_z max_z : K) (hne : screen ≠ [])
    (hnot : ∀ j < n, ¬ ((lineStateAt32 p1.x p1.y p2.x p2.y j).x = p2.x ∧
      (lineStateAt32 p1.x p1.y p2.x p2.y j).y = p2.y)) :
    drawLine32 (n + fuel) screen p1 p2 min_z max_z
      = drawLineLoop32 p1 p2 min_z max_z (wrap32 (screen.headD []).length) (wrap32 screen.length)
          (wrap32 |wrap32 (p2.x - p1.x)|) (wrap32 |wrap32 (p2.y - p1.y)|)
          (if p1.x < p2.x then 1 else -1) (if p1.y < p2.y then 1 else -1)
          ((max (wrap32 |wrap32 (p2.x - p1.x)|) (wrap32 |wrap32 (p2.y - p1.y)|) : Int) : K) fuel
          (plotAll (wrap32 (screen.headD []).length) (wrap32 screen.length) screen
            (lineSamples32 p1 p2 min_z max_z n))
          (lineStateAt32 p1.x p1.y p2.x p2.y n) (n : K) := by
  cases screen with
  | nil => exact absurd rfl hne
  | cons row0 rest =>
    unfold drawLine32
    simp only []
    refine (drawLineLoop32_after p1 p2 min_z max_z _ _ _ _ _ _ _ n fuel (row0 :: rest) _ 0
      hnot).trans ?_
    simp only [lineSamples32, indexAt32, lineStateAt32, zero_add, List.headD_cons]

/-- For the horizontal line from `(1, 1)` to `(1200000001, 1)` with both depths
at `min_z = 0 < 1 = max_z`, the second sample of the 32-bit loop is `(1, 0)`: after
two iterations the loop carries on with a buffer whose row 0, column 1 holds `.`,
a cell outside row 1, and the call returns no buffer whatever the fuel. -/
theorem overflow_horizontal_counterexample :
    (0 : ℚ) < 1 ∧
    lineSamples32 (⟨1, 1, 0⟩ : ProjectedPoint ℚ) ⟨1200000001, 1, 0⟩ 0 1 2
      = [(1, 1, '.'), (1, 0, '.')] ∧
    getCell (blankScreen 20 20) 0 1 = some ' ' ∧
    getCell (plotAll 20 20 (blankScreen 20 20) [(1, 1, '.'), (1, 0, '.')]) 0 1 = some '.' ∧
    (∀ fuel : Nat,
      drawLine32 (2 + fuel) (blankScreen 20 20) (⟨1, 1, 0⟩ : ProjectedPoint ℚ)
          ⟨1200000001, 1, 0⟩ 0 1
        = drawLineLoop32 (⟨1, 1, 0⟩ : ProjectedPoint ℚ) ⟨1200000001, 1, 0⟩ 0 1 20 20
            1200000000 0 1 (-1) 1200000000 fuel
            (plotAll 20 20 (blankScreen 20 20) [(1, 1, '.'), (1, 0, '.')])
            { x := 2, y := -1, err := -694967296 } 2) ∧
    ∀ fuel : Nat, drawLine32 fuel (blankScreen 20 20) (⟨1, 1, 0⟩ : ProjectedPoint ℚ)
      ⟨1200000001, 1, 0⟩ 0 1 = none := by
  have hs : lineSamples32 (⟨1, 1, 0⟩ : ProjectedPoint ℚ) ⟨1200000001, 1, 0⟩ 0 1 2
      = [(1, 1, '.'), (1, 0, '.')] := by
    have h0 : lineStateAt32 1 1 1200000001 1 0 = { x := 1, y := 1, err := 1200000000 } := by
      decide
    have h1 : lineStateAt32 1 1 1200000001 1 1 = { x := 1, y := 0, err := -1894967296 } := by
      decide
    have hi : ∀ k : Nat, indexAt32 (⟨1, 1, 0⟩ : ProjectedPoint ℚ) ⟨1200000001, 1, 0⟩ 0 1 k = 0 :=
      fun k => indexAt32_min _ _ 0 1 rfl rfl k
    simp only [lineSamples32, List.range_succ, List.range_zero, List.nil_append,
      List.singleton_append, List.map_cons, List.map_nil, hi, h0, h1]
    rfl
  refine ⟨by norm_num, hs, by decide, by decide, ?_, fun fuel => overflow_no_return fuel _ _ _ _ _⟩
  intro fuel
  have hW : wrap32 ((blankScreen 20 20).headD []).length = 20 := by decide
  have hH : wrap32 (blankScreen 20 20).length = 20 := by decide
  have hdx : wrap32 |wrap32 (1200000001 - 1)| = 1200000000 := by decide
  have hdy : wrap32 |wrap32 ((1 : Int) - 1)| = 0 := by decide
  have h2 : lineStateAt32 1 1 1200000001 1 2 = { x := 2, y := -1, err := -694967296 } := by
    decide
  rw [drawLine32_after 2 fuel (blankScreen 20 20) (⟨1, 1, 0⟩ : ProjectedPoint ℚ)
    ⟨1200000001, 1, 0⟩ 0 1 (by decide) (fun j _ => overflow_never_end j), hs]
  simp only [hW, hH, hdx, hdy, h2]
  norm_num

/-- On the empty buffer a degenerate line makes the 32-bit `drawLine` read
`screen[0]`, which does not exist: no buffer is returned, whatever the fuel. -/
theorem empty_buffer_counterexample :
    drawLine32 1 ([] : Screen) (⟨3, 4, 1⟩ : ProjectedPoint ℚ) ⟨3, 4, 1⟩ 0 1 = none ∧
    ∀ fuel : Nat, drawLine32 fuel ([] : Screen) (⟨3, 4, 1⟩ : ProjectedPoint ℚ) ⟨3, 4, 1⟩ 0 1
      = none :=
  ⟨rfl, fun _ => rfl⟩

end Counter32


section Cast32

variable {K : Type} [LinearOrderedField K] [FloorRing K]

/-- The 32-bit ramp index is a position of the ramp, whatever the depth. -/
theorem depthIndex32_valid (z min_z max_z : K) :
    0 ≤ depthIndex32 z min_z max_z ∧ depthIndex32 z min_z max_z ≤ 11 ∧
    (depthIndex32 z min_z max_z).toNat < chars.length ∧
    chars.get? (depthIndex32 z min_z max_z).toNat
      = some (rampChar (depthIndex32 z min_z max_z)) := by
  have h0 : 0 ≤ depthIndex32 z min_z max_z := le_max_left _ _
  have h11 : depthIndex32 z min_z max_z ≤ 11 := max_le (by norm_num) (min_le_left _ _)
  have hlen : (depthIndex32 z min_z max_z).toNat < chars.length := by
    have : chars.length = 12 := rfl
    omega
  refine ⟨h0, h11, hlen, ?_⟩
  unfold rampChar
  rw [List.get?_eq_getElem?, List.getD_eq_getElem?_getD, List.getElem?_eq_getElem hlen]
  rfl

/-- C6 (amended): for every depth `z` and range `min_z < max_z` such that
`normalized * 11 + 0.5` lies in `[-2^31, 2^31)` (which includes depths below `min_z`
and above `max_z`), the ramp index computed by the 32-bit `drawLine` equals
`round((z - min_z) / (max_z - min_z) * 11)` clamped to `[0, 11]`, whether halves
are rounded up or away from zero; for every depth whatsoever the index is a
valid position of the 12-character ramp and the character written is the ramp
entry at that position; the ramp is `. , - ~ : ; = * ! # $ @` with `.` at index 0
and `@` at index 11. -/
theorem depthIndex32_eq_round (z min_z max_z : K) (_hlt : min_z < max_z)
    (hlo : -2147483648 ≤ (z - min_z) / (max_z - min_z) * 11 + 0.5)
    (hhi : (z - min_z) / (max_z - min_z) * 11 + 0.5 < 2147483648) :
    depthIndex32 z min_z max_z = specIndex z min_z max_z ∧
    depthIndex32 z min_z max_z = specIndexHalfAway z min_z max_z ∧
    (∀ z2 : K, 0 ≤ depthIndex32 z2 min_z max_z ∧ depthIndex32 z2 min_z max_z ≤ 11 ∧
      (depthIndex32 z2 min_z max_z).toNat < chars.length ∧
      chars.get? (depthIndex32 z2 min_z max_z).toNat
        = some (rampChar (depthIndex32 z2 min_z max_z))) ∧
    chars = ['.', ',', '-', '~', ':', ';', '=', '*', '!', '#', '$', '@'] ∧
    rampChar 0 = '.' ∧ rampChar 11 = '@' := by
  have heq : depthIndex32 z min_z max_z = depthIndex z min_z max_z := by
    simp only [depthIndex32, depthIndex, staticCastInt_eq _ hlo hhi]
  have hcl := clamp_truncToInt_half ((z - min_z) / (max_z - min_z) * 11)
  refine ⟨heq.trans hcl.1, heq.trans hcl.2, fun z2 => depthIndex32_valid z2 min_z max_z,
    rfl, rfl, rfl⟩

/-- For `z = 10^10` in the range `[0, 1]` the value `normalized * 11 + 0.5` does not
fit in an `int`: the 32-bit index is 0, while `round(normalized * 11)` clamped to
`[0, 11]` is 11. -/
theorem cast_overflow_index_counterexample :
    (0 : ℚ) < 1 ∧ depthIndex32 (10000000000 : ℚ) 0 1 = 0 ∧
    specIndex (10000000000 : ℚ) 0 1 = 11 ∧
    depthIndex32 (10000000000 : ℚ) 0 1 ≠ specIndex (10000000000 : ℚ) 0 1 := by
  have hv : truncToInt (((10000000000 : ℚ) - 0) / (1 - 0) * 11 + 0.5) = 110000000000 := by
    unfold truncToInt
    rw [if_pos (by norm_num), Int.floor_eq_iff]
    constructor <;> norm_num
  have h1 : depthIndex32 (10000000000 : ℚ) 0 1 = 0 := by
    unfold depthIndex32 staticCastInt
    simp only [hv]
    decide
  have h2 : specIndex (10000000000 : ℚ) 0 1 = 11 := by
    unfold specIndex
    have hr : round (((10000000000 : ℚ) - 0) / (1 - 0) * 11) = 110000000000 := by
      rw [round_eq, Int.floor_eq_iff]
      constructor <;> norm_num
    rw [hr]
    decide
  refine ⟨by norm_num, h1, h2, ?_⟩
  rw [h1, h2]
  decide

/-- C10 (amended): for every point and all integer `width` and `height` such that
`p.x * 5 + width div 2` and `p.y * 5 + height div 2` lie in `[-2^31, 2^31)`, the 32-bit
`projectPoint` returns as screen x the truncation toward zero of
`p.x * 5 + width div 2`, as screen y the truncation toward zero of
`p.y * 5 + height div 2` (`div` being truncating integer division) and as `z` the
depth `p.z` unchanged; the screen coordinates do not depend on `p.z`. -/
theorem projectPoint32_spec (p : Point3D K) (width height : Int)
    (hx : -2147483648 ≤ p.x * 5 + ((Int.tdiv width 2 : Int) : K) ∧
      p.x * 5 + ((Int.tdiv width 2 : Int) : K) < 2147483648)
    (hy : -2147483648 ≤ p.y * 5 + ((Int.tdiv height 2 : Int) : K) ∧
      p.y * 5 + ((Int.tdiv height 2 : Int) : K) < 2147483648) :
    (projectPoint32 p width height).x = truncToInt (p.x * 5 + ((Int.tdiv width 2 : Int) : K)) ∧
    (projectPoint32 p width height).y = truncToInt (p.y * 5 + ((Int.tdiv height 2 : Int) : K)) ∧
    (projectPoint32 p width height).z = p.z ∧
    (∀ z2 : K,
      (projectPoint32 { p with z := z2 } width height).x = (projectPoint32 p width height).x ∧
      (projectPoint32 { p with z := z2 } width height).y = (projectPoint32 p width height).y) ∧
    (0 ≤ p.x * 5 + ((Int.tdiv width 2 : Int) : K) →
      (((projectPoint32 p width height).x : Int) : K) ≤ p.x * 5 + ((Int.tdiv width 2 : Int) : K) ∧
      p.x * 5 + ((Int.tdiv width 2 : Int) : K)
        < (((projectPoint32 p width height).x : Int) : K) + 1) ∧
    (p.x * 5 + ((Int.tdiv width 2 : Int) : K) ≤ 0 →
      p.x * 5 + ((Int.tdiv width 2 : Int) : K) ≤ (((projectPoint32 p width height).x : Int) : K) ∧
      (((projectPoint32 p width height).x : Int) : K) - 1
        < p.x * 5 + ((Int.tdiv width 2 : Int) : K)) ∧
    (0 ≤ p.y * 5 + ((Int.tdiv height 2 : Int) : K) →
      (((projectPoint32 p width height).y : Int) : K) ≤ p.y * 5 + ((Int.tdiv height 2 : Int) : K) ∧
      p.y * 5 + ((Int.tdiv height 2 : Int) : K)
        < (((projectPoint32 p width height).y : Int) : K) + 1) ∧
    (p.y * 5 + ((Int.tdiv height 2 : Int) : K) ≤ 0 →
      p.y * 5 + ((Int.tdiv height 2 : Int) : K) ≤ (((projectPoint32 p width height).y : Int) : K) ∧
      (((projectPoint32 p width height).y : Int) : K) - 1
        < p.y * 5 + ((Int.tdiv height 2 : Int) : K)) := by
  have ex : (projectPoint32 p width height).x
      = truncToInt (p.x * 5 + ((Int.tdiv width 2 : Int) : K)) :=
    staticCastInt_eq _ hx.1 hx.2
  have ey : (projectPoint32 p width height).y
      = truncToInt (p.y * 5 + ((Int.tdiv height 2 : Int) : K)) :=
    staticCastInt_eq _ hy.1 hy.2
  refine ⟨ex, ey, rfl, fun _ => ⟨rfl, rfl⟩, ?_, ?_, ?_, ?_⟩
  · rw [ex]; exact (truncToInt_spec _).1
  · rw [ex]; exact (truncToInt_spec _).2
  · rw [ey]; exact (truncToInt_spec _).1
  · rw [ey]; exact (truncToInt_spec _).2

/-- For `p.x = 10^10` and `width = 20` the value `p.x * 5 + width div 2` does not fit
in an `int`: the 32-bit projector yields `INT_MIN`, not the truncation
`50000000010`. -/
theorem cast_overflow_project_counterexample :
    (projectPoint32 (⟨10000000000, 0, 0⟩ : Point3D ℚ) 20 20).x = -2147483648 ∧
    truncToInt ((10000000000 : ℚ) * 5 + ((Int.tdiv 20 2 : Int) : ℚ)) = 50000000010 ∧
    (projectPoint32 (⟨10000000000, 0, 0⟩ : Point3D ℚ) 20 20).x
      ≠ truncToInt ((10000000000 : ℚ) * 5 + ((Int.tdiv 20 2 : Int) : ℚ)) := by
  have ht : Int.tdiv 20 2 = 10 := by decide
  have hv : truncToInt ((10000000000 : ℚ) * 5 + ((Int.tdiv 20 2 : Int) : ℚ)) = 50000000010 := by
    rw [ht]
    unfold truncToInt
    rw [if_pos (by norm_num), Int.floor_eq_iff]
    constructor <;> norm_num
  have h1 : (projectPoint32 (⟨10000000000, 0, 0⟩ : Point3D ℚ) 20 20).x = -2147483648 := by
    unfold projectPoint32 staticCastInt
    simp only [hv]
    decide
  refine ⟨h1, hv, ?_⟩
  rw [h1, hv]
  decide

/-- C11 (amended): for every point and all widths and heights such that
`p.x * 5 + w div 2` and `p.y * 5 + h div 2` lie in `[-2^31, 2^31)`, the screen x of the
32-bit `projectPoint` is `p.x * 5 + w div 2` truncated toward zero (likewise the
screen y with `p.y` and `h`); it is that value rounded to the nearest integer
whenever the value is non-negative with fractional part below one half, as for
`p = (0, 0, 0)`, `w = h = 20`, which gives screen coordinates `(10, 10)`. -/
theorem projectPoint32_truncated (p : Point3D K) (w h : Int)
    (hx : -2147483648 ≤ p.x * 5 + ((Int.tdiv w 2 : Int) : K) ∧
      p.x * 5 + ((Int.tdiv w 2 : Int) : K) < 2147483648)
    (hy : -2147483648 ≤ p.y * 5 + ((Int.tdiv h 2 : Int) : K) ∧
      p.y * 5 + ((Int.tdiv h 2 : Int) : K) < 2147483648) :
    (projectPoint32 p w h).x = truncToInt (p.x * 5 + ((Int.tdiv w 2 : Int) : K)) ∧
    (projectPoint32 p w h).y = truncToInt (p.y * 5 + ((Int.tdiv h 2 : Int) : K)) ∧
    (0 ≤ p.x * 5 + ((Int.tdiv w 2 : Int) : K) →
      Int.fract (p.x * 5 + ((Int.tdiv w 2 : Int) : K)) < 1 / 2 →
      (projectPoint32 p w h).x = round (p.x * 5 + ((Int.tdiv w 2 : Int) : K))) ∧
    (0 ≤ p.y * 5 + ((Int.tdiv h 2 : Int) : K) →
      Int.fract (p.y * 5 + ((Int.tdiv h 2 : Int) : K)) < 1 / 2 →
      (projectPoint32 p w h).y = round (p.y * 5 + ((Int.tdiv h 2 : Int) : K))) ∧
    (projectPoint32 (⟨0, 0, 0⟩ : Point3D K) 20 20).x = 10 ∧
    (projectPoint32 (⟨0, 0, 0⟩ : Point3D K) 20 20).y = 10 := by
  have ex : (projectPoint32 p w h).x = truncToInt (p.x * 5 + ((Int.tdiv w 2 : Int) : K)) :=
    staticCastInt_eq _ hx.1 hx.2
  have ey : (projectPoint32 p w h).y = truncToInt (p.y * 5 + ((Int.tdiv h 2 : Int) : K)) :=
    staticCastInt_eq _ hy.1 hy.2
  have ht : Int.tdiv 20 2 = 10 := by decide
  have h10 : truncToInt ((0 : K) * 5 + ((Int.tdiv 20 2 : Int) : K)) = 10 := by
    simp only [truncToInt, ht]
    norm_num
  have hc : staticCastInt ((0 : K) * 5 + ((Int.tdiv 20 2 : Int) : K)) = 10 := by
    rw [staticCastInt_eq _ (by rw [ht]; norm_num) (by rw [ht]; norm_num), h10]
  refine ⟨ex, ey, fun h0 hf => ex.trans (round_eq_truncToInt _ h0 hf).symm,
    fun h0 hf => ey.trans (round_eq_truncToInt _ h0 hf).symm, hc, hc⟩

/-- The projector differs from rounding to the nearest integer at `p.x = 3/20`,
`w = 20`: the code yields 10, rounding `10.75` yields 11. -/
theorem project_round_counterexample :
    (projectPoint32 (⟨3 / 20, 0, 0⟩ : Point3D ℚ) 20 20).x = 10 ∧
    specProjectRound (3 / 20 : ℚ) 20 = 11 ∧
    (projectPoint32 (⟨3 / 20, 0, 0⟩ : Point3D ℚ) 20 20).x ≠ specProjectRound (3 / 20 : ℚ) 20 := by
  have ht : Int.tdiv 20 2 = 10 := by decide
  have h1 : (projectPoint32 (⟨3 / 20, 0, 0⟩ : Point3D ℚ) 20 20).x = 10 := by
    have hc : (projectPoint32 (⟨3 / 20, 0, 0⟩ : Point3D ℚ) 20 20).x
        = truncToInt ((3 / 20 : ℚ) * 5 + ((Int.tdiv 20 2 : Int) : ℚ)) :=
      staticCastInt_eq _ (by rw [ht]; norm_num) (by rw [ht]; norm_num)
    rw [hc]
    simp only [truncToInt, ht]
    norm_num
  have h2 : specProjectRound (3 / 20 : ℚ) 20 = 11 := by
    simp only [specProjectRound]
    rw [round_eq, Int.floor_eq_iff]; norm_num
  refine ⟨h1, h2, ?_⟩
  rw [h1, h2]; decide

end Cast32


section Instances32

/-- Depth 1 in the range `[0, 1]` has ramp index 11. -/
theorem depthIndex32_far : depthIndex32 (1 : ℚ) 0 1 = 11 := by
  have hv : truncToInt (((1 : ℚ) - 0) / (1 - 0) * 11 + 0.5) = 11 := by
    unfold truncToInt
    rw [if_pos (by norm_num), Int.floor_eq_iff]
    constructor <;> norm_num
  unfold depthIndex32
  simp only [staticCastInt_eq _ (show (-2147483648 : ℚ) ≤ (1 - 0) / (1 - 0) * 11 + 0.5 by norm_num)
    (show ((1 : ℚ) - 0) / (1 - 0) * 11 + 0.5 < 2147483648 by norm_num), hv]
  decide

/-- Instance of termination: a line crossing the 20×20 grid. -/
theorem drawLine32_terminates_witness :
    (blankScreen 20 20).length = 20 ∧
    ∃ n : Nat,
      (∀ fuel, n < fuel →
        (drawLine32 fuel (blankScreen 20 20) (⟨-3, 2, 0⟩ : ProjectedPoint ℚ) ⟨25, 17, 1⟩ 0 1).isSome
          = true) ∧
      ((lineStateAt32 (-3) 2 25 17 n).x = 25 ∧ (lineStateAt32 (-3) 2 25 17 n).y = 17) :=
  ⟨by decide,
    (drawLine32_terminates (blankScreen 20 20) (⟨-3, 2, 0⟩ : ProjectedPoint ℚ) ⟨25, 17, 1⟩ 0 1
      20 20 (by decide) (by decide) (by decide)
      (by decide) (by decide) (by decide) (by decide)).imp
      fun _ h => ⟨h.1, h.2.2.1⟩⟩

/-- Instance of the degenerate case: the pixel `(3, 4)` of the blank 20×20 grid at
depth 1 in the range `[0, 1]` becomes `@`; its neighbours stay blank. -/
theorem drawLine32_degenerate_witness :
    ∃ out, drawLine32 1 (blankScreen 20 20) (⟨3, 4, 1⟩ : ProjectedPoint ℚ) ⟨3, 4, 0⟩ 0 1 = some out ∧
      getCell out 4 3 = some '@' ∧ getCell out 4 2 = some ' ' ∧ getCell out 3 3 = some ' ' :=
  (drawLine32_degenerate (blankScreen 20 20) (⟨3, 4, 1⟩ : ProjectedPoint ℚ) ⟨3, 4, 0⟩ 0 1 20 20
      (by decide) (by decide) (by decide) (by decide) (by decide) rfl rfl).2.imp
    fun _ h => ⟨h.1,
      by rw [h.2.2 4 3, depthIndex32_far]; decide,
      by rw [h.2.2 4 2]; decide,
      by rw [h.2.2 3 3]; decide⟩

/-- Instance of the horizontal case: the line from `(0, 5, 0)` to `(5, 5, 0)` on the
blank 20×20 grid with depth range `[0, 1]` sets the six cells of row 5, columns
0 to 5, to `.` and leaves the rest blank. -/
theorem drawLine32_horizontal_witness :
    (0 : ℚ) < 1 ∧
    ∃ out, drawLine32 6 (blankScreen 20 20) (⟨0, 5, 0⟩ : ProjectedPoint ℚ) ⟨5, 5, 0⟩ 0 1 = some out ∧
      ∀ r q : Nat, getCell out r q
        = if (r : Int) = 5 ∧ min (0 : Int) 5 ≤ (q : Int) ∧ (q : Int) ≤ max (0 : Int) 5 ∧
              r < 20 ∧ q < 20
          then some '.' else getCell (blankScreen 20 20) r q :=
  ⟨by norm_num,
    drawLine32_horizontal 6 (blankScreen 20 20) (⟨0, 5, 0⟩ : ProjectedPoint ℚ) ⟨5, 5, 0⟩ 0 1 20 20
      (by decide) (by decide) (by decide) (by decide) (by decide) (by decide) (by decide)
      (by decide) rfl rfl rfl (by norm_num) (by decide)⟩

/-- Instance of the shading rule: a depth above the range `[0, 1]`. -/
theorem depthIndex32_eq_round_witness :
    (0 : ℚ) < 1 ∧ depthIndex32 (3 / 2 : ℚ) 0 1 = specIndex (3 / 2 : ℚ) 0 1 ∧
    depthIndex32 (-1 / 2 : ℚ) 0 1 ≤ 11 :=
  ⟨by norm_num,
    (depthIndex32_eq_round (3 / 2 : ℚ) 0 1 (by norm_num) (by norm_num) (by norm_num)).1,
    ((depthIndex32_eq_round (3 / 2 : ℚ) 0 1 (by norm_num) (by norm_num)
      (by norm_num)).2.2.1 (-1 / 2)).2.1⟩

/-- Instance of the projector: a point with negative value before truncation. -/
theorem projectPoint32_spec_witness :
    (projectPoint32 (⟨-21 / 10, 39 / 10, 1⟩ : Point3D ℚ) 20 20).x
      = truncToInt ((-21 / 10 : ℚ) * 5 + ((Int.tdiv 20 2 : Int) : ℚ)) ∧
    (projectPoint32 (⟨-21 / 10, 39 / 10, 1⟩ : Point3D ℚ) 20 20).z = 1 :=
  have ht : Int.tdiv 20 2 = 10 := by decide
  have h := projectPoint32_spec (⟨-21 / 10, 39 / 10, 1⟩ : Point3D ℚ) 20 20
    (by rw [ht]; norm_num) (by rw [ht]; norm_num)
  ⟨h.1, h.2.2.1⟩

/-- Instance of the projector: the origin on the 20×20 grid goes to `(10, 10)`. -/
theorem projectPoint32_truncated_witness :
    (projectPoint32 (⟨0, 0, 0⟩ : Point3D ℚ) 20 20).x = 10 ∧
    (projectPoint32 (⟨0, 0, 0⟩ : Point3D ℚ) 20 20).y = 10 :=
  have ht : Int.tdiv 20 2 = 10 := by decide
  (projectPoint32_truncated (⟨0, 0, 0⟩ : Point3D ℚ) 20 20
    (by rw [ht]; norm_num) (by rw [ht]; norm_num)).2.2.2.2

/-- Instance of the half-pixel bound: the line from `(0, 0)` to `(10, 3)`. -/
theorem drawLine32_half_pixel_witness :
    (5 ≤ totalSteps 0 0 10 3) ∧
    2 * |((lineStateAt32 0 0 10 3 5).x - 0) * ((3 : Int) - 0)
        - ((lineStateAt32 0 0 10 3 5).y - 0) * ((10 : Int) - 0)| ≤ max |(10 : Int) - 0| |(3 : Int) - 0| :=
  ⟨by decide,
    (drawLine32_half_pixel (⟨0, 0, 0⟩ : ProjectedPoint ℚ) ⟨10, 3, 1⟩ 0 1
      (by decide) (by decide) (by decide) (by decide)).2.2.1 5 (by decide)⟩

/-- Instance of the iteration count: the line from `(0, 0)` to `(10, 3)`. -/
theorem drawLine32_iterations_witness :
    (blankScreen 20 20).length = 20 ∧
    ∀ fuel, drawLine32 fuel (blankScreen 20 20) (⟨0, 0, 0⟩ : ProjectedPoint ℚ) ⟨10, 3, 1⟩ 0 1 = none ↔
      fuel < totalSteps 0 0 10 3 + 1 :=
  ⟨by decide,
    (drawLine32_iterations (blankScreen 20 20) (⟨0, 0, 0⟩ : ProjectedPoint ℚ) ⟨10, 3, 1⟩ 0 1
      20 20 (by decide) (by decide) (by decide)
      (by decide) (by decide) (by decide) (by decide)).1⟩

end Instances32

section Agreement32

variable {K : Type} [LinearOrderedField K] [FloorRing K]

/-- The interpolated depth of a sample lies between bounds of the two end depths. -/
theorem interpolatedZ_between {K : Type} [LinearOrderedField K] (p1 p2 : ProjectedPoint K)
    (lo hi : K) (h1 : lo ≤ p1.z ∧ p1.z ≤ hi) (h2 : lo ≤ p2.z ∧ p2.z ≤ hi) (n k : Nat)
    (hk : k ≤ n) :
    lo ≤ interpolatedZ p1 p2 (n : K) (k : K) ∧ interpolatedZ p1 p2 (n : K) (k : K) ≤ hi := by
  unfold interpolatedZ
  simp only []
  split_ifs with h0
  · simpa using h1
  · have hn : (0 : K) < (n : K) := lt_of_le_of_ne (Nat.cast_nonneg n) (Ne.symm h0)
    have ht0 : (0 : K) ≤ (k : K) / (n : K) := div_nonneg (Nat.cast_nonneg k) hn.le
    have ht1 : (k : K) / (n : K) ≤ 1 := by
      rw [div_le_one hn]; exact_mod_cast hk
    constructor
    · nlinarith [mul_nonneg ht0 (sub_nonneg.mpr h2.1), mul_nonneg (sub_nonneg.mpr ht1) (sub_nonneg.mpr h1.1)]
    · nlinarith [mul_nonneg ht0 (sub_nonneg.mpr h2.2), mul_nonneg (sub_nonneg.mpr ht1) (sub_nonneg.mpr h1.2)]

/-- For a depth inside a non-empty range the 32-bit conversion of the ramp index
is exact. -/
theorem depthIndex32_eq_of_mem {K : Type} [LinearOrderedField K] [FloorRing K]
    (z min_z max_z : K) (hlt : min_z < max_z) (hz : min_z ≤ z ∧ z ≤ max_z) :
    depthIndex32 z min_z max_z = depthIndex z min_z max_z := by
  have hd : 0 < max_z - min_z := sub_pos.mpr hlt
  have h0 : 0 ≤ (z - min_z) / (max_z - min_z) := div_nonneg (sub_nonneg.mpr hz.1) hd.le
  have h1 : (z - min_z) / (max_z - min_z) ≤ 1 := by
    rw [div_le_one hd]; linarith
  have hlo : (-2147483648 : K) ≤ (z - min_z) / (max_z - min_z) * 11 + 0.5 := by
    norm_num; linarith
  have hhi : (z - min_z) / (max_z - min_z) * 11 + 0.5 < (2147483648 : K) := by
    norm_num; linarith
  simp only [depthIndex32, depthIndex, staticCastInt_eq _ hlo hhi]

/-- When both end depths lie in the range `[min_z, max_z]`, the ramp index of
every iteration is the same on 32-bit `int` and on exact integers. -/
theorem indexAt32_eq_exact (p1 p2 : ProjectedPoint K) (min_z max_z : K)
    (hx1 : -268435456 ≤ p1.x ∧ p1.x ≤ 268435456) (hy1 : -268435456 ≤ p1.y ∧ p1.y ≤ 268435456)
    (hx2 : -268435456 ≤ p2.x ∧ p2.x ≤ 268435456) (hy2 : -268435456 ≤ p2.y ∧ p2.y ≤ 268435456)
    (hlt : min_z < max_z) (hz1 : min_z ≤ p1.z ∧ p1.z ≤ max_z) (hz2 : min_z ≤ p2.z ∧ p2.z ≤ max_z)
    (k : Nat) (hk : k ≤ totalSteps p1.x p1.y p2.x p2.y) :
    indexAt32 p1 p2 min_z max_z k = indexAt p1 p2 min_z max_z k := by
  rw [indexAt32_eq p1 p2 min_z max_z hx1 hy1 hx2 hy2]
  unfold indexAt shadeIndex
  exact depthIndex32_eq_of_mem _ _ _ hlt (interpolatedZ_between _ _ _ _ hz1 hz2 _ _ hk)

/-- On a non-empty buffer with fewer than `2^31` rows and columns, for endpoints
with coordinates between `-2^28` and `2^28` and depths inside the range
`min_z < max_z`, the 32-bit `drawLine` and the exact one return the same, for
every amount of fuel. -/
theorem drawLine32_eq_exact_of_depths (fuel : Nat) (screen : Screen) (p1 p2 : ProjectedPoint K)
    (min_z max_z : K) (hne : screen ≠ [])
    (hw : (screen.headD []).length < 2147483648) (hh : screen.length < 2147483648)
    (hx1 : -268435456 ≤ p1.x ∧ p1.x ≤ 268435456) (hy1 : -268435456 ≤ p1.y ∧ p1.y ≤ 268435456)
    (hx2 : -268435456 ≤ p2.x ∧ p2.x ≤ 268435456) (hy2 : -268435456 ≤ p2.y ∧ p2.y ≤ 268435456)
    (hlt : min_z < max_z) (hz1 : min_z ≤ p1.z ∧ p1.z ≤ max_z)
    (hz2 : min_z ≤ p2.z ∧ p2.z ≤ max_z) :
    drawLine32 fuel screen p1 p2 min_z max_z = drawLine fuel screen p1 p2 min_z max_z := by
  by_cases hfuel : totalSteps p1.x p1.y p2.x p2.y < fuel
  · exact drawLine32_eq_exact fuel screen p1 p2 min_z max_z hne hw hh hx1 hy1 hx2 hy2 hfuel
      (fun k hk => indexAt32_eq_exact p1 p2 min_z max_z hx1 hy1 hx2 hy2 hlt hz1 hz2 k hk)
  · rw [drawLine32_none fuel screen p1 p2 min_z max_z hx1 hy1 hx2 hy2 (not_lt.mp hfuel),
      drawLine_none fuel screen p1 p2 min_z max_z (not_lt.mp hfuel)]

/-- Whatever the loop of the 32-bit `drawLine` returns is a replay of samples
through the bounds-checked write. -/
theorem drawLineLoop32_result (p1 p2 : ProjectedPoint K) (min_z max_z : K)
    (w h dx dy sx sy : Int) (ts : K) :
    ∀ (fuel : Nat) (screen out : Screen) (s : LineState) (cs : K),
      drawLineLoop32 p1 p2 min_z max_z w h dx dy sx sy ts fuel screen s cs = some out →
      ∃ samples : List (Int × Int × Char), out = plotAll w h screen samples := by
  intro fuel
  induction fuel with
  | zero =>
    intro screen out s cs hres
    simp [drawLineLoop32] at hres
  | succ f ih =>
    intro screen out s cs hres
    rw [drawLineLoop32] at hres
    split_ifs at hres with hend
    · cases hres
      exact ⟨[(s.x, s.y, rampChar (shadeIndex32 p1 p2 min_z max_z ts cs))], rfl⟩
    · obtain ⟨samples, hs⟩ := ih _ out _ _ hres
      exact ⟨(s.x, s.y, rampChar (shadeIndex32 p1 p2 min_z max_z ts cs)) :: samples, hs⟩

/-- For all endpoints, on a rectangular buffer of `height` rows and `width`
columns with `width, height < 2^31`, whatever the 32-bit `drawLine` returns has
the dimensions of the input, and a cell whose content changed has coordinates
`x < width`, `y < height`. -/
theorem drawLine32_frame (fuel : Nat) (screen out : Screen) (p1 p2 : ProjectedPoint K)
    (min_z max_z : K) (width height : Nat)
    (hheight : screen.length = height) (hwidth : ∀ row ∈ screen, row.length = width)
    (hw : width < 2147483648) (hh : height < 2147483648)
    (hres : drawLine32 fuel screen p1 p2 min_z max_z = some out) :
    out.length = height ∧ (∀ row ∈ out, row.length = width) ∧
    ∀ y x : Nat, getCell out y x ≠ getCell screen y x → x < width ∧ y < height := by
  cases screen with
  | nil => simp [drawLine32] at hres
  | cons row0 rest =>
    unfold drawLine32 at hres
    simp only [] at hres
    obtain ⟨samples, hs⟩ := drawLineLoop32_result _ _ _ _ _ _ _ _ _ _ _ _ _ _ _ _ hres
    have hrow0 : row0.length = width := hwidth row0 (List.mem_cons_self _ _)
    rw [wrap32_eq _ (by omega) (by omega), wrap32_eq _ (by omega) (by omega)] at hs
    have hmap := plotAll_map_length (row0.length : Int) ((row0 :: rest).length : Int) samples
      (row0 :: rest)
    rw [← hs] at hmap
    refine ⟨?_, ?_, ?_⟩
    · have := congrArg List.length hmap
      rw [List.length_map, List.length_map, hheight] at this
      exact this
    · intro row hrow
      have hmem : row.length ∈ List.map List.length (row0 :: rest) := by
        rw [← hmap]; exact List.mem_map_of_mem _ hrow
      obtain ⟨row2, hrow2, hlen⟩ := List.mem_map.mp hmem
      rw [← hlen]; exact hwidth row2 hrow2
    · intro y x hcell
      rw [hs] at hcell
      obtain ⟨q, _, hb, hqx, hqy⟩ := getCell_plotAll_ne _ _ _ y x _ hcell
      rw [hheight] at hb
      omega

end Agreement32

section Frame32

/-- On the vertices of the rotated cube the 32-bit projector is the exact one. -/
theorem projectPoint32_rotatedCube (aX aY : ℝ) (i : Int) (h0 : 0 ≤ i) (h8 : i < 8) :
    projectPoint32 (vertexAt (rotatedCube Real.cos Real.sin aX aY) i) 20 20
      = projectPoint (vertexAt (rotatedCube Real.cos Real.sin aX aY) i) 20 20 := by
  have hsq := rotatedCube_sq aX aY _ (vertexAt_rotatedCube_mem aX aY i h0 h8)
  have ht : Int.tdiv 20 2 = 10 := by decide
  have hb : ∀ c : ℝ, c ^ 2 ≤ 3 →
      staticCastInt (c * 5 + ((Int.tdiv 20 2 : Int) : ℝ))
        = truncToInt (c * 5 + ((Int.tdiv 20 2 : Int) : ℝ)) := by
    intro c hc
    have h1 : -(2 : ℝ) < c := by nlinarith
    have h2 : c < 2 := by nlinarith
    apply staticCastInt_eq
    · rw [ht]; push_cast; linarith
    · rw [ht]; push_cast; linarith
  unfold projectPoint32 projectPoint
  simp only []
  rw [hb _ (by nlinarith [sq_nonneg (vertexAt (rotatedCube Real.cos Real.sin aX aY) i).y, sq_nonneg (vertexAt (rotatedCube Real.cos Real.sin aX aY) i).z]),
    hb _ (by nlinarith [sq_nonneg (vertexAt (rotatedCube Real.cos Real.sin aX aY) i).x, sq_nonneg (vertexAt (rotatedCube Real.cos Real.sin aX aY) i).z])]

/-- On a 20×20 buffer and for every amount of fuel, the 32-bit drawing of an edge
of the rotated cube, with the depth range of the frame, is the exact one. -/
theorem drawEdge32_eq_exact (aX aY : ℝ) (fuel : Nat) (screen : Screen)
    (hdim : screen.map List.length = (blankScreen 20 20).map List.length)
    (e : Int × Int) (he : e ∈ (createCube ℝ).2) :
    drawEdge32 fuel (rotatedCube Real.cos Real.sin aX aY)
        (depthRange (rotatedCube Real.cos Real.sin aX aY)).1
        (depthRange (rotatedCube Real.cos Real.sin aX aY)).2 screen e
      = drawEdge fuel (rotatedCube Real.cos Real.sin aX aY)
        (depthRange (rotatedCube Real.cos Real.sin aX aY)).1
        (depthRange (rotatedCube Real.cos Real.sin aX aY)).2 screen e := by
  obtain ⟨h1, h2⟩ := cube_edge_range ℝ e he
  obtain ⟨hx1, hy1⟩ := projected_vertex_bounds aX aY e.1 h1.1 h1.2
  obtain ⟨hx2, hy2⟩ := projected_vertex_bounds aX aY e.2 h2.1 h2.2
  obtain ⟨hcov, hlt⟩ := depthRange_spec (rotatedCube Real.cos Real.sin aX aY)
  have hz1 := hcov _ (vertexAt_rotatedCube_mem aX aY e.1 h1.1 h1.2)
  have hz2 := hcov _ (vertexAt_rotatedCube_mem aX aY e.2 h2.1 h2.2)
  have hne : screen ≠ [] := by
    intro h; rw [h] at hdim; simp [blankScreen] at hdim
  have hlen : screen.length = 20 := by
    have := congrArg List.length hdim
    simpa [blankScreen] using this
  have hhead : (screen.headD []).length = 20 := by
    cases screen with
    | nil => exact absurd rfl hne
    | cons row rest =>
      have : (List.map List.length (row :: rest)).head? = some 20 := by
        rw [hdim]; rfl
      simpa using this
  unfold drawEdge32 drawEdge
  simp only []
  rw [projectPoint32_rotatedCube aX aY e.1 h1.1 h1.2,
    projectPoint32_rotatedCube aX aY e.2 h2.1 h2.2]
  exact drawLine32_eq_exact_of_depths fuel screen _ _ _ _ hne (by omega) (by omega)
    (by omega) (by omega) (by omega) (by omega) hlt hz1 hz2

/-- Two monadic folds agree when their steps agree on the states that satisfy an
invariant kept by the steps. -/
theorem foldlM_congr_inv {α β : Type} (P : β → Prop) (f g : β → α → Option β) (l : List α)
    (hfg : ∀ b, ∀ a ∈ l, P b → f b a = g b a)
    (hP : ∀ b, ∀ a ∈ l, ∀ b2, P b → g b a = some b2 → P b2) :
    ∀ b : β, P b → l.foldlM f b = l.foldlM g b := by
  induction l with
  | nil => intro b _; rfl
  | cons a l ih =>
    intro b hb
    rw [List.foldlM_cons, List.foldlM_cons, hfg b a (List.mem_cons_self _ _) hb]
    cases hg : g b a with
    | none => rfl
    | some b2 =>
      exact ih (fun b3 a3 ha3 => hfg b3 a3 (List.mem_cons_of_mem _ ha3))
        (fun b3 a3 ha3 => hP b3 a3 (List.mem_cons_of_mem _ ha3)) b2
        (hP b a (List.mem_cons_self _ _) b2 hb hg)

/-- Drawing a line keeps the dimensions of the buffer. -/
theorem drawLine_map_length {K : Type} [LinearOrderedField K] [FloorRing K]
    (fuel : Nat) (screen out : Screen) (p1 p2 : ProjectedPoint K)
    (min_z max_z : K) (h : drawLine fuel screen p1 p2 min_z max_z = some out) :
    out.map List.length = screen.map List.length := by
  by_cases hfuel : totalSteps p1.x p1.y p2.x p2.y < fuel
  · rw [drawLine_eq fuel screen p1 p2 min_z max_z hfuel] at h
    cases h
    exact plotAll_map_length _ _ _ _
  · rw [drawLine_none fuel screen p1 p2 min_z max_z (not_lt.mp hfuel)] at h
    cases h

/-- For every pair of real angles and every amount of fuel, the frame composed
with 32-bit `int` (32-bit projector, 32-bit rasterizer) is the frame composed
with exact integers: no projected coordinate, no step of a line and no ramp
index of a frame leaves the range of `int`. -/
theorem composeFrame32_eq_exact (aX aY : ℝ) (fuel : Nat) :
    composeFrame32 Real.cos Real.sin fuel aX aY = composeFrame Real.cos Real.sin fuel aX aY := by
  unfold composeFrame32 composeFrame
  exact foldlM_congr_inv
    (fun s : Screen => s.map List.length = (blankScreen 20 20).map List.length) _ _ _
    (fun s e he hs => drawEdge32_eq_exact aX aY fuel s hs e he)
    (fun s e _ s2 hs h => (drawLine_map_length fuel s s2 _ _ _ _ h).trans hs)
    (blankScreen 20 20) rfl

end Frame32

end Machine

end CppCube
